import Mathlib

/-!
# CaboCha dependency attachment engine (`src/dep.cpp`)

A shallow embedding of `DependencyParser::build`, `DependencyParser::estimate`
and `DependencyParser::parse`, followed by theorems about them.

Modelling conventions.

* A feature is a C string (`char *`).  It is modelled by value as a `String`;
  the caches of the source hold pointers into the feature strings owned by the
  chunks, here every cache entry carries its own copy.  The in-place rewrite
  of the first byte (`x[0] = c`) is modelled on the cache entry (`retag`).
  Aliasing between two cache entries that point to the same storage is
  therefore outside the model; in `parse` every stored pointer sits in at most
  one of the pools that one call of `estimate` rewrites.
* `std::vector<std::vector<char *> >` is `List (List String)`; `v[i]` is
  `pool v i` and an assignment into `v[i]` is `List.set`.  An index outside the
  vector is undefined behaviour in the source; the model reads `[]` and
  ignores the write.
* `size_t` and the non-negative `int` indices are `Nat`; the two `int`
  expressions whose sign matters (`chunk_size() - 1 == dst`, `dst - src`) are
  computed in `Int`.  The index `dst * (dst + 1) / 2 + src` is read by the
  model of `estimate` without overflow (`gapIndex`); the 32-bit `int`
  computation of the source is `gapIndexInt`, which is the same number for
  sentences of at most 46341 chunks and overflows beyond.
* Scores are `double` in the source.  Only the test `*score > 0`, the constant
  `0.0` and copying occur, so a score is modelled as an `Int`.
* The classifier `svm_->classify(fsize, fp_)` is a parameter `svm`, a function
  of the feature sequence it is handed.
* The helper `_min` (declared outside `dep.cpp`) is `min`.
* The sentinel `-1` of `MYPOP` is `none`; stack entries are chunk indices.
-/

namespace CaboCha

/-! ## Data model -/

/-- The constant `MAX_GAP_SIZE` (dep.cpp:21). -/
def MAX_GAP_SIZE : Nat := 7

/-- Modelled from the spec: the mode switch `action_mode()` is declared outside
`dep.cpp`; the engine runs in inference mode (`PARSING_MODE`, the only value
`dep.cpp` names) or in training-data-generation mode (every other value, here
`TRAINING_MODE`). -/
inductive ActionMode where
  | PARSING_MODE
  | TRAINING_MODE
  deriving DecidableEq

/-- Modelled from the spec: `Chunk` is declared in `cabocha.h`, which is not among
the sources.  A chunk exposes its raw tagged features (`feature_list`, with
`feature_list_size` its length), a mutable head index `link` and a mutable
attachment `score`; these are the fields `dep.cpp` uses. -/
structure Chunk where
  feature_list : List String
  link : Int
  score : Int
  deriving DecidableEq

/-- Modelled from the spec: `Tree` is declared in `cabocha.h`, which is not among
the sources.  A sentence is its ordered chunk sequence, and `output_dep` tells
whether it has been marked as having a completed dependency layer
(`set_output_layer(OUTPUT_DEP)`). -/
structure Tree where
  chunks : List Chunk
  output_dep : Bool
  deriving DecidableEq

/-- The call `tree->chunk_size()`. -/
def Tree.chunk_size (t : Tree) : Nat := t.chunks.length

/-- The value `tree->chunk(i)->link`; reading past the end is undefined in the
source and gives `-1` here. -/
def Tree.link (t : Tree) (i : Nat) : Int :=
  match t.chunks[i]? with
  | some c => c.link
  | none => -1

/-- The list `tree->chunk(i)->feature_list`, empty past the end. -/
def Tree.feature_list (t : Tree) (i : Nat) : List String :=
  match t.chunks[i]? with
  | some c => c.feature_list
  | none => []

/-- The value `tree->chunk(i)->score`, `0` past the end. -/
def Tree.score (t : Tree) (i : Nat) : Int :=
  match t.chunks[i]? with
  | some c => c.score
  | none => 0

/-- The two assignments `chunk->link = dst; chunk->score = score;` on chunk
`src` (dep.cpp:191-193). -/
def Tree.attach (t : Tree) (src dst : Nat) (score : Int) : Tree :=
  match t.chunks[src]? with
  | some c => { t with chunks := t.chunks.set src { c with link := (dst : Int), score := score } }
  | none => t

/-- The members of `DependencyParser` that `build`, `estimate` and `parse`
touch, under the names `dep.cpp` uses, and the training sink `*stream()`.  The
class is declared in `dep.h`, which is not among the sources; the types are
read off the operations `dep.cpp` applies to each member. -/
structure DependencyParser where
  static_feature_ : List (List String)
  dyn_b_feature_ : List (List String)
  dyn_b_ : List (List String)
  dyn_a_feature_ : List (List String)
  dyn_a_ : List (List String)
  gap_ : List (List String)
  gap_list_ : List (List String)
  fpset_ : List String
  fp_ : List String
  stream : String
  deriving DecidableEq

/-- The element `v[i]` of a vector of pools. -/
def pool (v : List (List String)) (i : Nat) : List String := v.getD i []

/-- The call `v[i].push_back(x)`. -/
def push_back (v : List (List String)) (i : Nat) (x : String) : List (List String) :=
  v.set i (pool v i ++ [x])

/-- The call `std::copy(xs.begin(), xs.end(), std::back_inserter(v[i]))`. -/
def copy_back (v : List (List String)) (i : Nat) (xs : List String) : List (List String) :=
  v.set i (pool v i ++ xs)

/-! ## `build` (dep.cpp:45-90) -/

/-- The test `feature[0] == c`; an empty string has `feature[0] == 0` and
matches no tag. -/
def hasTag (c : Char) (feature : String) : Bool := decide (feature.data.head? = some c)

/-- The `switch (feature[0])` of dep.cpp:69-76 for one feature of chunk `i`. -/
def route (i : Nat) (p : DependencyParser) (feature : String) : DependencyParser :=
  if hasTag 'F' feature = true then
    { p with static_feature_ := push_back p.static_feature_ i feature }
  else if hasTag 'G' feature = true then
    { p with gap_list_ := push_back p.gap_list_ i feature }
  else if hasTag 'A' feature = true then
    { p with dyn_a_feature_ := push_back p.dyn_a_feature_ i feature }
  else if hasTag 'B' feature = true then
    { p with dyn_b_feature_ := push_back p.dyn_b_feature_ i feature }
  else p

/-- The loop of dep.cpp:65-78 from chunk index `i` on; the list holds the
chunks `i, i+1, ...`. -/
def partitionFrom : Nat → List Chunk → DependencyParser → DependencyParser
  | _, [], p => p
  | i, c :: cs, p => partitionFrom (i + 1) cs (c.feature_list.foldl (route i) p)

/-- The linear index `j*(j+1)/2+i` of the pair `(i, j)` in `gap_` as `build`
computes it at dep.cpp:87, in `size_t`, here without a bound.  The function
`estimate` computes the same expression in 32-bit `int` (dep.cpp:121,
`gapIndexInt` below); the two agree as long as `j <= 46340`, that is for
sentences of at most 46341 chunks, and the model of `estimate` reads the slot
`gapIndex src dst`. -/
def gapIndex (i j : Nat) : Nat := j * (j + 1) / 2 + i

/-- The innermost loop of dep.cpp:85-87 for fixed `k` and `i`. -/
def gapLoopJ (size : Nat) (gl : List (List String)) (k i : Nat)
    (gap : List (List String)) : List (List String) :=
  (List.range' (k + 1) (size - (k + 1))).foldl
    (fun g j => copy_back g (gapIndex i j) (pool gl k)) gap

/-- The loop of dep.cpp:84-87 for fixed `k`. -/
def gapLoopI (size : Nat) (gl : List (List String)) (k : Nat)
    (gap : List (List String)) : List (List String) :=
  (List.range k).foldl (fun g i => gapLoopJ size gl k i g) gap

/-- The triple loop of dep.cpp:83-87. -/
def gapLoop (size : Nat) (gl : List (List String))
    (gap : List (List String)) : List (List String) :=
  (List.range size).foldl (fun g k => gapLoopI size gl k g) gap

/-- The function `DependencyParser::build`: clears and resizes the caches,
partitions the raw features and fills the gap cache.  Returns `size` and the
new parser state. -/
def build (tree : Tree) (p : DependencyParser) : Nat × DependencyParser :=
  let size := tree.chunk_size
  let p1 : DependencyParser :=
    { p with
      static_feature_ := List.replicate size []
      dyn_b_feature_ := List.replicate size []
      dyn_b_ := List.replicate size []
      dyn_a_feature_ := List.replicate size []
      dyn_a_ := List.replicate size []
      gap_ := []
      gap_list_ := List.replicate size [] }
  let p2 := partitionFrom 0 tree.chunks p1
  let p3 : DependencyParser :=
    { p2 with gap_ := gapLoop size p2.gap_list_ (List.replicate (size * (size + 3) / 2 + 1) []) }
  (size, p3)

/-! ## `estimate` (dep.cpp:92-169) -/

/-- The assignment `x[0] = c` on a feature string. -/
def retag (c : Char) (x : String) : String := ⟨c :: x.data.tail⟩

/-- The identity of a feature: the string without its first character, the
role tag. -/
def untag (x : String) : List Char := x.data.tail

/-- Modelled from the spec: the comparator of `fpset_` is declared in `dep.h`,
which is not among the sources.  The spec asks for an ordered, duplicate-free
set keyed by the feature string; the order taken here is the lexicographic
order of the character sequences, that of `strcmp(s1, s2) < 0`. -/
def cmpstr (s1 s2 : String) : Bool := decide (s1.data < s2.data)

/-- Modelled from the spec: the declaration of `fpset_` (in `dep.h`) is not part of
the sources; the spec describes an ordered, duplicate-free set of feature
strings whose insertion is idempotent.  It is kept as its ascending element
sequence under `cmpstr`, and `fpInsert x` is the call `fpset_.insert(x)`: an
element equivalent to `x` blocks the insertion. -/
def fpInsert (x : String) : List String → List String
  | [] => [x]
  | y :: r =>
    if cmpstr x y = true then x :: y :: r
    else if cmpstr y x = true then y :: fpInsert x r
    else y :: r

/-- A loop `for (...) fpset_.insert(xs[i]);` over the entries `xs`. -/
def insertAll (xs : List String) (fpset : List String) : List String :=
  xs.foldl (fun acc x => fpInsert x acc) fpset

/-- The pool after a loop `for (i = 0; i < n; ++i) xs[i][0] = c;`. -/
def retagFirst (c : Char) (n : Nat) (xs : List String) : List String :=
  (xs.take n).map (retag c) ++ xs.drop n

/-- The distance feature chosen at dep.cpp:103-105 from `dist = dst - src`. -/
def distFeature (dist : Int) : String :=
  if dist = 1 then "DIST:1"
  else if 2 ≤ dist ∧ dist ≤ 5 then "DIST:2-5"
  else "DIST:6-"

/-- The value that a 32-bit `int` holds when the mathematical result of an
operation is `z`: the representative of `z` modulo `2^32` in the range from
`-2^31` to `2^31 - 1`.  Signed overflow is undefined in C++; this is the
two's-complement wrap-around of the usual targets. -/
def wrapInt32 (z : Int) : Int := (z + 2147483648) % 4294967296 - 2147483648

/-- The index `int k = dst * (dst + 1) / 2 + src` of dep.cpp:121 as `estimate`
computes it: every operation in 32-bit `int`, the division truncating. -/
def gapIndexInt (src dst : Nat) : Int :=
  wrapInt32 (Int.tdiv (wrapInt32 ((dst : Int) * wrapInt32 ((dst : Int) + 1))) 2 + (src : Int))

/-- The feature assembly of `estimate`, dep.cpp:101-146: fills `fpset_`,
rewrites the role tags in the caches and copies the set into `fp_`. -/
def assemble (src dst : Nat) (p : DependencyParser) : DependencyParser :=
  -- fpset_.clear(); distance feature
  let fp0 := fpInsert (distFeature ((dst : Int) - (src : Int))) []
  -- static features of src, tagged 'f'
  let sf1 := p.static_feature_.set src ((pool p.static_feature_ src).map (retag 'f'))
  let fp1 := insertAll (pool sf1 src) fp0
  -- static features of dst, tagged 'F'
  let sf2 := sf1.set dst ((pool sf1 dst).map (retag 'F'))
  let fp2 := insertAll (pool sf2 dst) fp1
  -- gap features; `k` is an `int` in the source, see `gapIndexInt`
  let k := gapIndex src dst
  let fp3 := insertAll ((pool p.gap_ k).take (min (pool p.gap_ k).length MAX_GAP_SIZE)) fp2
  -- dyn_a_[dst], tagged 'A'
  let n4 := min (pool p.dyn_a_ dst).length MAX_GAP_SIZE
  let da1 := p.dyn_a_.set dst (retagFirst 'A' n4 (pool p.dyn_a_ dst))
  let fp4 := insertAll ((pool da1 dst).take n4) fp3
  -- dyn_a_[src], tagged 'a'
  let n5 := min (pool da1 src).length MAX_GAP_SIZE
  let da2 := da1.set src (retagFirst 'a' n5 (pool da1 src))
  let fp5 := insertAll ((pool da2 src).take n5) fp4
  -- dyn_b_[dst], tagged 'B'
  let n6 := min (pool p.dyn_b_ dst).length MAX_GAP_SIZE
  let db1 := p.dyn_b_.set dst (retagFirst 'B' n6 (pool p.dyn_b_ dst))
  let fp6 := insertAll ((pool db1 dst).take n6) fp5
  -- fsize = fpset_.size(); std::copy(fpset_.begin(), fpset_.end(), fp_)
  { p with
    static_feature_ := sf2
    dyn_a_ := da2
    dyn_b_ := db1
    fpset_ := fp6
    fp_ := fp6 ++ p.fp_.drop fp6.length }

/-- The sequence of strings that one run of the assembly offers to `fpset_`,
in the order of the `insert` calls of dep.cpp:103-143, written from the state
before the call. -/
def candidates (src dst : Nat) (p : DependencyParser) : List String :=
  [distFeature ((dst : Int) - (src : Int))]
    ++ (pool p.static_feature_ src).map (retag 'f')
    ++ (pool p.static_feature_ dst).map (retag 'F')
    ++ (pool p.gap_ (gapIndex src dst)).take MAX_GAP_SIZE
    ++ ((pool p.dyn_a_ dst).take MAX_GAP_SIZE).map (retag 'A')
    ++ ((pool p.dyn_a_ src).take MAX_GAP_SIZE).map (retag 'a')
    ++ ((pool p.dyn_b_ dst).take MAX_GAP_SIZE).map (retag 'B')

/-- The text of one training record (dep.cpp:160-164): the label, every
feature preceded by one space, and the end of line. -/
def record (isdep : Bool) (fp : List String) : String :=
  (fp.foldl (fun acc x => acc ++ " " ++ x) (if isdep then "+1" else "-1")) ++ "\n"

/-- The result of `estimate`: the returned flag, the value of `*score` after
the call and the parser state after the call. -/
structure Estimate where
  accept : Bool
  score : Int
  dp : DependencyParser
  deriving DecidableEq

/-- The function `DependencyParser::estimate`.  `svm` is `svm_->classify`
applied to the first `fsize` entries of `fp_`; `score` is the value of
`*score` before the call. -/
def estimate (mode : ActionMode) (svm : List String → Int) (tree : Tree)
    (src dst : Nat) (score : Int) (p : DependencyParser) : Estimate :=
  let is_end : Bool := decide ((tree.chunk_size : Int) - 1 = (dst : Int))
  if mode = ActionMode.PARSING_MODE ∧ is_end = true then
    { accept := true, score := 0, dp := p }
  else
    let p1 := assemble src dst p
    let fsize := p1.fpset_.length
    if mode = ActionMode.PARSING_MODE then
      let s := svm (p1.fp_.take fsize)
      { accept := decide (s > 0), score := s, dp := p1 }
    else
      let isdep : Bool := is_end || decide (tree.link src = (dst : Int))
      { accept := isdep
        score := score
        dp := { p1 with stream := p1.stream ++ record isdep (p1.fp_.take fsize) } }

/-! ## `parse` (dep.cpp:171-212) -/

/-- The macro `MYPOP(agenda, n)`: the top of the stack is the head of the
list; `none` stands for `n = -1`. -/
def MYPOP (agenda : List Nat) : Option Nat × List Nat :=
  match agenda with
  | [] => (none, [])
  | n :: rest => (some n, rest)

/-- One call of `estimate` as seen from `parse`: its arguments, its result and
the stack below the popped `src` at the time of the call. -/
structure Call where
  src : Nat
  dst : Nat
  accept : Bool
  agenda : List Nat
  deriving DecidableEq

/-- The state of a run of `parse`: the tree, the parser object, the locals
`score` and `agenda`, the record `log` of the calls of `estimate` made so
far, oldest first, and the record `before` of the parser state each of these
calls was entered with, in the same order.  `log` and `before` are
observations only, nothing is computed from them. -/
structure Run where
  tree : Tree
  dp : DependencyParser
  score : Int
  agenda : List Nat
  log : List Call
  before : List DependencyParser
  deriving DecidableEq

/-- The body of the `while` loop, dep.cpp:191-201, without the final `MYPOP`:
sets the head and score of `src` and copies the propagated features. -/
def commit (src dst : Nat) (r : Run) : Run :=
  { r with
    tree := r.tree.attach src dst r.score
    dp := { r.dp with
      dyn_b_ := copy_back r.dp.dyn_b_ src (pool r.dp.dyn_b_feature_ dst)
      dyn_a_ := copy_back r.dp.dyn_a_ dst (pool r.dp.dyn_a_feature_ src) } }

/-- The call `estimate(tree, src, dst, &score)` inside a run, with the call
appended to the log and the parser state it starts from to `before`. -/
def callEstimate (mode : ActionMode) (svm : List String → Int) (src dst : Nat)
    (r : Run) : Bool × Run :=
  let e := estimate mode svm r.tree src dst r.score r.dp
  (e.accept,
    { r with dp := e.dp, score := e.score,
             log := r.log ++ [{ src := src, dst := dst, accept := e.accept, agenda := r.agenda }],
             before := r.before ++ [r.dp] })

/-- The `while` loop of dep.cpp:190-204 for the round `dst`, entered with the
popped candidate (`none` for `-1`) and the stack that remains below it.
Returns the value of `src` at loop exit and the state; the `MYPOP` that ends
the loop body is the `match` on the remaining stack. -/
def whileLoop (mode : ActionMode) (svm : List String → Int) (dst : Nat) :
    Option Nat → List Nat → Run → Option Nat × Run
  | none, agenda, r => (none, { r with agenda := agenda })
  | some src, agenda, r =>
    let c := callEstimate mode svm src dst { r with agenda := agenda }
    if c.1 = true then
      match agenda with
      | [] => (none, commit src dst c.2)
      | n :: rest => whileLoop mode svm dst (some n) rest (commit src dst c.2)
    else (some src, c.2)

/-- One iteration of the `for` loop, dep.cpp:188-206. -/
def round (mode : ActionMode) (svm : List String → Int) (r : Run) (dst : Nat) : Run :=
  let popped := MYPOP r.agenda
  let w := whileLoop mode svm dst popped.1 popped.2 r
  let agenda1 := match w.1 with
    | some src => src :: w.2.agenda
    | none => w.2.agenda
  { w.2 with agenda := dst :: agenda1 }

/-- The state of `parse` when `build` has run and the stack holds chunk 0
(dep.cpp:182-186). -/
def initRun (tree : Tree) (p : DependencyParser) : Run :=
  { tree := tree, dp := (build tree p).2, score := 0, agenda := [0], log := [], before := [] }

/-- The state of `parse` after the rounds `dst = 1, ..., d` of the `for` loop. -/
def runUpTo (mode : ActionMode) (svm : List String → Int) (tree : Tree)
    (p : DependencyParser) (d : Nat) : Run :=
  (List.range' 1 d).foldl (round mode svm) (initRun tree p)

/-- The function `parse` up to the end of the `for` loop (dep.cpp:181-207), with all
locals still visible. -/
def parseRun (mode : ActionMode) (svm : List String → Int) (tree : Tree)
    (p : DependencyParser) : Run :=
  let size := tree.chunk_size
  (List.range' 1 (size - 1)).foldl (round mode svm) (initRun tree p)

/-- The function `DependencyParser::parse`: the tree and the parser state when
it returns. -/
def parse (mode : ActionMode) (svm : List String → Int) (tree : Tree)
    (p : DependencyParser) : Tree × DependencyParser :=
  let r := parseRun mode svm tree p
  ({ r.tree with output_dep := true }, r.dp)

/-! ## Vocabulary for statements about a run of `parse` -/

/-- The stack as the code after the `while` loop sees it: the rejected `src`
pushed back (dep.cpp:205) on the remaining stack. -/
def stackAfter (w : Option Nat × Run) : List Nat :=
  match w.1 with
  | some src => src :: w.2.agenda
  | none => w.2.agenda

/-- The calls of `estimate` made in one round `dst` that accepts the stack
entries `acc` (top first) and then either runs out of stack (`rest = []`) or
rejects the top of `rest`. -/
def callsOf (dst : Nat) : List Nat → List Nat → List Call
  | [], [] => []
  | [], s :: rest => [{ src := s, dst := dst, accept := false, agenda := rest }]
  | a :: acc, rest =>
    { src := a, dst := dst, accept := true, agenda := acc ++ rest } :: callsOf dst acc rest

/-- The chunks that have been given a head according to a log: the sources of
the accepted calls, oldest first. -/
def attached (log : List Call) : List Nat :=
  (log.filter (fun e => e.accept)).map (fun e => e.src)

/-- The head link of chunk `i` read as a chunk index. -/
def Tree.head (t : Tree) (i : Nat) : Nat := (t.link i).toNat

/-- What holds of a run of `parse` on `tree0` after the round `dst = d` (after
the initialisation for `d = 0`): the stack is strictly decreasing from its
top `d`; every chunk up to `d` is on the stack or has been given a head,
never both, and a head at most once; every call was made for a source below
its destination; the head link of a chunk is the destination of the call that
accepted it, and the initial value when no call accepted it; at the time of
a call neither its source nor the stack below it holds a chunk that already
had a head; and after the round of the last chunk only that chunk is on the
stack. -/
structure RunInv (tree0 : Tree) (d : Nat) (r : Run) : Prop where
  size : r.tree.chunk_size = tree0.chunk_size
  feats : ∀ i, r.tree.feature_list i = tree0.feature_list i
  top : ∃ tl, r.agenda = d :: tl
  sorted : r.agenda.Pairwise (fun a b => b < a)
  cover : ∀ i, i ≤ d → i ∈ r.agenda ∨ i ∈ attached r.log
  disjoint : ∀ i, i ∈ r.agenda → i ∉ attached r.log
  nodup : (attached r.log).Nodup
  calls : ∀ e ∈ r.log, e.src < e.dst ∧ e.dst ≤ d
  links : ∀ e ∈ r.log, e.accept = true → r.tree.link e.src = (e.dst : Int)
  frame : ∀ i, i ∉ attached r.log → r.tree.link i = tree0.link i
  fresh : ∀ L1 e L2, r.log = L1 ++ e :: L2 →
    e.src ∉ attached L1 ∧ ∀ x ∈ e.agenda, x ∉ attached L1
  last : (tree0.chunk_size : Int) - 1 = (d : Int) → r.agenda = [d]

/-- The part of the parser state that stays as `build` left it during the
whole run: the gap cache, the gap-source lists, the seed pools, the number of
pools, and the identities held by the static pools. -/
def Stable (p0 p : DependencyParser) : Prop :=
  p.gap_ = p0.gap_ ∧ p.gap_list_ = p0.gap_list_ ∧
  p.dyn_a_feature_ = p0.dyn_a_feature_ ∧ p.dyn_b_feature_ = p0.dyn_b_feature_ ∧
  p.static_feature_.length = p0.static_feature_.length ∧
  p.dyn_a_.length = p0.dyn_a_.length ∧ p.dyn_b_.length = p0.dyn_b_.length ∧
  ∀ i, (pool p.static_feature_ i).map untag = (pool p0.static_feature_ i).map untag

/-- The facts about `dyn_b_` carried through the round `d`: the log and the
record of states have the same length; the pools of `dyn_b_` from index `d`
on are empty; and every call so far was entered with an empty `dyn_b_[dst]`
and with the gap cache `G`. -/
def DynBInv (G : List (List String)) (d : Nat) (r : Run) : Prop :=
  r.log.length = r.before.length ∧
  (∀ x, d ≤ x → pool r.dp.dyn_b_ x = []) ∧
  (∀ es ∈ List.zip r.log r.before, pool es.2.dyn_b_ es.1.dst = [] ∧ es.2.gap_ = G) ∧
  r.dp.gap_ = G

/-- What holds of the arcs made so far after every round: no stack entry lies
strictly inside an arc (between the source and the destination of an accepted
call); two arcs do not cross; and a chunk rejected for a destination gets its
head, if at all, from a later destination. -/
structure ArcInv (r : Run) : Prop where
  inside : ∀ e ∈ r.log, e.accept = true → ∀ x ∈ r.agenda, ¬ (e.src < x ∧ x < e.dst)
  nocross : ∀ e1 ∈ r.log, ∀ e2 ∈ r.log, e1.accept = true → e2.accept = true →
    e1.src < e2.src → e2.src < e1.dst → e2.dst ≤ e1.dst
  later : ∀ e ∈ r.log, ∀ e2 ∈ r.log, e.accept = false → e2.accept = true →
    e2.src = e.src → e.dst < e2.dst

/-- The sink after a training-mode run that started with the sink `s0`: one
record per call of the log, in order, labelled by the decision of the call and
listing the feature set assembled from the state the call was entered
with. -/
def sinkAfter (s0 : String) (log : List Call) (before : List DependencyParser) : String :=
  (List.zip log before).foldl
    (fun acc es => acc ++ record es.1.accept (assemble es.1.src es.1.dst es.2).fpset_) s0

/-- Two parser states with the same caches; the set, the buffer and the sink
may differ. -/
def SameCaches (a b : DependencyParser) : Prop :=
  a.static_feature_ = b.static_feature_ ∧ a.dyn_b_feature_ = b.dyn_b_feature_ ∧
  a.dyn_b_ = b.dyn_b_ ∧ a.dyn_a_feature_ = b.dyn_a_feature_ ∧ a.dyn_a_ = b.dyn_a_ ∧
  a.gap_ = b.gap_ ∧ a.gap_list_ = b.gap_list_

/-- The relation kept between an inference-mode run `r1` and a training-mode
run `r2` on the same sentence with gold links `g`, as long as the round of the
last chunk has not begun: same calls so far, same caches now and at every
call, and the training run still has the gold links. -/
structure SimRel (g : Nat → Int) (N : Nat) (r1 r2 : Run) : Prop where
  log : r1.log = r2.log
  caches : SameCaches r1.dp r2.dp
  before : List.Forall₂ SameCaches r1.before r2.before
  size1 : r1.tree.chunk_size = N
  size2 : r2.tree.chunk_size = N
  links : ∀ i, r2.tree.link i = g i

/-! ## Concrete inputs used by the examples -/

/-- A parser object whose caches, set, buffer and sink are all empty. -/
def emptyParser : DependencyParser := ⟨[], [], [], [], [], [], [], [], [], ""⟩

/-- A chunk with the given raw features, no head (`-1`) and score `0`. -/
def mkChunk (fs : List String) : Chunk := ⟨fs, -1, 0⟩

/-- A sentence with the given raw features per chunk. -/
def mkTree (fss : List (List String)) : Tree := ⟨fss.map mkChunk, false⟩

/-- Four chunks; chunk 1 is the only one with a gap feature, and it also has a
feature of every other kind, one with an unknown tag and an empty one. -/
def gapExample : Tree :=
  mkTree [["F:a"], ["G:x", "F:b", "A:q", "B:r", "zz", ""], ["F:c"], ["F:d"]]

/-- A parser state for the pair (0, 2) of a three-chunk sentence in which each
of the four capped pools holds eight entries. -/
def capExample : DependencyParser :=
  { static_feature_ := [["F:s"], [], ["F:d"]]
    dyn_b_feature_ := [[], [], []]
    dyn_b_ := [[], [], ["B:1", "B:2", "B:3", "B:4", "B:5", "B:6", "B:7", "B:8"]]
    dyn_a_feature_ := [[], [], []]
    dyn_a_ := [["A:p1", "A:p2", "A:p3", "A:p4", "A:p5", "A:p6", "A:p7", "A:p8"], [],
               ["A:q1", "A:q2", "A:q3", "A:q4", "A:q5", "A:q6", "A:q7", "A:q8"]]
    gap_ := [[], [], [], ["G:1", "G:2", "G:3", "G:4", "G:5", "G:6", "G:7", "G:8"]]
    gap_list_ := [[], ["G:1", "G:2", "G:3", "G:4", "G:5", "G:6", "G:7", "G:8"], []]
    fpset_ := []
    fp_ := []
    stream := "" }

/-- A classifier that scores `1` on a feature list containing `DIST:1` and `-1`
on any other. -/
def distanceOneSvm (fs : List String) : Int := if "DIST:1" ∈ fs then 1 else -1

/-- The three strings that dep.cpp:103-105 can insert as the distance
feature. -/
def bucketFeatures : List String := ["DIST:1", "DIST:2-5", "DIST:6-"]

/-- Seven chunks, the first and the last with one static feature. -/
def sevenExample : Tree := mkTree [["F:a"], [], [], [], [], [], ["F:g"]]

/-- A classifier that rejects every pair. -/
def rejectSvm (_fs : List String) : Int := -1

/-- Three chunks, the first two with one static feature each and no gap or
propagated features. -/
def chainExample : Tree := mkTree [["F:a"], ["F:b"], []]

/-- A chunk with the given raw features and gold head. -/
def goldChunk (fs : List String) (link : Int) : Chunk := ⟨fs, link, 0⟩

/-- Four chunks with the projective gold heads 1, 3, 3 (chunk 3 is the last
chunk and has none). -/
def goldExample : Tree :=
  ⟨[goldChunk ["F:a"] 1, goldChunk ["G:x", "F:b", "A:q"] 3, goldChunk ["F:c"] 3,
    goldChunk ["F:d"] (-1)], false⟩

/-- The sentence of `goldExample` as inference sees it: the same features, no
heads yet. -/
def goldInput : Tree :=
  mkTree [["F:a"], ["G:x", "F:b", "A:q"], ["F:c"], ["F:d"]]

/-- A classifier that scores `1` on a feature list containing `f:a` (the source
is chunk 0 of `goldInput`) and `-1` on any other. -/
def sourceASvm (fs : List String) : Int := if "f:a" ∈ fs then 1 else -1


/-! ## Auxiliary facts about pools and about `build` -/

theorem pool_set_self (v : List (List String)) (i : Nat) (x : List String)
    (h : i < v.length) : pool (v.set i x) i = x := by
  simp [pool, List.getD_eq_getElem?_getD, List.getElem?_set, h]

theorem pool_set_ne (v : List (List String)) (i j : Nat) (x : List String)
    (h : i ≠ j) : pool (v.set i x) j = pool v j := by
  simp [pool, List.getD_eq_getElem?_getD, List.getElem?_set, h]

theorem pool_of_length_le (v : List (List String)) (i : Nat) (h : v.length ≤ i) :
    pool v i = [] := by
  simp [pool, List.getD_eq_getElem?_getD, List.getElem?_eq_none h]

theorem set_of_length_le (v : List (List String)) (i : Nat) (x : List String)
    (h : v.length ≤ i) : v.set i x = v := by
  apply List.ext_getElem? 
  intro n
  rw [List.getElem?_set]
  split
  · next h1 => subst h1; simp [List.getElem?_eq_none h]; omega
  · rfl

theorem pool_replicate (n i : Nat) : pool (List.replicate n []) i = [] := by
  unfold pool
  rw [List.getD_eq_getElem?_getD]
  by_cases h : i < n
  · simp [List.getElem?_replicate, h]
  · simp [List.getElem?_replicate, h]

theorem copy_back_length (v : List (List String)) (i : Nat) (xs : List String) :
    (copy_back v i xs).length = v.length := by
  simp [copy_back]

theorem pool_copy_back_self (v : List (List String)) (i : Nat) (xs : List String)
    (h : i < v.length) : pool (copy_back v i xs) i = pool v i ++ xs := by
  unfold copy_back
  rw [pool_set_self _ _ _ h]

theorem pool_copy_back_ne (v : List (List String)) (i j : Nat) (xs : List String)
    (h : i ≠ j) : pool (copy_back v i xs) j = pool v j := by
  unfold copy_back
  rw [pool_set_ne _ _ _ _ h]

theorem copy_back_copy_back (v : List (List String)) (i : Nat) (xs ys : List String) :
    copy_back (copy_back v i xs) i ys = copy_back v i (xs ++ ys) := by
  by_cases h : i < v.length
  · unfold copy_back
    rw [pool_set_self _ _ _ h, List.set_set, List.append_assoc]
  · have h1 : v.length ≤ i := Nat.le_of_not_lt h
    unfold copy_back
    rw [set_of_length_le v i _ h1, set_of_length_le v i _ h1, set_of_length_le v i _ h1]

theorem copy_back_nil (v : List (List String)) (i : Nat) : copy_back v i [] = v := by
  unfold copy_back pool
  apply List.ext_getElem?
  intro n
  rw [List.getElem?_set]
  split
  · next h1 =>
    subst h1
    by_cases h : i < v.length
    · simp [h, List.getD_eq_getElem?_getD]
    · simp [h, List.getElem?_eq_none (Nat.le_of_not_lt h)]
  · rfl



theorem hasTag_excl (c d : Char) (f : String) (h : c ≠ d) (hc : hasTag c f = true) :
    hasTag d f = false := by
  unfold hasTag at *
  simp only [decide_eq_true_eq] at hc
  simp only [decide_eq_false_iff_not, hc, Option.some.injEq]
  exact h

theorem push_back_eq (v : List (List String)) (i : Nat) (x : String) :
    push_back v i x = copy_back v i [x] := rfl

theorem route_static (i : Nat) (p : DependencyParser) (f : String) :
    (route i p f).static_feature_ =
      copy_back p.static_feature_ i (if hasTag 'F' f = true then [f] else []) := by
  unfold route
  by_cases hF : hasTag 'F' f = true
  · simp [hF, push_back_eq]
  · simp only [hF]
    split_ifs <;> simp_all [copy_back_nil]

theorem route_gap_list (i : Nat) (p : DependencyParser) (f : String) :
    (route i p f).gap_list_ =
      copy_back p.gap_list_ i (if hasTag 'G' f = true then [f] else []) := by
  unfold route
  by_cases hG : hasTag 'G' f = true
  · have hF := hasTag_excl 'G' 'F' f (by decide) hG
    simp [hF, hG, push_back_eq]
  · simp only [hG]
    split_ifs <;> simp_all [copy_back_nil]

theorem route_dyn_a_feature (i : Nat) (p : DependencyParser) (f : String) :
    (route i p f).dyn_a_feature_ =
      copy_back p.dyn_a_feature_ i (if hasTag 'A' f = true then [f] else []) := by
  unfold route
  by_cases hA : hasTag 'A' f = true
  · have hF := hasTag_excl 'A' 'F' f (by decide) hA
    have hG := hasTag_excl 'A' 'G' f (by decide) hA
    simp [hF, hG, hA, push_back_eq]
  · simp only [hA]
    split_ifs <;> simp_all [copy_back_nil]

theorem route_dyn_b_feature (i : Nat) (p : DependencyParser) (f : String) :
    (route i p f).dyn_b_feature_ =
      copy_back p.dyn_b_feature_ i (if hasTag 'B' f = true then [f] else []) := by
  unfold route
  by_cases hB : hasTag 'B' f = true
  · have hF := hasTag_excl 'B' 'F' f (by decide) hB
    have hG := hasTag_excl 'B' 'G' f (by decide) hB
    have hA := hasTag_excl 'B' 'A' f (by decide) hB
    simp [hF, hG, hA, hB, push_back_eq]
  · simp only [hB]
    split_ifs <;> simp_all [copy_back_nil]

theorem route_frame (i : Nat) (p : DependencyParser) (f : String) :
    (route i p f).dyn_a_ = p.dyn_a_ ∧ (route i p f).dyn_b_ = p.dyn_b_ ∧
    (route i p f).gap_ = p.gap_ ∧ (route i p f).fpset_ = p.fpset_ ∧
    (route i p f).fp_ = p.fp_ ∧ (route i p f).stream = p.stream := by
  unfold route
  split_ifs <;> simp

theorem filter_snoc_tag (c : Char) (fs : List String) (f : String) :
    List.filter (hasTag c) (fs ++ [f]) =
      List.filter (hasTag c) fs ++ (if hasTag c f = true then [f] else []) := by
  rw [List.filter_append]
  by_cases h : hasTag c f = true <;> simp [List.filter, h]

/-- Folding `route i` over a feature list appends the features of each tag to
pool `i` of the matching cache and leaves the other members alone. -/
theorem foldl_route (i : Nat) (fs : List String) (p : DependencyParser) :
    (fs.foldl (route i) p).static_feature_ =
        copy_back p.static_feature_ i (fs.filter (hasTag 'F')) ∧
    (fs.foldl (route i) p).gap_list_ =
        copy_back p.gap_list_ i (fs.filter (hasTag 'G')) ∧
    (fs.foldl (route i) p).dyn_a_feature_ =
        copy_back p.dyn_a_feature_ i (fs.filter (hasTag 'A')) ∧
    (fs.foldl (route i) p).dyn_b_feature_ =
        copy_back p.dyn_b_feature_ i (fs.filter (hasTag 'B')) ∧
    (fs.foldl (route i) p).dyn_a_ = p.dyn_a_ ∧ (fs.foldl (route i) p).dyn_b_ = p.dyn_b_ ∧
    (fs.foldl (route i) p).gap_ = p.gap_ ∧ (fs.foldl (route i) p).fpset_ = p.fpset_ ∧
    (fs.foldl (route i) p).fp_ = p.fp_ ∧ (fs.foldl (route i) p).stream = p.stream := by
  induction fs using List.reverseRecOn with
  | nil => simp [copy_back_nil]
  | append_singleton fs f ih =>
    obtain ⟨h1, h2, h3, h4, h5, h6, h7, h8, h9, h10⟩ := ih
    obtain ⟨g5, g6, g7, g8, g9, g10⟩ := route_frame i (fs.foldl (route i) p) f
    rw [List.foldl_append, List.foldl_cons, List.foldl_nil]
    refine ⟨?_, ?_, ?_, ?_, by rw [g5, h5], by rw [g6, h6], by rw [g7, h7], by rw [g8, h8],
      by rw [g9, h9], by rw [g10, h10]⟩
    · rw [route_static, h1, copy_back_copy_back, filter_snoc_tag]
    · rw [route_gap_list, h2, copy_back_copy_back, filter_snoc_tag]
    · rw [route_dyn_a_feature, h3, copy_back_copy_back, filter_snoc_tag]
    · rw [route_dyn_b_feature, h4, copy_back_copy_back, filter_snoc_tag]

theorem copy_back_mid (pre : List (List String)) (n i : Nat) (xs : List String)
    (hi : pre.length = i) :
    copy_back (pre ++ List.replicate (n + 1) []) i xs =
      (pre ++ [xs]) ++ List.replicate n [] := by
  subst hi
  unfold copy_back
  have h : pool (pre ++ List.replicate (n + 1) []) pre.length = [] := by
    simp [pool, List.getD_eq_getElem?_getD, List.replicate_succ,
      List.getElem?_append_right (Nat.le_refl _)]
  rw [h, List.replicate_succ]
  simp

/-- The partition loop fills the pools of the chunks it visits with the
filtered feature lists, in order. -/
theorem partitionFrom_spec (cs : List Chunk) (p : DependencyParser)
    (s g a b : List (List String))
    (hs : p.static_feature_ = s ++ List.replicate cs.length [])
    (hg : p.gap_list_ = g ++ List.replicate cs.length [])
    (ha : p.dyn_a_feature_ = a ++ List.replicate cs.length [])
    (hb : p.dyn_b_feature_ = b ++ List.replicate cs.length [])
    (ls : s.length = i) (lg : g.length = i) (la : a.length = i) (lb : b.length = i) :
    (partitionFrom i cs p).static_feature_ =
        s ++ cs.map (fun c => c.feature_list.filter (hasTag 'F')) ∧
    (partitionFrom i cs p).gap_list_ =
        g ++ cs.map (fun c => c.feature_list.filter (hasTag 'G')) ∧
    (partitionFrom i cs p).dyn_a_feature_ =
        a ++ cs.map (fun c => c.feature_list.filter (hasTag 'A')) ∧
    (partitionFrom i cs p).dyn_b_feature_ =
        b ++ cs.map (fun c => c.feature_list.filter (hasTag 'B')) ∧
    (partitionFrom i cs p).dyn_a_ = p.dyn_a_ ∧ (partitionFrom i cs p).dyn_b_ = p.dyn_b_ ∧
    (partitionFrom i cs p).gap_ = p.gap_ ∧ (partitionFrom i cs p).fpset_ = p.fpset_ ∧
    (partitionFrom i cs p).fp_ = p.fp_ ∧ (partitionFrom i cs p).stream = p.stream := by
  induction cs generalizing i p s g a b with
  | nil =>
    simp only [partitionFrom, List.map_nil, List.append_nil]
    simp only [List.length_nil, List.replicate_zero, List.append_nil] at hs hg ha hb
    exact ⟨hs, hg, ha, hb, trivial, trivial, trivial, trivial, trivial, trivial⟩
  | cons c cs ih =>
    obtain ⟨h1, h2, h3, h4, h5, h6, h7, h8, h9, h10⟩ := foldl_route i c.feature_list p
    simp only [List.length_cons] at hs hg ha hb
    rw [hs, copy_back_mid _ _ _ _ ls] at h1
    rw [hg, copy_back_mid _ _ _ _ lg] at h2
    rw [ha, copy_back_mid _ _ _ _ la] at h3
    rw [hb, copy_back_mid _ _ _ _ lb] at h4
    have := ih (i := i + 1) (List.foldl (route i) p c.feature_list) _ _ _ _ h1 h2 h3 h4
      (by simp [ls]) (by simp [lg]) (by simp [la]) (by simp [lb])
    obtain ⟨k1, k2, k3, k4, k5, k6, k7, k8, k9, k10⟩ := this
    simp only [partitionFrom, List.map_cons]
    refine ⟨by rw [k1]; simp, by rw [k2]; simp, by rw [k3]; simp, by rw [k4]; simp,
      by rw [k5, h5], by rw [k6, h6], by rw [k7, h7], by rw [k8, h8], by rw [k9, h9],
      by rw [k10, h10]⟩



/-! ### The triangular index -/

theorem tri_succ (j : Nat) : (j + 1) * (j + 2) / 2 = j * (j + 1) / 2 + (j + 1) := by
  have h : (j + 1) * (j + 2) = j * (j + 1) + 2 * (j + 1) := by ring
  rw [h, Nat.add_mul_div_left _ _ (by decide : 0 < 2)]

theorem tri_mono {j k : Nat} (h : j ≤ k) : j * (j + 1) / 2 ≤ k * (k + 1) / 2 :=
  Nat.div_le_div_right (Nat.mul_le_mul h (Nat.succ_le_succ h))

theorem tri_step {j k : Nat} (h : j < k) : j * (j + 1) / 2 + j + 1 ≤ k * (k + 1) / 2 := by
  have h1 := tri_mono (Nat.succ_le_of_lt h)
  have h2 := tri_succ j
  simp only [Nat.succ_eq_add_one] at h1
  have h3 : j + 1 + 1 = j + 2 := rfl
  rw [h3, h2] at h1
  omega

theorem gapIndex_inj {i j i2 j2 : Nat} (hi : i < j) (hi2 : i2 < j2)
    (h : gapIndex i j = gapIndex i2 j2) : i = i2 ∧ j = j2 := by
  unfold gapIndex at h
  rcases Nat.lt_trichotomy j j2 with hlt | heq | hgt
  · have := tri_step hlt
    omega
  · subst heq
    exact ⟨by omega, rfl⟩
  · have := tri_step hgt
    omega

theorem gap_size_eq (n : Nat) :
    (n + 1) * (n + 1 + 3) / 2 + 1 = n * (n + 1) / 2 + 2 * (n + 1) + 1 := by
  have h : (n + 1) * (n + 1 + 3) = n * (n + 1) + 2 * (2 * (n + 1)) := by ring
  rw [h, Nat.add_mul_div_left _ _ (by decide : 0 < 2)]

theorem gapIndex_lt {i j size : Nat} (hi : i < j) (hj : j < size) :
    gapIndex i j < size * (size + 3) / 2 + 1 := by
  obtain ⟨n, rfl⟩ : ∃ n, size = n + 1 := ⟨size - 1, by omega⟩
  rw [gap_size_eq]
  have := tri_mono (Nat.le_of_lt_succ hj)
  unfold gapIndex
  omega

/-! ### Appending loops -/

theorem foldl_slot {X : Type} (step : List (List String) → X → List (List String))
    (c : X → List String) (s n : Nat) (L : List X)
    (hstep : ∀ g x, x ∈ L → g.length = n →
      (step g x).length = n ∧ pool (step g x) s = pool g s ++ c x)
    (g : List (List String)) (hg : g.length = n) :
    (L.foldl step g).length = n ∧ pool (L.foldl step g) s = pool g s ++ (L.map c).flatten := by
  induction L generalizing g with
  | nil => simp [hg]
  | cons x L ih =>
    obtain ⟨h1, h2⟩ := hstep g x (List.mem_cons_self _ _) hg
    obtain ⟨h3, h4⟩ := ih (fun g y hy => hstep g y (List.mem_cons_of_mem _ hy)) (step g x) h1
    rw [List.foldl_cons]
    refine ⟨h3, ?_⟩
    rw [h4, h2, List.map_cons, List.flatten_cons, List.append_assoc]

theorem join_map_ite (L : List Nat) (P : Nat → Bool) (f : Nat → List String) :
    (L.map (fun k => if P k = true then f k else [])).flatten = ((L.filter P).map f).flatten := by
  induction L with
  | nil => rfl
  | cons x L ih =>
    by_cases h : P x = true
    · simp [List.filter_cons, h, ih]
    · simp [List.filter_cons, h, ih]

theorem filter_range_between (n a b : Nat) (hb : b ≤ n) :
    (List.range n).filter (fun k => decide (a < k) && decide (k < b)) =
      List.range' (a + 1) (b - (a + 1)) := by
  have h1 : (List.range n).filter (fun k => decide (a < k) && decide (k < b)) =
      ((List.Ico 0 n).filter (fun x => decide (x < b))).filter (fun x => decide (a + 1 ≤ x)) := by
    rw [List.Ico.zero_bot, List.filter_filter]
    apply List.filter_congr
    intro x _
    simp [Nat.succ_le_iff]
  rw [h1, List.Ico.filter_lt, List.Ico.filter_le]
  simp [List.Ico, Nat.min_eq_right hb]

theorem join_map_single (L : List Nat) (hL : L.Nodup) (k0 : Nat) (X : List String) :
    (L.map (fun k => if k = k0 then X else [])).flatten = if k0 ∈ L then X else [] := by
  induction L with
  | nil => rfl
  | cons x L ih =>
    have hx : x ∉ L := (List.nodup_cons.mp hL).1
    have hL2 : L.Nodup := (List.nodup_cons.mp hL).2
    rw [List.map_cons, List.flatten_cons, ih hL2]
    by_cases h : x = k0
    · subst h
      simp [hx]
    · have h2 : ¬ k0 = x := fun e => h e.symm
      simp [h, h2]

/-! ### The gap cache loops -/

theorem gapLoopJ_slot (size : Nat) (gl : List (List String)) (k i i0 j0 n : Nat)
    (g : List (List String)) (hik : i < k) (h0 : i0 < j0) (hj0 : j0 < size)
    (hs : gapIndex i0 j0 < n) (hg : g.length = n) :
    (gapLoopJ size gl k i g).length = n ∧
    pool (gapLoopJ size gl k i g) (gapIndex i0 j0) =
      pool g (gapIndex i0 j0) ++ (if i = i0 then (if k < j0 then pool gl k else []) else []) := by
  have key := foldl_slot (fun g j => copy_back g (gapIndex i j) (pool gl k))
    (fun j => if j = j0 then (if i = i0 then pool gl k else []) else [])
    (gapIndex i0 j0) n (List.range' (k + 1) (size - (k + 1))) ?_ g hg
  · refine ⟨key.1, ?_⟩
    unfold gapLoopJ
    rw [key.2, join_map_single _ (List.nodup_range' _ _) j0]
    congr 1
    by_cases hk : k < j0
    · have hm : j0 ∈ List.range' (k + 1) (size - (k + 1)) := by
        rw [List.mem_range'_1]; omega
      simp [hm, hk]
    · have hm : ¬ j0 ∈ List.range' (k + 1) (size - (k + 1)) := by
        rw [List.mem_range'_1]; omega
      simp [hm, hk]
  · intro g j hj hgl
    rw [List.mem_range'_1] at hj
    refine ⟨by rw [copy_back_length, hgl], ?_⟩
    by_cases he : gapIndex i j = gapIndex i0 j0
    · obtain ⟨e1, e2⟩ := gapIndex_inj (by omega) h0 he
      subst e1 e2
      rw [pool_copy_back_self _ _ _ (by rw [hgl]; exact hs)]
      simp
    · rw [pool_copy_back_ne _ _ _ _ he]
      have : ¬ (j = j0 ∧ i = i0) := fun ⟨a, b⟩ => he (by rw [a, b])
      by_cases hj : j = j0
      · have hi : ¬ i = i0 := fun b => this ⟨hj, b⟩
        simp [hi]
      · simp [hj]

theorem gapLoopI_slot (size : Nat) (gl : List (List String)) (k i0 j0 n : Nat)
    (g : List (List String)) (h0 : i0 < j0) (hj0 : j0 < size)
    (hs : gapIndex i0 j0 < n) (hg : g.length = n) :
    (gapLoopI size gl k g).length = n ∧
    pool (gapLoopI size gl k g) (gapIndex i0 j0) =
      pool g (gapIndex i0 j0) ++
        (if (decide (i0 < k) && decide (k < j0)) = true then pool gl k else []) := by
  have key := foldl_slot (fun g i => gapLoopJ size gl k i g)
    (fun i => if i = i0 then (if k < j0 then pool gl k else []) else [])
    (gapIndex i0 j0) n (List.range k) ?_ g hg
  · refine ⟨key.1, ?_⟩
    unfold gapLoopI
    rw [key.2, join_map_single _ (List.nodup_range _) i0]
    congr 1
    by_cases h1 : i0 < k <;> by_cases h2 : k < j0 <;> simp [h1, h2]
  · intro g i hi hgl
    exact gapLoopJ_slot size gl k i i0 j0 n g (List.mem_range.mp hi) h0 hj0 hs hgl

theorem gapLoop_slot (size : Nat) (gl : List (List String)) (i0 j0 n : Nat)
    (g : List (List String)) (h0 : i0 < j0) (hj0 : j0 < size)
    (hs : gapIndex i0 j0 < n) (hg : g.length = n) :
    (gapLoop size gl g).length = n ∧
    pool (gapLoop size gl g) (gapIndex i0 j0) =
      pool g (gapIndex i0 j0) ++
        ((List.range' (i0 + 1) (j0 - (i0 + 1))).map (pool gl)).flatten := by
  have key := foldl_slot (fun g k => gapLoopI size gl k g)
    (fun k => if (decide (i0 < k) && decide (k < j0)) = true then pool gl k else [])
    (gapIndex i0 j0) n (List.range size) ?_ g hg
  · refine ⟨key.1, ?_⟩
    unfold gapLoop
    rw [key.2, join_map_ite, filter_range_between _ _ _ (Nat.le_of_lt hj0)]
  · intro g k _ hgl
    exact gapLoopI_slot size gl k i0 j0 n g h0 hj0 hs hgl

/-- Every member of the parser after `build`, in closed form. -/
theorem build_spec (tree : Tree) (p : DependencyParser) :
    (build tree p).1 = tree.chunk_size ∧
    (build tree p).2.static_feature_ =
      tree.chunks.map (fun c => c.feature_list.filter (hasTag 'F')) ∧
    (build tree p).2.gap_list_ =
      tree.chunks.map (fun c => c.feature_list.filter (hasTag 'G')) ∧
    (build tree p).2.dyn_a_feature_ =
      tree.chunks.map (fun c => c.feature_list.filter (hasTag 'A')) ∧
    (build tree p).2.dyn_b_feature_ =
      tree.chunks.map (fun c => c.feature_list.filter (hasTag 'B')) ∧
    (build tree p).2.dyn_a_ = List.replicate tree.chunk_size [] ∧
    (build tree p).2.dyn_b_ = List.replicate tree.chunk_size [] ∧
    (build tree p).2.gap_ =
      gapLoop tree.chunk_size
        (tree.chunks.map (fun c => c.feature_list.filter (hasTag 'G')))
        (List.replicate (tree.chunk_size * (tree.chunk_size + 3) / 2 + 1) []) ∧
    (build tree p).2.fpset_ = p.fpset_ ∧ (build tree p).2.fp_ = p.fp_ ∧
    (build tree p).2.stream = p.stream := by
  obtain ⟨h1, h2, h3, h4, h5, h6, h7, h8, h9, h10⟩ :=
    partitionFrom_spec (i := 0) tree.chunks
      { p with
        static_feature_ := List.replicate tree.chunk_size []
        dyn_b_feature_ := List.replicate tree.chunk_size []
        dyn_b_ := List.replicate tree.chunk_size []
        dyn_a_feature_ := List.replicate tree.chunk_size []
        dyn_a_ := List.replicate tree.chunk_size []
        gap_ := []
        gap_list_ := List.replicate tree.chunk_size [] }
      [] [] [] [] rfl rfl rfl rfl rfl rfl rfl rfl
  simp only [List.nil_append] at h1 h2 h3 h4
  refine ⟨rfl, h1, h2, h3, h4, h5, h6, ?_, h8, h9, h10⟩
  simp only [build]
  rw [h2]

/-! ## Theorems about `build` -/

theorem foldl_inv {α β : Type} (P : α → Prop) (step : α → β → α) (L : List β)
    (h : ∀ a x, P a → P (step a x)) (a : α) (ha : P a) : P (L.foldl step a) := by
  induction L generalizing a with
  | nil => exact ha
  | cons x L ih => exact ih (step a x) (h a x ha)

theorem mem_pool_copy_back (v : List (List String)) (i s : Nat) (xs : List String)
    (f : String) (hf : f ∈ pool (copy_back v i xs) s) : f ∈ pool v s ∨ f ∈ xs := by
  by_cases h : i = s
  · subst h
    by_cases hl : i < v.length
    · rw [pool_copy_back_self _ _ _ hl] at hf
      exact List.mem_append.mp hf
    · unfold copy_back at hf
      rw [set_of_length_le _ _ _ (Nat.le_of_not_lt hl)] at hf
      exact Or.inl hf
  · rw [pool_copy_back_ne _ _ _ _ h] at hf
    exact Or.inl hf

/-- Whatever the gap loops find in a pool of the gap cache was already there
or comes from a gap-source list. -/
theorem gapLoop_mem (size : Nat) (gl g : List (List String)) (s : Nat) (f : String)
    (hf : f ∈ pool (gapLoop size gl g) s) :
    f ∈ pool g s ∨ ∃ k, f ∈ pool gl k := by
  have step : ∀ (k i : Nat) (a : List (List String)) (j : Nat),
      (f ∈ pool a s → f ∈ pool g s ∨ ∃ k, f ∈ pool gl k) →
      (f ∈ pool (copy_back a (gapIndex i j) (pool gl k)) s →
        f ∈ pool g s ∨ ∃ k, f ∈ pool gl k) := by
    intro k i a j ha hm
    rcases mem_pool_copy_back _ _ _ _ _ hm with h | h
    · exact ha h
    · exact Or.inr ⟨k, h⟩
  have := foldl_inv (fun a => f ∈ pool a s → f ∈ pool g s ∨ ∃ k, f ∈ pool gl k)
    (fun g k => gapLoopI size gl k g) (List.range size)
    (fun a k ha => foldl_inv _ (fun g i => gapLoopJ size gl k i g) (List.range k)
      (fun a i ha => foldl_inv _ _ _ (fun a j ha => step k i a j ha) a ha) a ha)
    g (fun h => Or.inl h)
  exact this hf

theorem pool_map_filter (t : Tree) (c : Char) (i : Nat) :
    pool (t.chunks.map (fun ch => ch.feature_list.filter (hasTag c))) i =
      (t.feature_list i).filter (hasTag c) := by
  unfold pool Tree.feature_list
  rw [List.getD_eq_getElem?_getD, List.getElem?_map]
  cases t.chunks[i]? <;> simp

theorem hasTag_of_mem_filter {c : Char} {fs : List String} {f : String}
    (h : f ∈ fs.filter (hasTag c)) : hasTag c f = true :=
  (List.mem_filter.mp h).2

/-- Every entry of the gap cache after `build` carries the tag `G`. -/
theorem build_gap_tag (tree : Tree) (p : DependencyParser) (s : Nat) (f : String)
    (hf : f ∈ pool (build tree p).2.gap_ s) : hasTag 'G' f = true := by
  rw [(build_spec tree p).2.2.2.2.2.2.2.1] at hf
  rcases gapLoop_mem _ _ _ _ _ hf with h | ⟨k, h⟩
  · rw [pool_replicate] at h
    exact absurd h (List.not_mem_nil _)
  · rw [pool_map_filter] at h
    exact hasTag_of_mem_filter h

/-- C9. Feature partitioning.  After `build`, for every chunk index `i` the
pool `static_feature_[i]` holds exactly the raw features of chunk `i` whose
first character is `F`, `gap_list_[i]` those with `G`, `dyn_a_feature_[i]`
those with `A`, `dyn_b_feature_[i]` those with `B`, each in the original
order; the live pools `dyn_a_[i]` and `dyn_b_[i]` are empty whatever the
parser held before; all seven vectors of pools except `gap_` have one entry
per chunk; and a feature whose first character is none of the four (an empty
string included) is in no pool of any cache. -/
theorem build_partitions_features (tree : Tree) (p : DependencyParser) (i : Nat) :
    pool (build tree p).2.static_feature_ i = (tree.feature_list i).filter (hasTag 'F') ∧
    pool (build tree p).2.gap_list_ i = (tree.feature_list i).filter (hasTag 'G') ∧
    pool (build tree p).2.dyn_a_feature_ i = (tree.feature_list i).filter (hasTag 'A') ∧
    pool (build tree p).2.dyn_b_feature_ i = (tree.feature_list i).filter (hasTag 'B') ∧
    pool (build tree p).2.dyn_a_ i = [] ∧
    pool (build tree p).2.dyn_b_ i = [] ∧
    ((build tree p).2.static_feature_.length = tree.chunk_size ∧
     (build tree p).2.gap_list_.length = tree.chunk_size ∧
     (build tree p).2.dyn_a_feature_.length = tree.chunk_size ∧
     (build tree p).2.dyn_b_feature_.length = tree.chunk_size ∧
     (build tree p).2.dyn_a_.length = tree.chunk_size ∧
     (build tree p).2.dyn_b_.length = tree.chunk_size) ∧
    (∀ f : String, hasTag 'F' f = false → hasTag 'G' f = false →
      hasTag 'A' f = false → hasTag 'B' f = false →
      f ∉ pool (build tree p).2.static_feature_ i ∧
      f ∉ pool (build tree p).2.gap_list_ i ∧
      f ∉ pool (build tree p).2.dyn_a_feature_ i ∧
      f ∉ pool (build tree p).2.dyn_b_feature_ i ∧
      f ∉ pool (build tree p).2.dyn_a_ i ∧
      f ∉ pool (build tree p).2.dyn_b_ i ∧
      f ∉ pool (build tree p).2.gap_ i) := by
  obtain ⟨_, h1, h2, h3, h4, h5, h6, _, _, _, _⟩ := build_spec tree p
  have e1 : pool (build tree p).2.static_feature_ i =
      (tree.feature_list i).filter (hasTag 'F') := by rw [h1, pool_map_filter]
  have e2 : pool (build tree p).2.gap_list_ i =
      (tree.feature_list i).filter (hasTag 'G') := by rw [h2, pool_map_filter]
  have e3 : pool (build tree p).2.dyn_a_feature_ i =
      (tree.feature_list i).filter (hasTag 'A') := by rw [h3, pool_map_filter]
  have e4 : pool (build tree p).2.dyn_b_feature_ i =
      (tree.feature_list i).filter (hasTag 'B') := by rw [h4, pool_map_filter]
  have e5 : pool (build tree p).2.dyn_a_ i = [] := by rw [h5, pool_replicate]
  have e6 : pool (build tree p).2.dyn_b_ i = [] := by rw [h6, pool_replicate]
  refine ⟨e1, e2, e3, e4, e5, e6, ?_, ?_⟩
  · rw [h1, h2, h3, h4, h5, h6]
    simp [Tree.chunk_size]
  · intro f hF hG hA hB
    rw [e1, e2, e3, e4, e5, e6]
    refine ⟨?_, ?_, ?_, ?_, List.not_mem_nil _, List.not_mem_nil _, ?_⟩
    · intro h; rw [hasTag_of_mem_filter h] at hF; cases hF
    · intro h; rw [hasTag_of_mem_filter h] at hG; cases hG
    · intro h; rw [hasTag_of_mem_filter h] at hA; cases hA
    · intro h; rw [hasTag_of_mem_filter h] at hB; cases hB
    · intro h; rw [build_gap_tag tree p i f h] at hG; cases hG

/-- C9, a concrete instance: chunk 1 of `gapExample` has the raw features
`G:x`, `F:b`, `A:q`, `B:r`, `zz` and the empty string; each tagged one lands in
its pool, `zz` and the empty string in none. -/
theorem build_partitions_features_witness :
    pool (build gapExample emptyParser).2.static_feature_ 1 = ["F:b"] ∧
    pool (build gapExample emptyParser).2.gap_list_ 1 = ["G:x"] ∧
    pool (build gapExample emptyParser).2.dyn_a_feature_ 1 = ["A:q"] ∧
    pool (build gapExample emptyParser).2.dyn_b_feature_ 1 = ["B:r"] ∧
    "zz" ∉ pool (build gapExample emptyParser).2.static_feature_ 1 ∧
    "" ∉ pool (build gapExample emptyParser).2.gap_ 1 := by
  have h := build_partitions_features gapExample emptyParser 1
  refine ⟨h.1.trans (by decide), h.2.1.trans (by decide), h.2.2.1.trans (by decide),
    h.2.2.2.1.trans (by decide), ?_, ?_⟩
  · exact (h.2.2.2.2.2.2.2 "zz" (by decide) (by decide) (by decide) (by decide)).1
  · exact (h.2.2.2.2.2.2.2 "" (by decide) (by decide) (by decide) (by decide)).2.2.2.2.2.2

/-- C5. Gap cache correctness.  After `build` on a sentence of `N` chunks, for
`i < j < N` the pool of `gap_` at index `j*(j+1)/2+i` is the concatenation, for
`k = i+1, ..., j-1` in ascending order, of the raw features of chunk `k` that
carry the tag `G`, in their original order.  It is empty when `j = i+1`, and
it does not depend on the features of chunk `i`, of chunk `j` or of any chunk
outside the open interval: two sentences of the same length that agree on the
chunks strictly between `i` and `j` get the same pool.  In the four-chunk
sentence `gapExample`, where only chunk 1 has a gap feature `G:x`, the
feature sets assembled for the pairs (0,2) and (0,3) contain `G:x` and those
for (1,2), (1,3) and (2,3) do not. -/
theorem build_gap_cache :
    (∀ (tree : Tree) (p : DependencyParser) (i j : Nat),
      i < j → j < tree.chunk_size →
      pool (build tree p).2.gap_ (gapIndex i j) =
        ((List.range' (i + 1) (j - (i + 1))).map
          (fun k => (tree.feature_list k).filter (hasTag 'G'))).flatten) ∧
    (∀ (tree : Tree) (p : DependencyParser) (i : Nat),
      i + 1 < tree.chunk_size →
      pool (build tree p).2.gap_ (gapIndex i (i + 1)) = []) ∧
    (∀ (tree tree2 : Tree) (p p2 : DependencyParser) (i j : Nat),
      i < j → j < tree.chunk_size → tree2.chunk_size = tree.chunk_size →
      (∀ k, i < k → k < j → tree2.feature_list k = tree.feature_list k) →
      pool (build tree2 p2).2.gap_ (gapIndex i j) =
        pool (build tree p).2.gap_ (gapIndex i j)) ∧
    ("G:x" ∈ (assemble 0 2 (build gapExample emptyParser).2).fpset_ ∧
     "G:x" ∈ (assemble 0 3 (build gapExample emptyParser).2).fpset_ ∧
     "G:x" ∉ (assemble 1 2 (build gapExample emptyParser).2).fpset_ ∧
     "G:x" ∉ (assemble 1 3 (build gapExample emptyParser).2).fpset_ ∧
     "G:x" ∉ (assemble 2 3 (build gapExample emptyParser).2).fpset_) := by
  have main : ∀ (tree : Tree) (p : DependencyParser) (i j : Nat),
      i < j → j < tree.chunk_size →
      pool (build tree p).2.gap_ (gapIndex i j) =
        ((List.range' (i + 1) (j - (i + 1))).map
          (fun k => (tree.feature_list k).filter (hasTag 'G'))).flatten := by
    intro tree p i j hij hj
    rw [(build_spec tree p).2.2.2.2.2.2.2.1]
    have h := (gapLoop_slot tree.chunk_size
      (tree.chunks.map (fun c => c.feature_list.filter (hasTag 'G'))) i j
      (tree.chunk_size * (tree.chunk_size + 3) / 2 + 1)
      (List.replicate (tree.chunk_size * (tree.chunk_size + 3) / 2 + 1) [])
      hij hj (gapIndex_lt hij hj) (List.length_replicate _ _)).2
    rw [h, pool_replicate, List.nil_append]
    congr 1
    apply List.map_congr_left
    intro k _
    exact pool_map_filter tree 'G' k
  refine ⟨main, ?_, ?_, by decide⟩
  · intro tree p i hi
    rw [main tree p i (i + 1) (Nat.lt_succ_self i) hi]
    simp
  · intro tree tree2 p p2 i j hij hj hsz hk
    rw [main tree p i j hij hj, main tree2 p2 i j hij (by rw [hsz]; exact hj)]
    congr 1
    apply List.map_congr_left
    intro k hkm
    rw [List.mem_range'_1] at hkm
    rw [hk k (by omega) (by omega)]

/-- C5 at a concrete input: in `gapExample` the pool of the pair (0,3) is the
gap feature of chunk 1 (chunk 2 has none), and the pool of (1,2) is empty. -/
theorem build_gap_cache_witness :
    pool (build gapExample emptyParser).2.gap_ (gapIndex 0 3) = ["G:x"] ∧
    pool (build gapExample emptyParser).2.gap_ (gapIndex 1 2) = [] :=
  ⟨(build_gap_cache.1 gapExample emptyParser 0 3 (by decide) (by decide)).trans (by decide),
   build_gap_cache.2.1 gapExample emptyParser 1 (by decide)⟩

/-! ## Auxiliary facts about `estimate` -/

theorem cmpstr_eq_of_not (x y : String) (h1 : ¬ cmpstr x y = true) (h2 : ¬ cmpstr y x = true) :
    x = y := by
  unfold cmpstr at h1 h2
  simp only [decide_eq_true_eq] at h1 h2
  exact String.ext (le_antisymm (not_lt.mp h2) (not_lt.mp h1))

theorem mem_fpInsert (f x : String) (l : List String) :
    f ∈ fpInsert x l ↔ f = x ∨ f ∈ l := by
  induction l with
  | nil => simp [fpInsert]
  | cons y r ih =>
    unfold fpInsert
    by_cases h1 : cmpstr x y = true
    · rw [if_pos h1, List.mem_cons]
    · by_cases h2 : cmpstr y x = true
      · rw [if_neg h1, if_pos h2, List.mem_cons, List.mem_cons, ih]
        tauto
      · have e := cmpstr_eq_of_not x y h1 h2
        subst e
        rw [if_neg h1, if_neg h2, List.mem_cons]
        tauto

theorem length_fpInsert_le (x : String) (l : List String) :
    (fpInsert x l).length ≤ l.length + 1 := by
  induction l with
  | nil => simp [fpInsert]
  | cons y r ih =>
    unfold fpInsert
    split_ifs <;> (simp only [List.length_cons]; omega)

theorem insertAll_append (xs ys l : List String) :
    insertAll (xs ++ ys) l = insertAll ys (insertAll xs l) := by
  unfold insertAll
  rw [List.foldl_append]

theorem mem_insertAll (f : String) (xs l : List String) :
    f ∈ insertAll xs l ↔ f ∈ xs ∨ f ∈ l := by
  induction xs generalizing l with
  | nil => simp [insertAll]
  | cons x xs ih =>
    have : insertAll (x :: xs) l = insertAll xs (fpInsert x l) := rfl
    rw [this, ih, mem_fpInsert, List.mem_cons]
    tauto

theorem length_insertAll_le (xs l : List String) :
    (insertAll xs l).length ≤ l.length + xs.length := by
  induction xs generalizing l with
  | nil => simp [insertAll]
  | cons x xs ih =>
    have : insertAll (x :: xs) l = insertAll xs (fpInsert x l) := rfl
    rw [this]
    have h1 := ih (fpInsert x l)
    have h2 := length_fpInsert_le x l
    simp only [List.length_cons]
    omega

theorem retag_retag (c d : Char) (x : String) : retag c (retag d x) = retag c x := by
  simp [retag]

theorem map_retag_retag (c d : Char) (xs : List String) :
    (xs.map (retag d)).map (retag c) = xs.map (retag c) := by
  rw [List.map_map]
  apply List.map_congr_left
  intro x _
  exact retag_retag c d x

theorem take_min_length (n : Nat) (xs : List String) :
    xs.take (min xs.length n) = xs.take n := by
  rcases Nat.le_total xs.length n with h | h
  · rw [Nat.min_eq_left h, List.take_of_length_le h, List.take_of_length_le (Nat.le_refl _)]
  · rw [Nat.min_eq_right h]

theorem retagFirst_min (c : Char) (n : Nat) (xs : List String) :
    retagFirst c (min xs.length n) xs = retagFirst c n xs := by
  rcases Nat.le_total xs.length n with h | h
  · rw [Nat.min_eq_left h]
    unfold retagFirst
    rw [List.take_of_length_le h, List.take_of_length_le (Nat.le_refl _),
      List.drop_of_length_le h, List.drop_of_length_le (Nat.le_refl _)]
  · rw [Nat.min_eq_right h]

theorem length_retagFirst (c : Char) (n : Nat) (xs : List String) :
    (retagFirst c n xs).length = xs.length := by
  unfold retagFirst
  rw [List.length_append, List.length_map, ← List.length_append, List.take_append_drop]

theorem map_retag_retagFirst (c d : Char) (n : Nat) (xs : List String) :
    (retagFirst d n xs).map (retag c) = xs.map (retag c) := by
  unfold retagFirst
  rw [List.map_append, map_retag_retag, ← List.map_append, List.take_append_drop]

theorem take_retagFirst (c : Char) (n : Nat) (xs : List String) :
    (retagFirst c n xs).take n = (xs.take n).map (retag c) := by
  unfold retagFirst
  rw [List.take_append_eq_append_take, List.length_map, List.length_take]
  rw [List.take_of_length_le (by rw [List.length_map, List.length_take]; exact Nat.min_le_left _ _)]
  rcases Nat.le_total n xs.length with h | h
  · rw [Nat.min_eq_left h, Nat.sub_self, List.take_zero, List.append_nil]
  · rw [List.drop_of_length_le h, List.take_nil, List.append_nil]

theorem map_retag_take_retagFirst (c d : Char) (n m : Nat) (xs : List String) :
    ((retagFirst d m xs).take n).map (retag c) = (xs.take n).map (retag c) := by
  rw [List.map_take, map_retag_retagFirst, ← List.map_take]

/-- Reading back the pool that has just been written: the new value, or `[]`
when the index is outside the vector. -/
theorem pool_set_same (v : List (List String)) (i : Nat) (x : List String) :
    pool (v.set i x) i = if i < v.length then x else [] := by
  by_cases h : i < v.length
  · rw [pool_set_self _ _ _ h, if_pos h]
  · rw [if_neg h, pool_of_length_le _ _ (by rw [List.length_set]; exact Nat.le_of_not_lt h)]

theorem pool_set_map (v : List (List String)) (i : Nat) (g : List String → List String)
    (hg : g [] = []) : pool (v.set i (g (pool v i))) i = g (pool v i) := by
  rw [pool_set_same]
  by_cases h : i < v.length
  · rw [if_pos h]
  · rw [if_neg h, pool_of_length_le _ _ (Nat.le_of_not_lt h), hg]

theorem pool_set_other (v : List (List String)) (i j : Nat) (g : List String → List String)
    (hg : g [] = []) :
    pool (v.set i (g (pool v i))) j = if j = i then g (pool v i) else pool v j := by
  by_cases h : j = i
  · subst h
    rw [pool_set_map _ _ _ hg, if_pos rfl]
  · rw [if_neg h, pool_set_ne _ _ _ _ (fun e => h e.symm)]



theorem cap_take (c : Char) (xs : List String) :
    (retagFirst c (min xs.length MAX_GAP_SIZE) xs).take (min xs.length MAX_GAP_SIZE) =
      (xs.take MAX_GAP_SIZE).map (retag c) := by
  rw [take_retagFirst, take_min_length]

theorem pool_set_cap (v : List (List String)) (c : Char) (i j : Nat) :
    pool (v.set i (retagFirst c (min (pool v i).length MAX_GAP_SIZE) (pool v i))) j =
      if j = i then retagFirst c (min (pool v i).length MAX_GAP_SIZE) (pool v i)
      else pool v j :=
  pool_set_other v i j (fun xs => retagFirst c (min xs.length MAX_GAP_SIZE) xs) rfl

theorem pool_set_retag (v : List (List String)) (c : Char) (i j : Nat) :
    pool (v.set i ((pool v i).map (retag c))) j =
      if j = i then (pool v i).map (retag c) else pool v j :=
  pool_set_other v i j (fun xs => xs.map (retag c)) rfl

/-- The set left in `fpset_` by the assembly is the result of inserting the
candidate strings, in order, into the empty set. -/
theorem assemble_fpset (src dst : Nat) (p : DependencyParser) :
    (assemble src dst p).fpset_ = insertAll (candidates src dst p) [] := by
  have hB : (pool (p.dyn_b_.set dst (retagFirst 'B'
        (min (pool p.dyn_b_ dst).length MAX_GAP_SIZE) (pool p.dyn_b_ dst))) dst).take
        (min (pool p.dyn_b_ dst).length MAX_GAP_SIZE) =
      ((pool p.dyn_b_ dst).take MAX_GAP_SIZE).map (retag 'B') := by
    rw [pool_set_cap, if_pos rfl, cap_take]
  have hA : (pool (p.dyn_a_.set dst (retagFirst 'A'
        (min (pool p.dyn_a_ dst).length MAX_GAP_SIZE) (pool p.dyn_a_ dst))) dst).take
        (min (pool p.dyn_a_ dst).length MAX_GAP_SIZE) =
      ((pool p.dyn_a_ dst).take MAX_GAP_SIZE).map (retag 'A') := by
    rw [pool_set_cap, if_pos rfl, cap_take]
  have ha : ∀ v : List (List String),
      v = p.dyn_a_.set dst (retagFirst 'A'
        (min (pool p.dyn_a_ dst).length MAX_GAP_SIZE) (pool p.dyn_a_ dst)) →
      (pool (v.set src (retagFirst 'a' (min (pool v src).length MAX_GAP_SIZE) (pool v src)))
        src).take (min (pool v src).length MAX_GAP_SIZE) =
      ((pool p.dyn_a_ src).take MAX_GAP_SIZE).map (retag 'a') := by
    intro v hv
    rw [pool_set_cap, if_pos rfl, cap_take, hv, pool_set_cap]
    by_cases h : src = dst
    · subst h
      rw [if_pos rfl, map_retag_take_retagFirst]
    · rw [if_neg h]
  have hf : pool (p.static_feature_.set src ((pool p.static_feature_ src).map (retag 'f'))) src =
      (pool p.static_feature_ src).map (retag 'f') := by
    rw [pool_set_retag, if_pos rfl]
  have hF : ∀ v : List (List String),
      v = p.static_feature_.set src ((pool p.static_feature_ src).map (retag 'f')) →
      pool (v.set dst ((pool v dst).map (retag 'F'))) dst =
        (pool p.static_feature_ dst).map (retag 'F') := by
    intro v hv
    rw [pool_set_retag, if_pos rfl, hv, pool_set_retag]
    by_cases h : dst = src
    · subst h
      rw [if_pos rfl, map_retag_retag]
    · rw [if_neg h]
  unfold candidates
  simp only [insertAll_append]
  unfold assemble
  simp only []
  rw [hB, hA, ha _ rfl, hf, hF _ rfl, take_min_length]
  rfl





/-! ## Theorems about `estimate` -/

theorem assemble_fp_take (src dst : Nat) (p : DependencyParser) :
    (assemble src dst p).fp_.take (assemble src dst p).fpset_.length =
      (assemble src dst p).fpset_ := by
  have h : (assemble src dst p).fp_ =
      (assemble src dst p).fpset_ ++ p.fp_.drop (assemble src dst p).fpset_.length := rfl
  rw [h, List.take_left]

theorem mem_candidates (src dst : Nat) (p : DependencyParser) (f : String) :
    f ∈ candidates src dst p ↔
      f = distFeature ((dst : Int) - (src : Int)) ∨
      f ∈ (pool p.static_feature_ src).map (retag 'f') ∨
      f ∈ (pool p.static_feature_ dst).map (retag 'F') ∨
      f ∈ (pool p.gap_ (gapIndex src dst)).take MAX_GAP_SIZE ∨
      f ∈ ((pool p.dyn_a_ dst).take MAX_GAP_SIZE).map (retag 'A') ∨
      f ∈ ((pool p.dyn_a_ src).take MAX_GAP_SIZE).map (retag 'a') ∨
      f ∈ ((pool p.dyn_b_ dst).take MAX_GAP_SIZE).map (retag 'B') := by
  unfold candidates
  simp only [List.mem_append, List.mem_singleton]
  tauto

theorem mem_assemble (src dst : Nat) (p : DependencyParser) (f : String) :
    f ∈ (assemble src dst p).fpset_ ↔ f ∈ candidates src dst p := by
  rw [assemble_fpset, mem_insertAll]
  simp

theorem estimate_parsing_end (svm : List String → Int) (tree : Tree) (src dst : Nat)
    (score : Int) (p : DependencyParser) (h : (tree.chunk_size : Int) - 1 = (dst : Int)) :
    estimate ActionMode.PARSING_MODE svm tree src dst score p =
      { accept := true, score := 0, dp := p } := by
  unfold estimate
  simp [h]

theorem estimate_parsing_inner (svm : List String → Int) (tree : Tree) (src dst : Nat)
    (score : Int) (p : DependencyParser) (h : (tree.chunk_size : Int) - 1 ≠ (dst : Int)) :
    estimate ActionMode.PARSING_MODE svm tree src dst score p =
      { accept := decide (svm (assemble src dst p).fpset_ > 0)
        score := svm (assemble src dst p).fpset_
        dp := assemble src dst p } := by
  unfold estimate
  simp only [h, decide_False, Bool.false_eq_true, and_false, if_false, if_true]
  rw [assemble_fp_take]

/-- C3. Inference-mode decision of `estimate`.  For `src < dst`: when `dst` is
the last chunk index, `estimate` accepts, records the score `0` and leaves the
parser untouched, and the result is the same for every classifier and every
cache content (the classifier is not consulted); otherwise it accepts if and
only if the classifier's score on the assembled feature set is strictly
greater than `0` (so a score of exactly `0` rejects), and the recorded score
is that score. -/
theorem estimate_parsing_decision (svm : List String → Int) (tree : Tree) (src dst : Nat)
    (score : Int) (p : DependencyParser) (_h : src < dst) :
    ((tree.chunk_size : Int) - 1 = (dst : Int) →
      (estimate ActionMode.PARSING_MODE svm tree src dst score p).accept = true ∧
      (estimate ActionMode.PARSING_MODE svm tree src dst score p).score = 0 ∧
      (estimate ActionMode.PARSING_MODE svm tree src dst score p).dp = p ∧
      ∀ (svm2 : List String → Int) (score2 : Int) (p2 : DependencyParser),
        (estimate ActionMode.PARSING_MODE svm2 tree src dst score2 p2).accept = true ∧
        (estimate ActionMode.PARSING_MODE svm2 tree src dst score2 p2).score = 0) ∧
    ((tree.chunk_size : Int) - 1 ≠ (dst : Int) →
      ((estimate ActionMode.PARSING_MODE svm tree src dst score p).accept = true ↔
        0 < svm (assemble src dst p).fpset_) ∧
      (svm (assemble src dst p).fpset_ = 0 →
        (estimate ActionMode.PARSING_MODE svm tree src dst score p).accept = false) ∧
      (estimate ActionMode.PARSING_MODE svm tree src dst score p).score =
        svm (assemble src dst p).fpset_ ∧
      (estimate ActionMode.PARSING_MODE svm tree src dst score p).dp = assemble src dst p) := by
  constructor
  · intro h
    rw [estimate_parsing_end svm tree src dst score p h]
    refine ⟨rfl, rfl, rfl, ?_⟩
    intro svm2 score2 p2
    rw [estimate_parsing_end svm2 tree src dst score2 p2 h]
    exact ⟨rfl, rfl⟩
  · intro h
    rw [estimate_parsing_inner svm tree src dst score p h]
    refine ⟨by simp, ?_, rfl, rfl⟩
    intro h0
    simp [h0]

/-- C3 at concrete inputs: on the four-chunk `gapExample` with the classifier
`distanceOneSvm`, the pair (2, 3) ends at the last chunk and is accepted with
score `0`; the pair (1, 2) has distance 1 and is accepted with score `1`. -/
theorem estimate_parsing_decision_witness :
    ((estimate ActionMode.PARSING_MODE distanceOneSvm gapExample 2 3 5
        (build gapExample emptyParser).2).accept = true ∧
     (estimate ActionMode.PARSING_MODE distanceOneSvm gapExample 2 3 5
        (build gapExample emptyParser).2).score = 0) ∧
    ((estimate ActionMode.PARSING_MODE distanceOneSvm gapExample 1 2 5
        (build gapExample emptyParser).2).accept = true ↔
      0 < distanceOneSvm (assemble 1 2 (build gapExample emptyParser).2).fpset_) :=
  ⟨⟨((estimate_parsing_decision distanceOneSvm gapExample 2 3 5
        (build gapExample emptyParser).2 (by decide)).1 (by decide)).1,
    ((estimate_parsing_decision distanceOneSvm gapExample 2 3 5
        (build gapExample emptyParser).2 (by decide)).1 (by decide)).2.1⟩,
   ((estimate_parsing_decision distanceOneSvm gapExample 1 2 5
        (build gapExample emptyParser).2 (by decide)).2 (by decide)).1⟩

theorem record_data (isdep : Bool) (fp : List String) :
    (record isdep fp).data =
      (if isdep then "+1" else "-1").data ++
        (fp.map (fun x => ' ' :: x.data)).flatten ++ ['\n'] := by
  have h : ∀ (fp : List String) (init : String),
      (fp.foldl (fun acc x => acc ++ " " ++ x) init).data =
        init.data ++ (fp.map (fun x => ' ' :: x.data)).flatten := by
    intro fp
    induction fp with
    | nil => intro init; simp
    | cons x fp ih =>
      intro init
      rw [List.foldl_cons, ih]
      simp [String.data_append]
  unfold record
  rw [String.data_append, h]

theorem estimate_training_eq (svm : List String → Int) (tree : Tree) (src dst : Nat)
    (score : Int) (p : DependencyParser) :
    estimate ActionMode.TRAINING_MODE svm tree src dst score p =
      { accept := decide ((tree.chunk_size : Int) - 1 = (dst : Int)) ||
          decide (tree.link src = (dst : Int))
        score := score
        dp := { assemble src dst p with
          stream := (assemble src dst p).stream ++
            record (decide ((tree.chunk_size : Int) - 1 = (dst : Int)) ||
              decide (tree.link src = (dst : Int))) (assemble src dst p).fpset_ } } := by
  unfold estimate
  simp only [reduceCtorEq, false_and, if_false]
  rw [assemble_fp_take]

/-- C4. Training-mode label of `estimate`.  For `src < dst`, in
training-data-generation mode `estimate` accepts if and only if `dst` is the
last chunk index or the gold head `link` of chunk `src` equals `dst`; the sink
after the call is the sink before the call followed by one record, whose
characters are `+1` on acceptance and `-1` on rejection, then each feature of
the assembled set preceded by one space, then a newline; `*score` is left as
it was; and the whole result is the same for every classifier (the classifier
is never called). -/
theorem estimate_training_label (svm : List String → Int) (tree : Tree) (src dst : Nat)
    (score : Int) (p : DependencyParser) (_h : src < dst) :
    ((estimate ActionMode.TRAINING_MODE svm tree src dst score p).accept = true ↔
      ((tree.chunk_size : Int) - 1 = (dst : Int) ∨ tree.link src = (dst : Int))) ∧
    (estimate ActionMode.TRAINING_MODE svm tree src dst score p).dp.stream.data =
      p.stream.data ++
        ((if (estimate ActionMode.TRAINING_MODE svm tree src dst score p).accept = true
            then ['+', '1'] else ['-', '1']) ++
          ((assemble src dst p).fpset_.map (fun x => ' ' :: x.data)).flatten ++ ['\n']) ∧
    (estimate ActionMode.TRAINING_MODE svm tree src dst score p).score = score ∧
    (∀ svm2 : List String → Int,
      estimate ActionMode.TRAINING_MODE svm2 tree src dst score p =
        estimate ActionMode.TRAINING_MODE svm tree src dst score p) := by
  rw [estimate_training_eq]
  refine ⟨by simp, ?_, rfl, ?_⟩
  · simp only [String.data_append, record_data]
    have hs : (assemble src dst p).stream = p.stream := rfl
    rw [hs]
    congr 3
    cases (decide ((tree.chunk_size : Int) - 1 = (dst : Int)) ||
      decide (tree.link src = (dst : Int))) <;> rfl
  · intro svm2
    rw [estimate_training_eq]

/-- C4 at a concrete input: for the pair (1, 2) of `gapExample`, whose chunk 1
has gold head `-1`, the call rejects and appends the record
`-1 DIST:1 F:c f:b`. -/
theorem estimate_training_label_witness :
    (estimate ActionMode.TRAINING_MODE distanceOneSvm gapExample 1 2 0
        (build gapExample emptyParser).2).accept = false ∧
    (estimate ActionMode.TRAINING_MODE distanceOneSvm gapExample 1 2 0
        (build gapExample emptyParser).2).dp.stream.data = "-1 DIST:1 F:c f:b\n".data := by
  have h := estimate_training_label distanceOneSvm gapExample 1 2 0
    (build gapExample emptyParser).2 (by decide)
  have ha : (estimate ActionMode.TRAINING_MODE distanceOneSvm gapExample 1 2 0
        (build gapExample emptyParser).2).accept = false := by
    cases hb : (estimate ActionMode.TRAINING_MODE distanceOneSvm gapExample 1 2 0
        (build gapExample emptyParser).2).accept
    · rfl
    · exact absurd (h.1.mp hb) (by decide)
  refine ⟨ha, ?_⟩
  rw [h.2.1, ha]
  decide






theorem candidates_congr (src dst : Nat) (p p2 : DependencyParser)
    (h1 : pool p2.static_feature_ src = pool p.static_feature_ src)
    (h2 : pool p2.static_feature_ dst = pool p.static_feature_ dst)
    (h3 : (pool p2.gap_ (gapIndex src dst)).take MAX_GAP_SIZE =
      (pool p.gap_ (gapIndex src dst)).take MAX_GAP_SIZE)
    (h4 : (pool p2.dyn_a_ dst).take MAX_GAP_SIZE = (pool p.dyn_a_ dst).take MAX_GAP_SIZE)
    (h5 : (pool p2.dyn_a_ src).take MAX_GAP_SIZE = (pool p.dyn_a_ src).take MAX_GAP_SIZE)
    (h6 : (pool p2.dyn_b_ dst).take MAX_GAP_SIZE = (pool p.dyn_b_ dst).take MAX_GAP_SIZE) :
    candidates src dst p2 = candidates src dst p := by
  unfold candidates
  rw [h1, h2, h3, h4, h5, h6]

/-- C6. Cap enforcement.  For every pair and every cache content, each of the
four capped pools (the gap pool of the pair, `dyn_a_[dst]`, `dyn_a_[src]`,
`dyn_b_[dst]`) contributes its first `min(size, 7)` entries to the assembled
set, with the role tag of the pool written into the first character: every
one of these entries is in the set (all entries when the pool holds at most
7), and the entries at position 8 and later contribute nothing, that is, the
assembled set stays the same when the four pools are replaced by pools with
the same first 7 entries. -/
theorem assemble_cap (src dst : Nat) (p : DependencyParser) :
    (∀ f ∈ (pool p.gap_ (gapIndex src dst)).take 7, f ∈ (assemble src dst p).fpset_) ∧
    (∀ f ∈ (pool p.dyn_a_ dst).take 7, retag 'A' f ∈ (assemble src dst p).fpset_) ∧
    (∀ f ∈ (pool p.dyn_a_ src).take 7, retag 'a' f ∈ (assemble src dst p).fpset_) ∧
    (∀ f ∈ (pool p.dyn_b_ dst).take 7, retag 'B' f ∈ (assemble src dst p).fpset_) ∧
    ((pool p.gap_ (gapIndex src dst)).length ≤ 7 →
      ∀ f ∈ pool p.gap_ (gapIndex src dst), f ∈ (assemble src dst p).fpset_) ∧
    ((pool p.dyn_a_ dst).length ≤ 7 →
      ∀ f ∈ pool p.dyn_a_ dst, retag 'A' f ∈ (assemble src dst p).fpset_) ∧
    ((pool p.dyn_a_ src).length ≤ 7 →
      ∀ f ∈ pool p.dyn_a_ src, retag 'a' f ∈ (assemble src dst p).fpset_) ∧
    ((pool p.dyn_b_ dst).length ≤ 7 →
      ∀ f ∈ pool p.dyn_b_ dst, retag 'B' f ∈ (assemble src dst p).fpset_) ∧
    (∀ p2 : DependencyParser,
      pool p2.static_feature_ src = pool p.static_feature_ src →
      pool p2.static_feature_ dst = pool p.static_feature_ dst →
      (pool p2.gap_ (gapIndex src dst)).take 7 = (pool p.gap_ (gapIndex src dst)).take 7 →
      (pool p2.dyn_a_ dst).take 7 = (pool p.dyn_a_ dst).take 7 →
      (pool p2.dyn_a_ src).take 7 = (pool p.dyn_a_ src).take 7 →
      (pool p2.dyn_b_ dst).take 7 = (pool p.dyn_b_ dst).take 7 →
      (assemble src dst p2).fpset_ = (assemble src dst p).fpset_) := by
  have hG : ∀ f ∈ (pool p.gap_ (gapIndex src dst)).take 7, f ∈ (assemble src dst p).fpset_ := by
    intro f hf
    rw [mem_assemble, mem_candidates]
    exact Or.inr (Or.inr (Or.inr (Or.inl hf)))
  have hA : ∀ f ∈ (pool p.dyn_a_ dst).take 7, retag 'A' f ∈ (assemble src dst p).fpset_ := by
    intro f hf
    rw [mem_assemble, mem_candidates]
    exact Or.inr (Or.inr (Or.inr (Or.inr (Or.inl (List.mem_map_of_mem _ hf)))))
  have ha : ∀ f ∈ (pool p.dyn_a_ src).take 7, retag 'a' f ∈ (assemble src dst p).fpset_ := by
    intro f hf
    rw [mem_assemble, mem_candidates]
    exact Or.inr (Or.inr (Or.inr (Or.inr (Or.inr (Or.inl (List.mem_map_of_mem _ hf))))))
  have hB : ∀ f ∈ (pool p.dyn_b_ dst).take 7, retag 'B' f ∈ (assemble src dst p).fpset_ := by
    intro f hf
    rw [mem_assemble, mem_candidates]
    exact Or.inr (Or.inr (Or.inr (Or.inr (Or.inr (Or.inr (List.mem_map_of_mem _ hf))))))
  refine ⟨hG, hA, ha, hB, ?_, ?_, ?_, ?_, ?_⟩
  · intro hl f hf
    exact hG f (by rw [List.take_of_length_le hl]; exact hf)
  · intro hl f hf
    exact hA f (by rw [List.take_of_length_le hl]; exact hf)
  · intro hl f hf
    exact ha f (by rw [List.take_of_length_le hl]; exact hf)
  · intro hl f hf
    exact hB f (by rw [List.take_of_length_le hl]; exact hf)
  · intro p2 h1 h2 h3 h4 h5 h6
    rw [assemble_fpset, assemble_fpset, candidates_congr src dst p p2 h1 h2 h3 h4 h5 h6]

/-- C6 at a concrete input: in `capExample` each capped pool of the pair
(0, 2) holds eight entries; the assembled set has the first seven of each and
not the eighth. -/
theorem assemble_cap_witness :
    ("G:7" ∈ (assemble 0 2 capExample).fpset_ ∧ "G:8" ∉ (assemble 0 2 capExample).fpset_) ∧
    ("A:q7" ∈ (assemble 0 2 capExample).fpset_ ∧ "A:q8" ∉ (assemble 0 2 capExample).fpset_) ∧
    ("a:p7" ∈ (assemble 0 2 capExample).fpset_ ∧ "a:p8" ∉ (assemble 0 2 capExample).fpset_) ∧
    ("B:7" ∈ (assemble 0 2 capExample).fpset_ ∧ "B:8" ∉ (assemble 0 2 capExample).fpset_) :=
  ⟨⟨(assemble_cap 0 2 capExample).1 "G:7" (by decide), by decide⟩,
   ⟨(assemble_cap 0 2 capExample).2.1 "A:q7" (by decide), by decide⟩,
   ⟨(assemble_cap 0 2 capExample).2.2.1 "A:p7" (by decide), by decide⟩,
   ⟨(assemble_cap 0 2 capExample).2.2.2.1 "B:7" (by decide), by decide⟩⟩






theorem hasTag_retag (c : Char) (x : String) : hasTag c (retag c x) = true := by
  simp [hasTag, retag]

theorem hasTag_D_of_bucket (f : String) (h : f ∈ bucketFeatures) : hasTag 'D' f = true := by
  unfold bucketFeatures at h
  simp only [List.mem_cons, List.mem_singleton, List.not_mem_nil, or_false] at h
  rcases h with h | h | h <;> subst h <;> decide

theorem distFeature_mem_bucket (d : Int) : distFeature d ∈ bucketFeatures := by
  unfold distFeature bucketFeatures
  split_ifs <;> simp

theorem distFeature_one : distFeature 1 = "DIST:1" := by decide

theorem distFeature_mid (d : Int) (h1 : 2 ≤ d) (h2 : d ≤ 5) : distFeature d = "DIST:2-5" := by
  unfold distFeature
  rw [if_neg (by omega), if_pos ⟨h1, h2⟩]

theorem distFeature_far (d : Int) (h : 6 ≤ d) : distFeature d = "DIST:6-" := by
  unfold distFeature
  rw [if_neg (by omega), if_neg (by omega)]

theorem distFeature_eq_iff (d d2 : Int) (h : 1 ≤ d) (h2 : 1 ≤ d2) :
    distFeature d = distFeature d2 ↔
      (d = 1 ∧ d2 = 1) ∨ (2 ≤ d ∧ d ≤ 5 ∧ 2 ≤ d2 ∧ d2 ≤ 5) ∨ (6 ≤ d ∧ 6 ≤ d2) := by
  have c1 : d = 1 ∨ (2 ≤ d ∧ d ≤ 5) ∨ 6 ≤ d := by omega
  have c2 : d2 = 1 ∨ (2 ≤ d2 ∧ d2 ≤ 5) ∨ 6 ≤ d2 := by omega
  have n12 : ("DIST:1" : String) ≠ "DIST:2-5" := by decide
  have n13 : ("DIST:1" : String) ≠ "DIST:6-" := by decide
  have n23 : ("DIST:2-5" : String) ≠ "DIST:6-" := by decide
  rcases c1 with a | ⟨a, a2⟩ | a <;> rcases c2 with b | ⟨b, b2⟩ | b
  · subst a b; simp
  · subst a; rw [distFeature_one, distFeature_mid d2 b b2]
    constructor
    · intro e; exact absurd e n12
    · intro e; omega
  · subst a; rw [distFeature_one, distFeature_far d2 b]
    constructor
    · intro e; exact absurd e n13
    · intro e; omega
  · subst b; rw [distFeature_one, distFeature_mid d a a2]
    constructor
    · intro e; exact absurd e.symm n12
    · intro e; omega
  · rw [distFeature_mid d a a2, distFeature_mid d2 b b2]
    constructor
    · intro _; exact Or.inr (Or.inl ⟨a, a2, b, b2⟩)
    · intro _; rfl
  · rw [distFeature_mid d a a2, distFeature_far d2 b]
    constructor
    · intro e; exact absurd e n23
    · intro e; omega
  · subst b; rw [distFeature_one, distFeature_far d a]
    constructor
    · intro e; exact absurd e.symm n13
    · intro e; omega
  · rw [distFeature_far d a, distFeature_mid d2 b b2]
    constructor
    · intro e; exact absurd e.symm n23
    · intro e; omega
  · rw [distFeature_far d a, distFeature_far d2 b]
    constructor
    · intro _; exact Or.inr (Or.inr ⟨a, b⟩)
    · intro _; rfl

theorem not_bucket_of_tag (c : Char) (hc : c ≠ 'D') (f : String) (h : hasTag c f = true) :
    f ∉ bucketFeatures := by
  intro hb
  have h1 := hasTag_D_of_bucket f hb
  rw [hasTag_excl c 'D' f hc h] at h1
  cases h1

theorem not_bucket_of_mem_map_retag (c : Char) (hc : c ≠ 'D') (xs : List String) (f : String)
    (h : f ∈ xs.map (retag c)) : f ∉ bucketFeatures := by
  obtain ⟨x, _, rfl⟩ := List.mem_map.mp h
  exact not_bucket_of_tag c hc _ (hasTag_retag c x)

/-- The strings offered to the set after the distance feature are never
distance features, when the gap cache is the one `build` made. -/
theorem candidates_not_bucket (tree : Tree) (p0 p : DependencyParser) (src dst : Nat)
    (hgap : p.gap_ = (build tree p0).2.gap_) (f : String)
    (h : f ∈ (pool p.static_feature_ src).map (retag 'f') ∨
      f ∈ (pool p.static_feature_ dst).map (retag 'F') ∨
      f ∈ (pool p.gap_ (gapIndex src dst)).take MAX_GAP_SIZE ∨
      f ∈ ((pool p.dyn_a_ dst).take MAX_GAP_SIZE).map (retag 'A') ∨
      f ∈ ((pool p.dyn_a_ src).take MAX_GAP_SIZE).map (retag 'a') ∨
      f ∈ ((pool p.dyn_b_ dst).take MAX_GAP_SIZE).map (retag 'B')) :
    f ∉ bucketFeatures := by
  rcases h with h | h | h | h | h | h
  · exact not_bucket_of_mem_map_retag 'f' (by decide) _ f h
  · exact not_bucket_of_mem_map_retag 'F' (by decide) _ f h
  · rw [hgap] at h
    exact not_bucket_of_tag 'G' (by decide) f
      (build_gap_tag tree p0 _ f (List.mem_of_mem_take h))
  · exact not_bucket_of_mem_map_retag 'A' (by decide) _ f h
  · exact not_bucket_of_mem_map_retag 'a' (by decide) _ f h
  · exact not_bucket_of_mem_map_retag 'B' (by decide) _ f h

/-- C7. Exactly one distance bucket, decided by thresholds.  Let the gap cache
be the one made by `build` (the other pools are arbitrary, as they are during
`parse`) and `src < dst`.  The assembled set contains exactly one of the three
distance features; it is `distFeature (dst - src)`, a function of the distance
alone; two pairs get the same distance feature if and only if their distances
lie in the same one of the classes `1`, `2..5`, `6 and more`; and no static,
gap or propagated feature offered to the set is a distance feature. -/
theorem assemble_one_bucket (tree : Tree) (p0 p : DependencyParser) (src dst : Nat)
    (hgap : p.gap_ = (build tree p0).2.gap_) (h : src < dst) :
    (∃! f, f ∈ (assemble src dst p).fpset_ ∧ f ∈ bucketFeatures) ∧
    (∀ f, f ∈ (assemble src dst p).fpset_ ∧ f ∈ bucketFeatures ↔
      f = distFeature ((dst : Int) - (src : Int))) ∧
    (∀ src2 dst2 : Nat, src2 < dst2 →
      (distFeature ((dst : Int) - (src : Int)) = distFeature ((dst2 : Int) - (src2 : Int)) ↔
        (((dst : Int) - (src : Int) = 1 ∧ (dst2 : Int) - (src2 : Int) = 1) ∨
         (2 ≤ (dst : Int) - (src : Int) ∧ (dst : Int) - (src : Int) ≤ 5 ∧
            2 ≤ (dst2 : Int) - (src2 : Int) ∧ (dst2 : Int) - (src2 : Int) ≤ 5) ∨
         (6 ≤ (dst : Int) - (src : Int) ∧ 6 ≤ (dst2 : Int) - (src2 : Int))))) ∧
    (∀ f,
      (f ∈ (pool p.static_feature_ src).map (retag 'f') ∨
       f ∈ (pool p.static_feature_ dst).map (retag 'F') ∨
       f ∈ (pool p.gap_ (gapIndex src dst)).take MAX_GAP_SIZE ∨
       f ∈ ((pool p.dyn_a_ dst).take MAX_GAP_SIZE).map (retag 'A') ∨
       f ∈ ((pool p.dyn_a_ src).take MAX_GAP_SIZE).map (retag 'a') ∨
       f ∈ ((pool p.dyn_b_ dst).take MAX_GAP_SIZE).map (retag 'B')) →
      f ∉ bucketFeatures) := by
  have key : ∀ f, f ∈ (assemble src dst p).fpset_ ∧ f ∈ bucketFeatures ↔
      f = distFeature ((dst : Int) - (src : Int)) := by
    intro f
    rw [mem_assemble, mem_candidates]
    constructor
    · rintro ⟨hc, hb⟩
      rcases hc with hc | hc
      · exact hc
      · exact absurd hb (candidates_not_bucket tree p0 p src dst hgap f hc)
    · intro e
      exact ⟨Or.inl e, by rw [e]; exact distFeature_mem_bucket _⟩
  refine ⟨⟨distFeature ((dst : Int) - (src : Int)), (key _).mpr rfl, fun y hy => (key y).mp hy⟩,
    key, ?_, candidates_not_bucket tree p0 p src dst hgap⟩
  intro src2 dst2 h2
  exact distFeature_eq_iff _ _ (by omega) (by omega)

/-- C7 at a concrete input: the pair (0, 2) of `gapExample` right after
`build`. -/
theorem assemble_one_bucket_witness :
    ∃! f, f ∈ (assemble 0 2 (build gapExample emptyParser).2).fpset_ ∧ f ∈ bucketFeatures :=
  (assemble_one_bucket gapExample emptyParser (build gapExample emptyParser).2 0 2 rfl
    (by decide)).1

/-- C8, the claim as stated fails: the strings `1`, `2-5` and `6+` are not in
the sets assembled for pairs at distance 1, 2 and 6 of `sevenExample` (nor is
`DIST:6+`); the set for the pair (0, 6) is `DIST:6-`, `F:g`, `f:a`. -/
theorem assemble_bucket_names_counterexample :
    "1" ∉ (assemble 0 1 (build sevenExample emptyParser).2).fpset_ ∧
    "2-5" ∉ (assemble 0 2 (build sevenExample emptyParser).2).fpset_ ∧
    "6+" ∉ (assemble 0 6 (build sevenExample emptyParser).2).fpset_ ∧
    "DIST:6+" ∉ (assemble 0 6 (build sevenExample emptyParser).2).fpset_ ∧
    (assemble 0 6 (build sevenExample emptyParser).2).fpset_ = ["DIST:6-", "F:g", "f:a"] := by
  decide

/-- C8, amended.  For `src < dst` and every cache content, the assembled set
contains the string `DIST:1` when `dst - src = 1`, the string `DIST:2-5` when
`2 <= dst - src <= 5`, and the string `DIST:6-` when `dst - src >= 6`. -/
theorem assemble_bucket_names (src dst : Nat) (p : DependencyParser) (_h : src < dst) :
    (dst - src = 1 → "DIST:1" ∈ (assemble src dst p).fpset_) ∧
    (2 ≤ dst - src ∧ dst - src ≤ 5 → "DIST:2-5" ∈ (assemble src dst p).fpset_) ∧
    (6 ≤ dst - src → "DIST:6-" ∈ (assemble src dst p).fpset_) := by
  have hm : distFeature ((dst : Int) - (src : Int)) ∈ (assemble src dst p).fpset_ := by
    rw [mem_assemble, mem_candidates]
    exact Or.inl rfl
  refine ⟨?_, ?_, ?_⟩
  · intro h1
    have e : (dst : Int) - (src : Int) = 1 := by omega
    rw [e, distFeature_one] at hm
    exact hm
  · intro h1
    rw [distFeature_mid _ (by omega) (by omega)] at hm
    exact hm
  · intro h1
    rw [distFeature_far _ (by omega)] at hm
    exact hm

/-- C8 amended, at concrete inputs: the pairs (0, 1), (0, 2) and (0, 6) of
`sevenExample`. -/
theorem assemble_bucket_names_witness :
    "DIST:1" ∈ (assemble 0 1 (build sevenExample emptyParser).2).fpset_ ∧
    "DIST:2-5" ∈ (assemble 0 2 (build sevenExample emptyParser).2).fpset_ ∧
    "DIST:6-" ∈ (assemble 0 6 (build sevenExample emptyParser).2).fpset_ :=
  ⟨(assemble_bucket_names 0 1 (build sevenExample emptyParser).2 (by decide)).1 (by decide),
   (assemble_bucket_names 0 2 (build sevenExample emptyParser).2 (by decide)).2.1 (by decide),
   (assemble_bucket_names 0 6 (build sevenExample emptyParser).2 (by decide)).2.2 (by decide)⟩





/-! ## Auxiliary facts about `parse` -/

theorem chunk_size_attach (t : Tree) (src dst : Nat) (sc : Int) :
    (t.attach src dst sc).chunk_size = t.chunk_size := by
  unfold Tree.attach Tree.chunk_size
  cases t.chunks[src]? <;> simp

theorem link_attach (t : Tree) (src dst : Nat) (sc : Int) (i : Nat) :
    (t.attach src dst sc).link i =
      if i = src ∧ i < t.chunk_size then (dst : Int) else t.link i := by
  unfold Tree.attach Tree.link Tree.chunk_size
  by_cases hs : src < t.chunks.length
  · rw [List.getElem?_eq_getElem hs]
    simp only [List.getElem?_set]
    by_cases hi : i = src
    · subst hi
      simp [hs]
    · have hi2 : ¬ src = i := fun e => hi e.symm
      simp [hi, hi2]
  · rw [List.getElem?_eq_none (Nat.le_of_not_lt hs)]
    by_cases hi : i = src
    · subst hi
      simp [hs]
    · simp [hi]

theorem feature_list_attach (t : Tree) (src dst : Nat) (sc : Int) (i : Nat) :
    (t.attach src dst sc).feature_list i = t.feature_list i := by
  unfold Tree.attach Tree.feature_list
  by_cases hs : src < t.chunks.length
  · rw [List.getElem?_eq_getElem hs]
    simp only [List.getElem?_set]
    by_cases hi : src = i
    · subst hi
      simp [hs]
    · simp [hi]
  · rw [List.getElem?_eq_none (Nat.le_of_not_lt hs)]

/-- In the round of the last chunk `estimate` accepts, in either mode. -/
theorem estimate_accept_end (mode : ActionMode) (svm : List String → Int) (tree : Tree)
    (src dst : Nat) (score : Int) (p : DependencyParser)
    (h : (tree.chunk_size : Int) - 1 = (dst : Int)) :
    (estimate mode svm tree src dst score p).accept = true := by
  cases mode
  · rw [estimate_parsing_end svm tree src dst score p h]
  · rw [estimate_training_eq]
    simp [h]

theorem callEstimate_tree (mode : ActionMode) (svm : List String → Int) (src dst : Nat)
    (r : Run) : (callEstimate mode svm src dst r).2.tree = r.tree := rfl

theorem callEstimate_agenda (mode : ActionMode) (svm : List String → Int) (src dst : Nat)
    (r : Run) : (callEstimate mode svm src dst r).2.agenda = r.agenda := rfl

theorem callEstimate_log (mode : ActionMode) (svm : List String → Int) (src dst : Nat)
    (r : Run) : (callEstimate mode svm src dst r).2.log =
      r.log ++ [{ src := src, dst := dst, accept := (callEstimate mode svm src dst r).1,
                  agenda := r.agenda }] := rfl

theorem callEstimate_accept_end (mode : ActionMode) (svm : List String → Int) (src dst : Nat)
    (r : Run) (h : (r.tree.chunk_size : Int) - 1 = (dst : Int)) :
    (callEstimate mode svm src dst r).1 = true :=
  estimate_accept_end mode svm r.tree src dst r.score r.dp h

/-- What the `while` loop of one round does to the stack, the log and the head
links, in terms of the accepted entries `acc` and the remaining stack `rest`. -/
theorem whileLoop_spec (mode : ActionMode) (svm : List String → Int) (dst : Nat)
    (agenda : List Nat) (src : Nat) (r : Run) :
    ∃ acc rest, src :: agenda = acc ++ rest ∧
      stackAfter (whileLoop mode svm dst (some src) agenda r) = rest ∧
      (whileLoop mode svm dst (some src) agenda r).2.log = r.log ++ callsOf dst acc rest ∧
      (whileLoop mode svm dst (some src) agenda r).2.tree.chunk_size = r.tree.chunk_size ∧
      (∀ i, (whileLoop mode svm dst (some src) agenda r).2.tree.link i =
        if i ∈ acc ∧ i < r.tree.chunk_size then (dst : Int) else r.tree.link i) ∧
      (∀ i, (whileLoop mode svm dst (some src) agenda r).2.tree.feature_list i =
        r.tree.feature_list i) ∧
      ((r.tree.chunk_size : Int) - 1 = (dst : Int) → rest = []) := by
  induction agenda generalizing src r with
  | nil =>
    unfold whileLoop
    by_cases hc : (callEstimate mode svm src dst { r with agenda := [] }).1 = true
    · simp only [hc, if_true]
      refine ⟨[src], [], rfl, rfl, ?_, ?_, ?_, ?_, fun _ => rfl⟩
      · simp [commit, callEstimate_log, hc, callsOf]
      · simp [commit, chunk_size_attach, callEstimate_tree]
      · intro i
        simp [commit, link_attach, callEstimate_tree]
      · intro i
        simp [commit, feature_list_attach, callEstimate_tree]
    · simp only [hc, if_false]
      refine ⟨[], [src], rfl, rfl, ?_, rfl, ?_, ?_, ?_⟩
      · simp only [Bool.not_eq_true] at hc
        simp [callEstimate_log, hc, callsOf]
      · intro i; simp [callEstimate_tree]
      · intro i; simp [callEstimate_tree]
      · intro he
        exact absurd (callEstimate_accept_end mode svm src dst { r with agenda := [] } he) hc
  | cons n rest0 ih =>
    unfold whileLoop
    by_cases hc : (callEstimate mode svm src dst { r with agenda := n :: rest0 }).1 = true
    · simp only [hc, if_true]
      obtain ⟨acc, rest, h1, h2, h3, h4, h5, h6, h7⟩ :=
        ih n (commit src dst (callEstimate mode svm src dst { r with agenda := n :: rest0 }).2)
      have hsz : (commit src dst
          (callEstimate mode svm src dst { r with agenda := n :: rest0 }).2).tree.chunk_size =
          r.tree.chunk_size := by
        simp [commit, chunk_size_attach, callEstimate_tree]
      refine ⟨src :: acc, rest, by rw [h1]; rfl, h2, ?_, by rw [h4, hsz], ?_, ?_, ?_⟩
      · have hl : (commit src dst
            (callEstimate mode svm src dst { r with agenda := n :: rest0 }).2).log =
            r.log ++ [{ src := src, dst := dst, accept := true, agenda := n :: rest0 }] := by
          simp [commit, callEstimate_log, hc]
        rw [h3, hl, h1]
        simp [callsOf]
      · intro i
        rw [h5 i, hsz]
        simp only [commit, link_attach, callEstimate_tree, List.mem_cons]
        by_cases hi : i = src
        · subst hi
          by_cases hl : i < r.tree.chunk_size <;> simp [hl]
        · simp [hi]
      · intro i
        rw [h6 i]
        simp [commit, feature_list_attach, callEstimate_tree]
      · intro he
        exact h7 (by rw [hsz]; exact he)
    · simp only [hc, if_false]
      refine ⟨[], src :: n :: rest0, rfl, rfl, ?_, rfl, ?_, ?_, ?_⟩
      · simp only [Bool.not_eq_true] at hc
        simp [callEstimate_log, hc, callsOf]
      · intro i; simp [callEstimate_tree]
      · intro i; simp [callEstimate_tree]
      · intro he
        exact absurd
          (callEstimate_accept_end mode svm src dst { r with agenda := n :: rest0 } he) hc






theorem round_spec (mode : ActionMode) (svm : List String → Int) (r : Run) (dst : Nat) :
    ∃ acc rest, r.agenda = acc ++ rest ∧
      (round mode svm r dst).agenda = dst :: rest ∧
      (round mode svm r dst).log = r.log ++ callsOf dst acc rest ∧
      (round mode svm r dst).tree.chunk_size = r.tree.chunk_size ∧
      (∀ i, (round mode svm r dst).tree.link i =
        if i ∈ acc ∧ i < r.tree.chunk_size then (dst : Int) else r.tree.link i) ∧
      (∀ i, (round mode svm r dst).tree.feature_list i = r.tree.feature_list i) ∧
      ((r.tree.chunk_size : Int) - 1 = (dst : Int) → rest = []) := by
  cases hag : r.agenda with
  | nil =>
    refine ⟨[], [], rfl, ?_, ?_, ?_, ?_, ?_, fun _ => rfl⟩
    · simp [round, hag, MYPOP, whileLoop]
    · simp [round, hag, MYPOP, whileLoop, callsOf]
    · simp [round, hag, MYPOP, whileLoop]
    · intro i; simp [round, hag, MYPOP, whileLoop]
    · intro i; simp [round, hag, MYPOP, whileLoop]
  | cons s ag =>
    obtain ⟨acc, rest, h1, h2, h3, h4, h5, h6, h7⟩ := whileLoop_spec mode svm dst ag s r
    refine ⟨acc, rest, h1, ?_, ?_, ?_, ?_, ?_, h7⟩
    · simp only [round, hag, MYPOP]
      rw [← h2]
      rfl
    · simp only [round, hag, MYPOP]
      exact h3
    · simp only [round, hag, MYPOP]
      exact h4
    · intro i
      simp only [round, hag, MYPOP]
      exact h5 i
    · intro i
      simp only [round, hag, MYPOP]
      exact h6 i

theorem attached_append (L1 L2 : List Call) : attached (L1 ++ L2) = attached L1 ++ attached L2 := by
  simp [attached]

theorem attached_callsOf (dst : Nat) (acc rest : List Nat) :
    attached (callsOf dst acc rest) = acc := by
  induction acc with
  | nil => cases rest <;> simp [callsOf, attached]
  | cons a acc ih =>
    have : attached (callsOf dst (a :: acc) rest) = a :: attached (callsOf dst acc rest) := by
      simp [callsOf, attached]
    rw [this, ih]

theorem mem_attached (log : List Call) (i : Nat) :
    i ∈ attached log ↔ ∃ e ∈ log, e.accept = true ∧ e.src = i := by
  simp [attached, List.mem_map, List.mem_filter, and_assoc]

theorem mem_callsOf (dst : Nat) (acc rest : List Nat) (e : Call) (h : e ∈ callsOf dst acc rest) :
    e.dst = dst ∧ e.src ∈ acc ++ rest ∧ (e.accept = true → e.src ∈ acc) := by
  induction acc with
  | nil =>
    cases rest with
    | nil => simp [callsOf] at h
    | cons s rest =>
      simp only [callsOf, List.mem_singleton] at h
      subst h
      simp
  | cons a acc ih =>
    simp only [callsOf, List.mem_cons] at h
    rcases h with h | h
    · subst h
      simp
    · obtain ⟨h1, h2, h3⟩ := ih h
      refine ⟨h1, ?_, ?_⟩
      · simp only [List.cons_append, List.mem_cons]
        exact Or.inr h2
      · intro ha
        exact List.mem_cons_of_mem _ (h3 ha)

/-- A call of a round sees, as its source and the stack below it, what is
left of the stack once the entries accepted before it are gone. -/
theorem callsOf_split (dst : Nat) (acc rest : List Nat) (C1 C2 : List Call) (e : Call)
    (h : callsOf dst acc rest = C1 ++ e :: C2) :
    acc ++ rest = attached C1 ++ e.src :: e.agenda := by
  induction acc generalizing C1 with
  | nil =>
    cases rest with
    | nil => simp [callsOf] at h
    | cons s rest =>
      simp only [callsOf] at h
      cases C1 with
      | nil =>
        simp only [List.nil_append, List.cons.injEq] at h
        obtain ⟨h1, _⟩ := h
        subst h1
        simp [attached]
      | cons c C1 =>
        simp only [List.cons_append, List.cons.injEq] at h
        obtain ⟨_, h2⟩ := h
        cases C1 <;> simp at h2
  | cons a acc ih =>
    simp only [callsOf] at h
    cases C1 with
    | nil =>
      simp only [List.nil_append, List.cons.injEq] at h
      obtain ⟨h1, _⟩ := h
      subst h1
      simp [attached]
    | cons c C1 =>
      simp only [List.cons_append, List.cons.injEq] at h
      obtain ⟨h1, h2⟩ := h
      subst h1
      have := ih C1 h2
      simp only [List.cons_append]
      rw [this]
      simp [attached]






theorem RunInv_init (tree : Tree) (p : DependencyParser) : RunInv tree 0 (initRun tree p) where
  size := rfl
  feats := fun _ => rfl
  top := ⟨[], rfl⟩
  sorted := by simp [initRun]
  cover := by
    intro i hi
    left
    simp [initRun]
    omega
  disjoint := by simp [initRun, attached]
  nodup := by simp [initRun, attached]
  calls := by simp [initRun]
  links := by simp [initRun]
  frame := fun _ _ => rfl
  fresh := by
    intro L1 e L2 h
    simp [initRun] at h
  last := fun _ => rfl

theorem RunInv_round (mode : ActionMode) (svm : List String → Int) (tree0 : Tree) (d : Nat)
    (r : Run) (hinv : RunInv tree0 d r) (hd : d + 1 < tree0.chunk_size) :
    RunInv tree0 (d + 1) (round mode svm r (d + 1)) := by
  obtain ⟨acc, rest, h1, h2, h3, h4, h5, h6, h7⟩ := round_spec mode svm r (d + 1)
  have hle : ∀ x ∈ r.agenda, x ≤ d := by
    obtain ⟨tl, htl⟩ := hinv.top
    have hs := hinv.sorted
    rw [htl] at hs
    intro x hx
    rw [htl] at hx
    rcases List.mem_cons.mp hx with hx | hx
    · omega
    · exact Nat.le_of_lt ((List.pairwise_cons.mp hs).1 x hx)
  have hnd : (acc ++ rest).Nodup := by
    rw [← h1]
    exact hinv.sorted.imp (fun hab e => by omega)
  have hacc : ∀ x ∈ acc, x ∈ r.agenda := fun x hx => by
    rw [h1]; exact List.mem_append_left _ hx
  have hrest : ∀ x ∈ rest, x ∈ r.agenda := fun x hx => by
    rw [h1]; exact List.mem_append_right _ hx
  have hatt : attached (round mode svm r (d + 1)).log = attached r.log ++ acc := by
    rw [h3, attached_append, attached_callsOf]
  have hold : ∀ i ∈ attached r.log, i ∉ acc := fun i hi ha =>
    hinv.disjoint i (hacc i ha) hi
  have hsz : r.tree.chunk_size = tree0.chunk_size := hinv.size
  refine
    { size := h4.trans hinv.size
      feats := fun i => (h6 i).trans (hinv.feats i)
      top := ⟨rest, h2⟩
      sorted := ?_
      cover := ?_
      disjoint := ?_
      nodup := ?_
      calls := ?_
      links := ?_
      frame := ?_
      fresh := ?_
      last := ?_ }
  · rw [h2, List.pairwise_cons]
    refine ⟨fun b hb => Nat.lt_succ_of_le (hle b (hrest b hb)), ?_⟩
    have hs := hinv.sorted
    rw [h1] at hs
    exact (List.pairwise_append.mp hs).2.1
  · intro i hi
    rw [h2, hatt]
    by_cases hi2 : i = d + 1
    · left; rw [hi2]; exact List.mem_cons_self _ _
    · rcases hinv.cover i (by omega) with hc | hc
      · rw [h1] at hc
        rcases List.mem_append.mp hc with hc | hc
        · right; exact List.mem_append_right _ hc
        · left; exact List.mem_cons_of_mem _ hc
      · right; exact List.mem_append_left _ hc
  · intro i hi
    rw [h2] at hi
    rw [hatt]
    intro hm
    rcases List.mem_cons.mp hi with hi | hi
    · subst hi
      rcases List.mem_append.mp hm with hm | hm
      · obtain ⟨e, he, _, hes⟩ := (mem_attached _ _).mp hm
        have := hinv.calls e he
        omega
      · have := hle _ (hacc _ hm)
        omega
    · rcases List.mem_append.mp hm with hm | hm
      · exact hinv.disjoint i (hrest i hi) hm
      · exact (List.nodup_append.mp hnd).2.2 hm hi
  · rw [hatt]
    exact List.nodup_append.mpr ⟨hinv.nodup, (List.nodup_append.mp hnd).1,
      fun _ ha hb => hold _ ha hb⟩
  · intro e he
    rw [h3] at he
    rcases List.mem_append.mp he with he | he
    · have := hinv.calls e he
      omega
    · obtain ⟨e1, e2, _⟩ := mem_callsOf _ _ _ _ he
      rw [← h1] at e2
      have := hle _ e2
      omega
  · intro e he hacc2
    rw [h3] at he
    rw [h5]
    rcases List.mem_append.mp he with he | he
    · have hm : e.src ∈ attached r.log := (mem_attached _ _).mpr ⟨e, he, hacc2, rfl⟩
      have hn : ¬ (e.src ∈ acc ∧ e.src < r.tree.chunk_size) := fun h => hold _ hm h.1
      rw [if_neg hn]
      exact hinv.links e he hacc2
    · obtain ⟨e1, _, e3⟩ := mem_callsOf _ _ _ _ he
      have hs : e.src ∈ acc := e3 hacc2
      have hl := hle _ (hacc _ hs)
      have hp : e.src ∈ acc ∧ e.src < r.tree.chunk_size := ⟨hs, by rw [hsz]; omega⟩
      rw [if_pos hp, e1]
  · intro i hi
    rw [hatt] at hi
    rw [h5]
    have h1n : i ∉ acc := fun h => hi (List.mem_append_right _ h)
    have h2n : i ∉ attached r.log := fun h => hi (List.mem_append_left _ h)
    rw [if_neg (fun h => h1n h.1)]
    exact hinv.frame i h2n
  · intro L1 e L2 hsplit
    rw [h3] at hsplit
    rcases List.append_eq_append_iff.mp hsplit with ⟨a, ha1, ha2⟩ | ⟨c, hc1, hc2⟩
    · -- the call is one of this round
      rw [ha1, attached_append]
      have hsp := callsOf_split _ _ _ _ _ _ ha2
      have hnd2 : (attached a ++ e.src :: e.agenda).Nodup := by rw [← hsp]; exact hnd
      have hin : ∀ x ∈ e.src :: e.agenda, x ∈ r.agenda := by
        intro x hx
        rw [h1, hsp]
        exact List.mem_append_right _ hx
      have key : ∀ x ∈ e.src :: e.agenda, x ∉ attached r.log ++ attached a := by
        intro x hx hm
        rcases List.mem_append.mp hm with hm | hm
        · exact hinv.disjoint x (hin x hx) hm
        · exact (List.nodup_append.mp hnd2).2.2 hm hx
      exact ⟨key _ (List.mem_cons_self _ _), fun x hx => key x (List.mem_cons_of_mem _ hx)⟩
    · -- the call is an earlier one
      cases c with
      | nil =>
        simp only [List.nil_append] at hc2
        simp only [List.append_nil] at hc1
        rw [← hc1]
        have hsp := callsOf_split _ _ _ [] _ _ hc2.symm
        simp only [attached, List.filter_nil, List.map_nil, List.nil_append] at hsp
        have hin : ∀ x ∈ e.src :: e.agenda, x ∈ r.agenda := by
          intro x hx
          rw [h1, hsp]
          exact hx
        exact ⟨fun hm => hinv.disjoint _ (hin _ (List.mem_cons_self _ _)) hm,
          fun x hx hm => hinv.disjoint _ (hin _ (List.mem_cons_of_mem _ hx)) hm⟩
      | cons c0 c =>
        simp only [List.cons_append, List.cons.injEq] at hc2
        obtain ⟨hc0, hc3⟩ := hc2
        subst hc0
        exact hinv.fresh L1 e c hc1
  · intro hl
    have : rest = [] := h7 (by rw [hsz]; push_cast; exact hl)
    rw [h2, this]






theorem RunInv_rounds (mode : ActionMode) (svm : List String → Int) (tree : Tree)
    (p : DependencyParser) (d : Nat) (hd : d = 0 ∨ d + 1 ≤ tree.chunk_size) :
    RunInv tree d ((List.range' 1 d).foldl (round mode svm) (initRun tree p)) := by
  induction d with
  | zero => exact RunInv_init tree p
  | succ d ih =>
    have hd2 : d + 1 + 1 ≤ tree.chunk_size := by omega
    rw [List.range'_concat, List.foldl_append, List.foldl_cons, List.foldl_nil]
    have := RunInv_round mode svm tree d _ (ih (by omega)) (by omega)
    rw [Nat.one_mul, Nat.add_comm 1 d]
    exact this

/-- The invariant of the rounds holds when `parse` leaves its loop. -/
theorem parseRun_inv (mode : ActionMode) (svm : List String → Int) (tree : Tree)
    (p : DependencyParser) :
    RunInv tree (tree.chunk_size - 1) (parseRun mode svm tree p) :=
  RunInv_rounds mode svm tree p (tree.chunk_size - 1) (by omega)

theorem parse_link (mode : ActionMode) (svm : List String → Int) (tree : Tree)
    (p : DependencyParser) (i : Nat) :
    (parse mode svm tree p).1.link i = (parseRun mode svm tree p).tree.link i := rfl

theorem parseRun_agenda (mode : ActionMode) (svm : List String → Int) (tree : Tree)
    (p : DependencyParser) (hN : 1 ≤ tree.chunk_size) :
    (parseRun mode svm tree p).agenda = [tree.chunk_size - 1] :=
  (parseRun_inv mode svm tree p).last (by omega)

/-- Every chunk but the last has been given a head when `parse` leaves its
loop, by exactly one accepted call, whose destination lies to its right. -/
theorem parseRun_head (mode : ActionMode) (svm : List String → Int) (tree : Tree)
    (p : DependencyParser) (i : Nat) (hi : i + 1 < tree.chunk_size) :
    ∃ h, i < h ∧ h ≤ tree.chunk_size - 1 ∧
      (parseRun mode svm tree p).tree.link i = (h : Int) ∧
      (attached (parseRun mode svm tree p).log).count i = 1 ∧
      (∀ e ∈ (parseRun mode svm tree p).log, e.accept = true → e.src = i → e.dst = h) := by
  have inv := parseRun_inv mode svm tree p
  have hag := parseRun_agenda mode svm tree p (by omega)
  have hm : i ∈ attached (parseRun mode svm tree p).log := by
    rcases inv.cover i (by omega) with h | h
    · rw [hag, List.mem_singleton] at h
      omega
    · exact h
  obtain ⟨e, he, hea, hes⟩ := (mem_attached _ _).mp hm
  have hc := inv.calls e he
  have hl := inv.links e he hea
  rw [hes] at hc hl
  refine ⟨e.dst, hc.1, hc.2, hl, List.count_eq_one_of_mem inv.nodup hm, ?_⟩
  intro e2 he2 hea2 hes2
  have hl2 := inv.links e2 he2 hea2
  rw [hes2, hl] at hl2
  exact (Int.ofNat_inj.mp hl2).symm

/-- C1. Single-head invariant.  For every sentence, every classifier and
either mode (inference mode in particular), when `parse` returns every chunk
`i` other than the last has a head `h` with `i < h <= N-1`: the head link of
`i` in the returned tree is `h`, exactly one accepted call of `estimate` had
source `i` (its head was set exactly once), and every accepted call with
source `i` had destination `h`. -/
theorem parse_single_head (mode : ActionMode) (svm : List String → Int) (tree : Tree)
    (p : DependencyParser) (i : Nat) (hi : i + 1 < tree.chunk_size) :
    ∃ h, i < h ∧ h ≤ tree.chunk_size - 1 ∧
      (parse mode svm tree p).1.link i = (h : Int) ∧
      (attached (parseRun mode svm tree p).log).count i = 1 ∧
      (∀ e ∈ (parseRun mode svm tree p).log, e.accept = true → e.src = i → e.dst = h) :=
  parseRun_head mode svm tree p i hi

/-- C1 at a concrete input: inference on the four-chunk `gapExample` with a
classifier that rejects every pair; chunk 1 is not the last chunk, and it gets
its head, chunk 3, in the last round. -/
theorem parse_single_head_witness :
    1 + 1 < gapExample.chunk_size ∧
    (parse ActionMode.PARSING_MODE rejectSvm gapExample emptyParser).1.link 1 = 3 ∧
    ∃ h, 1 < h ∧ h ≤ gapExample.chunk_size - 1 ∧
      (parse ActionMode.PARSING_MODE rejectSvm gapExample emptyParser).1.link 1 = (h : Int) ∧
      (attached (parseRun ActionMode.PARSING_MODE rejectSvm gapExample emptyParser).log).count 1
        = 1 ∧
      (∀ e ∈ (parseRun ActionMode.PARSING_MODE rejectSvm gapExample emptyParser).log,
        e.accept = true → e.src = 1 → e.dst = h) :=
  ⟨by decide, by decide,
    parse_single_head ActionMode.PARSING_MODE rejectSvm gapExample emptyParser 1 (by decide)⟩

theorem head_of_link (t : Tree) (i h : Nat) (hl : t.link i = (h : Int)) : t.head i = h := by
  unfold Tree.head
  rw [hl]
  rfl

/-- C2. Rootedness.  For every sentence of `N >= 1` chunks, every classifier
and either mode: no accepted call has the last chunk as its source, so
`parse` never writes its head link, which keeps its initial value; every other
chunk's head link points strictly to the right and at most to `N-1`; from
every chunk `i`, following the head links reaches chunk `N-1` after at most
`N-1-i` steps; and a walk of one or more steps along head links that starts
at a chunk other than the last and has not yet left from the last chunk ends
strictly to the right of its start, so the head relation has no cycle. -/
theorem parse_rooted (mode : ActionMode) (svm : List String → Int) (tree : Tree)
    (p : DependencyParser) (hN : 1 ≤ tree.chunk_size) :
    (tree.chunk_size - 1) ∉ attached (parseRun mode svm tree p).log ∧
    (parse mode svm tree p).1.link (tree.chunk_size - 1) = tree.link (tree.chunk_size - 1) ∧
    (∀ i, i + 1 < tree.chunk_size →
      i < (parse mode svm tree p).1.head i ∧
      (parse mode svm tree p).1.head i ≤ tree.chunk_size - 1) ∧
    (∀ i, i < tree.chunk_size →
      ∃ k, k ≤ tree.chunk_size - 1 - i ∧
        ((parse mode svm tree p).1.head)^[k] i = tree.chunk_size - 1) ∧
    (∀ i k, i + 1 < tree.chunk_size → 1 ≤ k →
      (∀ m, m < k → ((parse mode svm tree p).1.head)^[m] i + 1 < tree.chunk_size) →
      i < ((parse mode svm tree p).1.head)^[k] i) := by
  have inv := parseRun_inv mode svm tree p
  have hag := parseRun_agenda mode svm tree p hN
  have hroot : (tree.chunk_size - 1) ∉ attached (parseRun mode svm tree p).log :=
    inv.disjoint _ (by rw [hag]; exact List.mem_singleton_self _)
  have hstep : ∀ i, i + 1 < tree.chunk_size →
      i < (parse mode svm tree p).1.head i ∧
      (parse mode svm tree p).1.head i ≤ tree.chunk_size - 1 := by
    intro i hi
    obtain ⟨h, h1, h2, h3, _⟩ := parseRun_head mode svm tree p i hi
    rw [head_of_link _ i h ((parse_link mode svm tree p i).trans h3)]
    exact ⟨h1, h2⟩
  refine ⟨hroot, ?_, hstep, ?_, ?_⟩
  · rw [parse_link]
    exact inv.frame _ hroot
  · intro i hi
    generalize hn : tree.chunk_size - 1 - i = n
    induction n using Nat.strong_induction_on generalizing i with
    | _ n ih =>
      by_cases hlast : i = tree.chunk_size - 1
      · exact ⟨0, Nat.zero_le _, by rw [Function.iterate_zero, id_eq, hlast]⟩
      · obtain ⟨h1, h2⟩ := hstep i (by omega)
        obtain ⟨k, hk1, hk2⟩ := ih (tree.chunk_size - 1 - (parse mode svm tree p).1.head i)
          (by omega) ((parse mode svm tree p).1.head i) (by omega) rfl
        exact ⟨k + 1, by omega, by rw [Function.iterate_succ_apply, hk2]⟩
  · intro i k hi hk hpath
    induction k with
    | zero => omega
    | succ k ih =>
      rw [Function.iterate_succ_apply']
      have hcur := hpath k (Nat.lt_succ_self k)
      have hs := (hstep _ hcur).1
      by_cases hk0 : k = 0
      · subst hk0
        rw [Function.iterate_zero, id_eq] at hs ⊢
        exact hs
      · have := ih (by omega) (fun m hm => hpath m (by omega))
        omega

/-- C2 at a concrete input: training-mode `parse` on `gapExample`, whose gold
heads are all `-1`. -/
theorem parse_rooted_witness :
    (parse ActionMode.TRAINING_MODE rejectSvm gapExample emptyParser).1.link 3 = -1 ∧
    (∃ k, k ≤ 3 ∧
      ((parse ActionMode.TRAINING_MODE rejectSvm gapExample emptyParser).1.head)^[k] 0 = 3) := by
  have h := parse_rooted ActionMode.TRAINING_MODE rejectSvm gapExample emptyParser (by decide)
  refine ⟨h.2.1.trans (by decide), ?_⟩
  obtain ⟨k, hk, hk2⟩ := h.2.2.2.1 0 (by decide)
  exact ⟨k, hk, hk2⟩






/-- C10. Heads are assigned once, at the first acceptance.  For every
sentence, classifier and mode, in the run of `parse`: the sources of the
accepted calls of `estimate` are pairwise distinct, so each head link is
written at most once, and a chunk that is the source of no accepted call keeps
its initial head link.  For an accepted call `e` of the log: the head link of
its source in the returned tree is its destination; no earlier call with the
same source was accepted (it is the first acceptance); no later call has that
source, nor holds it on the stack below its own source; and the source is not
on the stack when the loop ends. -/
theorem parse_heads_once (mode : ActionMode) (svm : List String → Int) (tree : Tree)
    (p : DependencyParser) (L1 L2 : List Call) (e : Call)
    (hlog : (parseRun mode svm tree p).log = L1 ++ e :: L2) (hacc : e.accept = true) :
    (attached (parseRun mode svm tree p).log).Nodup ∧
    (∀ i, i ∉ attached (parseRun mode svm tree p).log →
      (parse mode svm tree p).1.link i = tree.link i) ∧
    (parse mode svm tree p).1.link e.src = (e.dst : Int) ∧
    (∀ e2 ∈ L1, e2.src = e.src → e2.accept = false) ∧
    (∀ e2 ∈ L2, e2.src ≠ e.src ∧ e.src ∉ e2.agenda) ∧
    e.src ∉ (parseRun mode svm tree p).agenda := by
  have inv := parseRun_inv mode svm tree p
  have hmem : e ∈ (parseRun mode svm tree p).log := by
    rw [hlog]; exact List.mem_append_right _ (List.mem_cons_self _ _)
  have hatt : e.src ∈ attached (parseRun mode svm tree p).log :=
    (mem_attached _ _).mpr ⟨e, hmem, hacc, rfl⟩
  refine ⟨inv.nodup, fun i hi => inv.frame i hi, inv.links e hmem hacc, ?_, ?_, ?_⟩
  · intro e2 he2 hsrc
    cases h2 : e2.accept with
    | false => rfl
    | true =>
      have : e.src ∈ attached L1 := (mem_attached _ _).mpr ⟨e2, he2, h2, hsrc⟩
      exact absurd this (inv.fresh L1 e L2 hlog).1
  · intro e2 he2
    obtain ⟨A, B, hAB⟩ := List.append_of_mem he2
    have hsplit : (parseRun mode svm tree p).log = (L1 ++ e :: A) ++ e2 :: B := by
      rw [hlog, hAB]; simp
    have hf := inv.fresh (L1 ++ e :: A) e2 B hsplit
    have hin : e.src ∈ attached (L1 ++ e :: A) :=
      (mem_attached _ _).mpr
        ⟨e, List.mem_append_right _ (List.mem_cons_self _ _), hacc, rfl⟩
    refine ⟨fun h => hf.1 (by rw [h]; exact hin), fun h => hf.2 _ h hin⟩
  · intro h
    exact inv.disjoint _ h hatt

/-- C10 at a concrete input: inference on `gapExample` with the classifier
that rejects every pair makes five calls; the fourth, `estimate(1, 3)`, is the
first to accept chunk 1. -/
theorem parse_heads_once_witness :
    (parse ActionMode.PARSING_MODE rejectSvm gapExample emptyParser).1.link 1 = 3 ∧
    (∀ e2 ∈ [({ src := 0, dst := 1, accept := false, agenda := [] } : Call),
              { src := 1, dst := 2, accept := false, agenda := [0] },
              { src := 2, dst := 3, accept := true, agenda := [1, 0] }],
      e2.src = 1 → e2.accept = false) ∧
    (∀ e2 ∈ [({ src := 0, dst := 3, accept := true, agenda := [] } : Call)],
      e2.src ≠ 1 ∧ 1 ∉ e2.agenda) :=
  have h := parse_heads_once ActionMode.PARSING_MODE rejectSvm gapExample emptyParser
    [{ src := 0, dst := 1, accept := false, agenda := [] },
     { src := 1, dst := 2, accept := false, agenda := [0] },
     { src := 2, dst := 3, accept := true, agenda := [1, 0] }]
    [{ src := 0, dst := 3, accept := true, agenda := [] }]
    { src := 1, dst := 3, accept := true, agenda := [0] }
    (by decide) rfl
  ⟨h.2.2.1, h.2.2.2.1, h.2.2.2.2.1⟩





/-! ## The triangular index, the size of the assembled set, idempotence -/

theorem gapLoop_length (size : Nat) (gl g : List (List String)) :
    (gapLoop size gl g).length = g.length := by
  have hJ : ∀ (k i : Nat) (a : List (List String)), a.length = g.length →
      (gapLoopJ size gl k i a).length = g.length := fun k i a ha =>
    foldl_inv (fun a : List (List String) => a.length = g.length)
      (fun g j => copy_back g (gapIndex i j) (pool gl k)) _
      (fun a j ha => by
        show (copy_back a (gapIndex i j) (pool gl k)).length = g.length
        rw [copy_back_length]; exact ha) a ha
  have hI : ∀ (k : Nat) (a : List (List String)), a.length = g.length →
      (gapLoopI size gl k a).length = g.length := fun k a ha =>
    foldl_inv (fun a : List (List String) => a.length = g.length)
      (fun g i => gapLoopJ size gl k i g) _ (fun a i ha => hJ k i a ha) a ha
  exact foldl_inv (fun a : List (List String) => a.length = g.length)
    (fun g k => gapLoopI size gl k g) _ (fun a k ha => hI k a ha) g rfl

theorem build_gap_length (tree : Tree) (p : DependencyParser) :
    (build tree p).2.gap_.length = tree.chunk_size * (tree.chunk_size + 3) / 2 + 1 := by
  rw [(build_spec tree p).2.2.2.2.2.2.2.1, gapLoop_length, List.length_replicate]

theorem wrapInt32_of_range (z : Int) (h1 : -2147483648 ≤ z) (h2 : z < 2147483648) :
    wrapInt32 z = z := by
  unfold wrapInt32
  rw [Int.emod_eq_of_lt (by omega) (by omega)]
  omega

/-- Up to `dst = 46340` no operation of the `int` computation of dep.cpp:121
leaves the range of `int`, and the result is the index that `build` uses. -/
theorem gapIndexInt_eq (src dst : Nat) (hs : src < dst) (hd : dst ≤ 46340) :
    gapIndexInt src dst = ((gapIndex src dst : Nat) : Int) := by
  have h1 : dst * (dst + 1) ≤ 46340 * 46341 := Nat.mul_le_mul hd (by omega)
  have h2 : dst * (dst + 1) / 2 ≤ 46340 * 46341 / 2 := Nat.div_le_div_right h1
  have h3 : (46340 * 46341 : Nat) = 2147441940 := by norm_num
  have h4 : (46340 * 46341 / 2 : Nat) = 1073720970 := by norm_num
  rw [h3] at h1
  rw [h4] at h2
  unfold gapIndexInt gapIndex
  rw [wrapInt32_of_range ((dst : Int) + 1) (by omega) (by omega)]
  have e1 : (dst : Int) * ((dst : Int) + 1) = ((dst * (dst + 1) : Nat) : Int) := by
    push_cast
    rfl
  rw [e1, wrapInt32_of_range ((dst * (dst + 1) : Nat) : Int) (by omega) (by omega)]
  have e2 : Int.tdiv ((dst * (dst + 1) : Nat) : Int) 2 = ((dst * (dst + 1) / 2 : Nat) : Int) :=
    (Int.ofNat_tdiv _ 2).symm
  rw [e2, wrapInt32_of_range _ (by omega) (by omega)]
  push_cast
  rfl

/-- C17, the claim as stated fails from `N = 46342` on: for the pair
(0, 46341) the product `46341 * 46342` exceeds `2^31 - 1`, and the `int`
computation of `estimate` (dep.cpp:121) yields `-1073716337`, which is no index
of `gap_` and is not the index `1073767311` of the slot that `build` filled for
this pair; and beyond, two different pairs collide: (128, 255) and (0, 65536)
both give the index 32768. -/
theorem gapIndex_bounds_injective_counterexample :
    (0 : Nat) < 46341 ∧ (46341 : Nat) < 46342 ∧
    gapIndexInt 0 46341 = -1073716337 ∧
    gapIndex 0 46341 = 1073767311 ∧
    ¬ (0 ≤ gapIndexInt 0 46341) ∧
    gapIndexInt 128 255 = 32768 ∧ gapIndexInt 0 65536 = 32768 := by
  decide

/-- C17, amended.  For every `N <= 46341` and all `i < j < N`: the `int`
computation of `estimate` gives the index `j*(j+1)/2+i` that `build` uses; this
index is non-negative and strictly below `N*(N+3)/2+1`, which is the length
`build` gives to `gap_` for a sentence of `N` chunks; two pairs `i < j` and
`i2 < j2` below `N` with the same index are the same pair; and neither
`j*(j+1)` reaches `2^31` nor `N*(N+3)` reaches `2^32`, so that the `size_t`
computations of `build` are exact as well. -/
theorem gapIndex_bounds_injective :
    (∀ N i j : Nat, N ≤ 46341 → i < j → j < N →
      gapIndexInt i j = ((gapIndex i j : Nat) : Int) ∧
      0 ≤ gapIndexInt i j ∧
      gapIndexInt i j < ((N * (N + 3) / 2 + 1 : Nat) : Int) ∧
      gapIndex i j < N * (N + 3) / 2 + 1 ∧
      j * (j + 1) < 2 ^ 31 ∧ N * (N + 3) < 2 ^ 32) ∧
    (∀ (tree : Tree) (p : DependencyParser) (i j : Nat), tree.chunk_size ≤ 46341 → i < j →
      j < tree.chunk_size →
      (build tree p).2.gap_.length = tree.chunk_size * (tree.chunk_size + 3) / 2 + 1 ∧
      0 ≤ gapIndexInt i j ∧
      gapIndexInt i j < (((build tree p).2.gap_.length : Nat) : Int)) ∧
    (∀ N i j i2 j2 : Nat, N ≤ 46341 → i < j → j < N → i2 < j2 → j2 < N →
      (gapIndexInt i j = gapIndexInt i2 j2 → i = i2 ∧ j = j2) ∧
      (gapIndex i j = gapIndex i2 j2 → i = i2 ∧ j = j2)) := by
  refine ⟨?_, ?_, ?_⟩
  · intro N i j hN hi hj
    have e := gapIndexInt_eq i j hi (by omega)
    have hlt := gapIndex_lt hi hj
    have h1 : j * (j + 1) ≤ 46340 * 46341 := Nat.mul_le_mul (by omega) (by omega)
    have h2 : N * (N + 3) ≤ 46341 * 46344 := Nat.mul_le_mul hN (by omega)
    have h3 : (46340 * 46341 : Nat) < 2 ^ 31 := by norm_num
    have h4 : (46341 * 46344 : Nat) < 2 ^ 32 := by norm_num
    refine ⟨e, ?_, ?_, hlt, by omega, by omega⟩
    · rw [e]
      exact Int.ofNat_nonneg _
    · rw [e]
      exact Int.ofNat_lt.mpr hlt
  · intro tree p i j hN hi hj
    have e := gapIndexInt_eq i j hi (by omega)
    have hlt := gapIndex_lt hi hj
    refine ⟨build_gap_length tree p, ?_, ?_⟩
    · rw [e]
      exact Int.ofNat_nonneg _
    · rw [e, build_gap_length]
      exact Int.ofNat_lt.mpr hlt
  · intro N i j i2 j2 hN hi hj hi2 hj2
    refine ⟨fun h => ?_, fun h => gapIndex_inj hi hi2 h⟩
    rw [gapIndexInt_eq i j hi (by omega), gapIndexInt_eq i2 j2 hi2 (by omega)] at h
    exact gapIndex_inj hi hi2 (Int.ofNat_inj.mp h)

/-- C17 amended, at a concrete input: a sentence of four chunks has a gap cache
of 15 pools, the `int` index of the pair (2, 3) is 8, and the six pairs have
the indices 1, 3, 4, 6, 7, 8. -/
theorem gapIndex_bounds_injective_witness :
    (build gapExample emptyParser).2.gap_.length = 15 ∧
    gapIndexInt 2 3 < (((build gapExample emptyParser).2.gap_.length : Nat) : Int) ∧
    [gapIndexInt 0 1, gapIndexInt 0 2, gapIndexInt 1 2, gapIndexInt 0 3, gapIndexInt 1 3,
      gapIndexInt 2 3] = [1, 3, 4, 6, 7, 8] :=
  ⟨by decide,
    (gapIndex_bounds_injective.2.1 gapExample emptyParser 2 3 (by decide) (by decide)
      (by decide)).2.2, by decide⟩

theorem length_candidates_le (src dst : Nat) (p : DependencyParser) :
    (candidates src dst p).length ≤
      1 + (pool p.static_feature_ src).length + (pool p.static_feature_ dst).length +
        min (pool p.gap_ (gapIndex src dst)).length 7 + min (pool p.dyn_a_ dst).length 7 +
        min (pool p.dyn_a_ src).length 7 + min (pool p.dyn_b_ dst).length 7 := by
  unfold candidates MAX_GAP_SIZE
  simp only [List.length_append, List.length_map, List.length_take, List.length_singleton]
  omega

theorem length_assemble_le (src dst : Nat) (p : DependencyParser) :
    (assemble src dst p).fpset_.length ≤
      1 + (pool p.static_feature_ src).length + (pool p.static_feature_ dst).length +
        min (pool p.gap_ (gapIndex src dst)).length 7 + min (pool p.dyn_a_ dst).length 7 +
        min (pool p.dyn_a_ src).length 7 + min (pool p.dyn_b_ dst).length 7 := by
  rw [assemble_fpset]
  have h1 := length_insertAll_le (candidates src dst p) []
  have h2 := length_candidates_le src dst p
  simp only [List.length_nil, Nat.zero_add] at h1
  omega





theorem vec_ext (v w : List (List String)) (hl : v.length = w.length)
    (h : ∀ i, pool v i = pool w i) : v = w := by
  apply List.ext_getElem hl
  intro i h1 h2
  have := h i
  simp only [pool, List.getD_eq_getElem?_getD, List.getElem?_eq_getElem h1,
    List.getElem?_eq_getElem h2, Option.getD_some] at this
  exact this

theorem dp_ext (a b : DependencyParser)
    (h1 : a.static_feature_ = b.static_feature_) (h2 : a.dyn_b_feature_ = b.dyn_b_feature_)
    (h3 : a.dyn_b_ = b.dyn_b_) (h4 : a.dyn_a_feature_ = b.dyn_a_feature_)
    (h5 : a.dyn_a_ = b.dyn_a_) (h6 : a.gap_ = b.gap_) (h7 : a.gap_list_ = b.gap_list_)
    (h8 : a.fpset_ = b.fpset_) (h9 : a.fp_ = b.fp_) (h10 : a.stream = b.stream) : a = b := by
  cases a
  cases b
  simp only at h1 h2 h3 h4 h5 h6 h7 h8 h9 h10
  subst h1 h2 h3 h4 h5 h6 h7 h8 h9 h10
  rfl

theorem untag_retag (c : Char) (x : String) : untag (retag c x) = untag x := rfl

theorem retag_eq_of_untag (c : Char) (x y : String) (h : untag x = untag y) :
    retag c x = retag c y := by
  unfold retag
  unfold untag at h
  rw [h]

theorem map_retag_of_untag (c : Char) (xs ys : List String)
    (h : xs.map untag = ys.map untag) : xs.map (retag c) = ys.map (retag c) := by
  induction xs generalizing ys with
  | nil =>
    cases ys with
    | nil => rfl
    | cons y ys => simp at h
  | cons x xs ih =>
    cases ys with
    | nil => simp at h
    | cons y ys =>
      simp only [List.map_cons, List.cons.injEq] at h ⊢
      exact ⟨retag_eq_of_untag c x y h.1, ih ys h.2⟩

theorem map_untag_map_retag (c : Char) (xs : List String) :
    (xs.map (retag c)).map untag = xs.map untag := by
  rw [List.map_map]
  rfl

theorem map_untag_retagFirst (c : Char) (n : Nat) (xs : List String) :
    (retagFirst c n xs).map untag = xs.map untag := by
  unfold retagFirst
  rw [List.map_append, map_untag_map_retag, ← List.map_append, List.take_append_drop]

theorem drop_retagFirst (c : Char) (n : Nat) (xs : List String) :
    (retagFirst c n xs).drop n = xs.drop n := by
  unfold retagFirst
  rcases Nat.le_total n xs.length with h | h
  · rw [List.drop_append_of_le_length (by simp [h])]
    rw [List.drop_of_length_le (by simp [h]), List.nil_append]
  · rw [List.drop_of_length_le h, List.append_nil,
      List.drop_of_length_le (by simp)]

theorem retagFirst_retagFirst (c d : Char) (n : Nat) (xs : List String) :
    retagFirst c n (retagFirst d n xs) = retagFirst c n xs := by
  have h : retagFirst c n (retagFirst d n xs) =
      ((retagFirst d n xs).take n).map (retag c) ++ (retagFirst d n xs).drop n := rfl
  rw [h, take_retagFirst, drop_retagFirst, map_retag_retag]
  rfl

/-- The pools of `static_feature_` after the assembly. -/
theorem assemble_static (src dst : Nat) (p : DependencyParser) (i : Nat) :
    pool (assemble src dst p).static_feature_ i =
      if i = dst then (pool p.static_feature_ dst).map (retag 'F')
      else if i = src then (pool p.static_feature_ src).map (retag 'f')
      else pool p.static_feature_ i := by
  have h : (assemble src dst p).static_feature_ =
      (p.static_feature_.set src ((pool p.static_feature_ src).map (retag 'f'))).set dst
        ((pool (p.static_feature_.set src ((pool p.static_feature_ src).map (retag 'f')))
          dst).map (retag 'F')) := rfl
  rw [h, pool_set_retag]
  by_cases h1 : i = dst
  · rw [if_pos h1, if_pos h1, pool_set_retag]
    by_cases h2 : dst = src
    · rw [if_pos h2, map_retag_retag, h2]
    · rw [if_neg h2]
  · rw [if_neg h1, if_neg h1, pool_set_retag]

/-- The pools of `dyn_a_` after the assembly. -/
theorem assemble_dyn_a (src dst : Nat) (p : DependencyParser) (i : Nat) :
    pool (assemble src dst p).dyn_a_ i =
      if i = src then retagFirst 'a' MAX_GAP_SIZE (pool p.dyn_a_ src)
      else if i = dst then retagFirst 'A' MAX_GAP_SIZE (pool p.dyn_a_ dst)
      else pool p.dyn_a_ i := by
  have h : (assemble src dst p).dyn_a_ =
      (p.dyn_a_.set dst (retagFirst 'A' (min (pool p.dyn_a_ dst).length MAX_GAP_SIZE)
          (pool p.dyn_a_ dst))).set src
        (retagFirst 'a'
          (min (pool (p.dyn_a_.set dst (retagFirst 'A'
            (min (pool p.dyn_a_ dst).length MAX_GAP_SIZE) (pool p.dyn_a_ dst))) src).length
            MAX_GAP_SIZE)
          (pool (p.dyn_a_.set dst (retagFirst 'A'
            (min (pool p.dyn_a_ dst).length MAX_GAP_SIZE) (pool p.dyn_a_ dst))) src)) := rfl
  rw [h, pool_set_cap]
  by_cases h1 : i = src
  · rw [if_pos h1, if_pos h1, retagFirst_min, pool_set_cap]
    by_cases h2 : src = dst
    · rw [if_pos h2, retagFirst_min, retagFirst_retagFirst, h2]
    · rw [if_neg h2]
  · rw [if_neg h1, if_neg h1, pool_set_cap, retagFirst_min]

/-- The pools of `dyn_b_` after the assembly. -/
theorem assemble_dyn_b (src dst : Nat) (p : DependencyParser) (i : Nat) :
    pool (assemble src dst p).dyn_b_ i =
      if i = dst then retagFirst 'B' MAX_GAP_SIZE (pool p.dyn_b_ dst)
      else pool p.dyn_b_ i := by
  have h : (assemble src dst p).dyn_b_ =
      p.dyn_b_.set dst (retagFirst 'B' (min (pool p.dyn_b_ dst).length MAX_GAP_SIZE)
        (pool p.dyn_b_ dst)) := rfl
  rw [h, pool_set_cap, retagFirst_min]

theorem assemble_lengths (src dst : Nat) (p : DependencyParser) :
    (assemble src dst p).static_feature_.length = p.static_feature_.length ∧
    (assemble src dst p).dyn_a_.length = p.dyn_a_.length ∧
    (assemble src dst p).dyn_b_.length = p.dyn_b_.length := by
  simp [assemble]

/-- The assembly rewrites only role tags: the identities held by every pool of
`static_feature_`, `dyn_a_` and `dyn_b_` stay the same. -/
theorem assemble_untag (src dst : Nat) (p : DependencyParser) (i : Nat) :
    (pool (assemble src dst p).static_feature_ i).map untag =
      (pool p.static_feature_ i).map untag ∧
    (pool (assemble src dst p).dyn_a_ i).map untag = (pool p.dyn_a_ i).map untag ∧
    (pool (assemble src dst p).dyn_b_ i).map untag = (pool p.dyn_b_ i).map untag := by
  rw [assemble_static, assemble_dyn_a, assemble_dyn_b]
  refine ⟨?_, ?_, ?_⟩
  · split_ifs with h1 h2
    · rw [map_untag_map_retag, h1]
    · rw [map_untag_map_retag, h2]
    · rfl
  · split_ifs with h1 h2
    · rw [map_untag_retagFirst, h1]
    · rw [map_untag_retagFirst, h2]
    · rfl
  · split_ifs with h1
    · rw [map_untag_retagFirst, h1]
    · rfl

theorem assemble_frame (src dst : Nat) (p : DependencyParser) :
    (assemble src dst p).gap_ = p.gap_ ∧ (assemble src dst p).gap_list_ = p.gap_list_ ∧
    (assemble src dst p).dyn_a_feature_ = p.dyn_a_feature_ ∧
    (assemble src dst p).dyn_b_feature_ = p.dyn_b_feature_ ∧
    (assemble src dst p).stream = p.stream :=
  ⟨rfl, rfl, rfl, rfl, rfl⟩

/-- Two parser states whose pools hold the same identities at `src` and `dst`
and the same gap pool offer the same candidates. -/
theorem candidates_of_untag (src dst : Nat) (p q : DependencyParser)
    (hs : ∀ i, (pool q.static_feature_ i).map untag = (pool p.static_feature_ i).map untag)
    (ha : ∀ i, (pool q.dyn_a_ i).map untag = (pool p.dyn_a_ i).map untag)
    (hb : ∀ i, (pool q.dyn_b_ i).map untag = (pool p.dyn_b_ i).map untag)
    (hg : q.gap_ = p.gap_) : candidates src dst q = candidates src dst p := by
  have take_untag : ∀ (xs ys : List String), xs.map untag = ys.map untag →
      (xs.take MAX_GAP_SIZE).map untag = (ys.take MAX_GAP_SIZE).map untag := by
    intro xs ys h
    rw [List.map_take, List.map_take, h]
  unfold candidates
  rw [hg, map_retag_of_untag 'f' _ _ (hs src), map_retag_of_untag 'F' _ _ (hs dst),
    map_retag_of_untag 'A' _ _ (take_untag _ _ (ha dst)),
    map_retag_of_untag 'a' _ _ (take_untag _ _ (ha src)),
    map_retag_of_untag 'B' _ _ (take_untag _ _ (hb dst))]






theorem assemble_fpset_idem (src dst : Nat) (p : DependencyParser) :
    (assemble src dst (assemble src dst p)).fpset_ = (assemble src dst p).fpset_ := by
  rw [assemble_fpset, assemble_fpset,
    candidates_of_untag src dst p (assemble src dst p)
      (fun i => (assemble_untag src dst p i).1) (fun i => (assemble_untag src dst p i).2.1)
      (fun i => (assemble_untag src dst p i).2.2) rfl]

/-- Assembling a second time changes nothing at all in the parser state. -/
theorem assemble_idem (src dst : Nat) (p : DependencyParser) :
    assemble src dst (assemble src dst p) = assemble src dst p := by
  have hfp := assemble_fpset_idem src dst p
  apply dp_ext
  · apply vec_ext
    · rw [(assemble_lengths src dst _).1]
    · intro i
      rw [assemble_static, assemble_static src dst p i, assemble_static src dst p dst,
        assemble_static src dst p src]
      by_cases h1 : i = dst
      · simp only [h1, if_true, map_retag_retag]
      · by_cases h2 : i = src
        · have h3 : ¬ src = dst := fun e => h1 (h2.trans e)
          simp only [h1, h2, h3, if_true, if_false, map_retag_retag]
        · simp only [h1, h2, if_false]
  · rfl
  · apply vec_ext
    · rw [(assemble_lengths src dst _).2.2]
    · intro i
      rw [assemble_dyn_b, assemble_dyn_b src dst p i, assemble_dyn_b src dst p dst]
      by_cases h1 : i = dst
      · simp only [h1, if_true, retagFirst_retagFirst]
      · simp only [h1, if_false]
  · rfl
  · apply vec_ext
    · rw [(assemble_lengths src dst _).2.1]
    · intro i
      rw [assemble_dyn_a, assemble_dyn_a src dst p i, assemble_dyn_a src dst p dst,
        assemble_dyn_a src dst p src]
      by_cases h1 : i = src
      · simp only [h1, if_true, retagFirst_retagFirst]
      · by_cases h2 : i = dst
        · have h3 : ¬ dst = src := fun e => h1 (h2.trans e)
          simp only [h1, h2, h3, if_true, if_false, retagFirst_retagFirst]
        · simp only [h1, h2, if_false]
  · rfl
  · rfl
  · exact hfp
  · have e1 : (assemble src dst (assemble src dst p)).fp_ =
        (assemble src dst (assemble src dst p)).fpset_ ++
          (assemble src dst p).fp_.drop (assemble src dst (assemble src dst p)).fpset_.length :=
      rfl
    have e2 : (assemble src dst p).fp_ =
        (assemble src dst p).fpset_ ++ p.fp_.drop (assemble src dst p).fpset_.length := rfl
    rw [e1, hfp]
    conv_lhs => rw [e2]
    rw [List.drop_left, ← e2]
  · rfl

theorem assemble_with_stream (src dst : Nat) (q : DependencyParser) (x : String) :
    assemble src dst { q with stream := x } = { assemble src dst q with stream := x } := rfl

/-- A second call of `estimate` on the state left by the first repeats its
decision and score and leaves the same set and caches. -/
theorem estimate_twice (mode : ActionMode) (svm : List String → Int) (tree : Tree)
    (src dst : Nat) (score : Int) (p : DependencyParser) :
    (estimate mode svm tree src dst
        (estimate mode svm tree src dst score p).score
        (estimate mode svm tree src dst score p).dp).accept =
      (estimate mode svm tree src dst score p).accept ∧
    (estimate mode svm tree src dst
        (estimate mode svm tree src dst score p).score
        (estimate mode svm tree src dst score p).dp).score =
      (estimate mode svm tree src dst score p).score ∧
    (estimate mode svm tree src dst
        (estimate mode svm tree src dst score p).score
        (estimate mode svm tree src dst score p).dp).dp.fpset_ =
      (estimate mode svm tree src dst score p).dp.fpset_ ∧
    (estimate mode svm tree src dst
        (estimate mode svm tree src dst score p).score
        (estimate mode svm tree src dst score p).dp).dp.static_feature_ =
      (estimate mode svm tree src dst score p).dp.static_feature_ ∧
    (estimate mode svm tree src dst
        (estimate mode svm tree src dst score p).score
        (estimate mode svm tree src dst score p).dp).dp.dyn_a_ =
      (estimate mode svm tree src dst score p).dp.dyn_a_ ∧
    (estimate mode svm tree src dst
        (estimate mode svm tree src dst score p).score
        (estimate mode svm tree src dst score p).dp).dp.dyn_b_ =
      (estimate mode svm tree src dst score p).dp.dyn_b_ := by
  cases mode
  · by_cases he : (tree.chunk_size : Int) - 1 = (dst : Int)
    · rw [estimate_parsing_end svm tree src dst score p he]
      rw [estimate_parsing_end svm tree src dst 0 p he]
      exact ⟨rfl, rfl, rfl, rfl, rfl, rfl⟩
    · rw [estimate_parsing_inner svm tree src dst score p he]
      rw [estimate_parsing_inner svm tree src dst _ _ he]
      simp [assemble_idem]
  · rw [estimate_training_eq svm tree src dst score p]
    rw [estimate_training_eq svm tree src dst _ _]
    simp [assemble_with_stream, assemble_idem]

/-- C13. Idempotent feature assembly.  For every cache state and every pair,
assembling the feature set a second time, with nothing committed in between,
yields the same feature set; in fact the whole parser state after the second
assembly (caches with their rewritten role tags, set and buffer) is the state
after the first.  At the level of `estimate`, in either mode, a second call on
the state left by the first returns the same decision and leaves the same
set. -/
theorem assemble_idempotent (src dst : Nat) (p : DependencyParser) :
    (assemble src dst (assemble src dst p)).fpset_ = (assemble src dst p).fpset_ ∧
    assemble src dst (assemble src dst p) = assemble src dst p ∧
    (∀ (mode : ActionMode) (svm : List String → Int) (tree : Tree) (score : Int),
      (estimate mode svm tree src dst
          (estimate mode svm tree src dst score p).score
          (estimate mode svm tree src dst score p).dp).accept =
        (estimate mode svm tree src dst score p).accept ∧
      (estimate mode svm tree src dst
          (estimate mode svm tree src dst score p).score
          (estimate mode svm tree src dst score p).dp).dp.fpset_ =
        (estimate mode svm tree src dst score p).dp.fpset_) :=
  ⟨assemble_fpset_idem src dst p, assemble_idem src dst p,
    fun mode svm tree score =>
      ⟨(estimate_twice mode svm tree src dst score p).1,
       (estimate_twice mode svm tree src dst score p).2.2.1⟩⟩

/-- C13 at a concrete input: the pair (0, 2) of `capExample`, whose pools are
all over the cap; the second assembly returns the very same state, and the
first did rewrite tags. -/
theorem assemble_idempotent_witness :
    assemble 0 2 (assemble 0 2 capExample) = assemble 0 2 capExample ∧
    assemble 0 2 capExample ≠ capExample :=
  ⟨(assemble_idempotent 0 2 capExample).2.1, by decide⟩





/-! ## Invariants of the loops of `parse` -/

/-- The parser state after `estimate` is the state before it, or the assembled
state with some sink. -/
theorem estimate_dp_cases (mode : ActionMode) (svm : List String → Int) (tree : Tree)
    (src dst : Nat) (score : Int) (p : DependencyParser) :
    (estimate mode svm tree src dst score p).dp = p ∨
    ∃ x, (estimate mode svm tree src dst score p).dp =
      { assemble src dst p with stream := x } := by
  cases mode
  · by_cases he : (tree.chunk_size : Int) - 1 = (dst : Int)
    · left
      rw [estimate_parsing_end svm tree src dst score p he]
    · right
      rw [estimate_parsing_inner svm tree src dst score p he]
      exact ⟨(assemble src dst p).stream, rfl⟩
  · right
    rw [estimate_training_eq]
    exact ⟨_, rfl⟩

/-- A property of the run state that does not depend on the stack field, that
every call of `estimate` for a stack entry keeps when it rejects, and that the
call followed by the commit keeps when it accepts, holds after the `while`
loop. -/
theorem whileLoop_preserves (mode : ActionMode) (svm : List String → Int) (dst : Nat)
    (P : Run → Prop) (S : Nat → Prop)
    (hag : ∀ r ag, P r → P { r with agenda := ag })
    (hrej : ∀ src r, S src → P r → (callEstimate mode svm src dst r).1 = false →
      P (callEstimate mode svm src dst r).2)
    (hacc : ∀ src r, S src → P r → (callEstimate mode svm src dst r).1 = true →
      P (commit src dst (callEstimate mode svm src dst r).2))
    (agenda : List Nat) (src : Nat) (r : Run) (hS : ∀ x ∈ src :: agenda, S x) (hP : P r) :
    P (whileLoop mode svm dst (some src) agenda r).2 := by
  induction agenda generalizing src r with
  | nil =>
    unfold whileLoop
    by_cases hc : (callEstimate mode svm src dst { r with agenda := [] }).1 = true
    · simp only [hc, if_true]
      exact hacc src _ (hS src (List.mem_cons_self _ _)) (hag r [] hP) hc
    · simp only [hc, if_false]
      exact hrej src _ (hS src (List.mem_cons_self _ _)) (hag r [] hP)
        (by simpa using hc)
  | cons n rest ih =>
    unfold whileLoop
    by_cases hc : (callEstimate mode svm src dst { r with agenda := n :: rest }).1 = true
    · simp only [hc, if_true]
      exact ih n _ (fun x hx => hS x (List.mem_cons_of_mem _ hx))
        (hacc src _ (hS src (List.mem_cons_self _ _)) (hag r _ hP) hc)
    · simp only [hc, if_false]
      exact hrej src _ (hS src (List.mem_cons_self _ _)) (hag r _ hP)
        (by simpa using hc)

/-- The same for one round of the `for` loop. -/
theorem round_preserves (mode : ActionMode) (svm : List String → Int) (dst : Nat)
    (P : Run → Prop) (S : Nat → Prop)
    (hag : ∀ r ag, P r → P { r with agenda := ag })
    (hrej : ∀ src r, S src → P r → (callEstimate mode svm src dst r).1 = false →
      P (callEstimate mode svm src dst r).2)
    (hacc : ∀ src r, S src → P r → (callEstimate mode svm src dst r).1 = true →
      P (commit src dst (callEstimate mode svm src dst r).2))
    (r : Run) (hS : ∀ x ∈ r.agenda, S x) (hP : P r) :
    P (round mode svm r dst) := by
  cases hag2 : r.agenda with
  | nil =>
    have : round mode svm r dst = { r with agenda := [dst] } := by
      simp [round, hag2, MYPOP, whileLoop]
    rw [this]
    exact hag r _ hP
  | cons s ag =>
    have : round mode svm r dst =
        { (whileLoop mode svm dst (some s) ag r).2 with
          agenda := dst :: stackAfter (whileLoop mode svm dst (some s) ag r) } := by
      simp only [round, hag2, MYPOP]
      rfl
    rw [this]
    apply hag
    exact whileLoop_preserves mode svm dst P S hag hrej hacc ag s r
      (by rw [← hag2]; exact hS) hP





/-! ## What `estimate` and `parse` change in the caches -/

/-- What a call of `estimate` does to the caches: the gap cache, the gap-source
lists and the seed pools stay as they are; the pools of `static_feature_`,
`dyn_a_` and `dyn_b_` keep their identities (only first characters are
rewritten), and stay as they are at every index other than `src` and `dst`. -/
theorem estimate_frame (mode : ActionMode) (svm : List String → Int) (tree : Tree)
    (src dst : Nat) (score : Int) (p : DependencyParser) :
    (estimate mode svm tree src dst score p).dp.gap_ = p.gap_ ∧
    (estimate mode svm tree src dst score p).dp.gap_list_ = p.gap_list_ ∧
    (estimate mode svm tree src dst score p).dp.dyn_a_feature_ = p.dyn_a_feature_ ∧
    (estimate mode svm tree src dst score p).dp.dyn_b_feature_ = p.dyn_b_feature_ ∧
    (estimate mode svm tree src dst score p).dp.static_feature_.length =
      p.static_feature_.length ∧
    (estimate mode svm tree src dst score p).dp.dyn_a_.length = p.dyn_a_.length ∧
    (estimate mode svm tree src dst score p).dp.dyn_b_.length = p.dyn_b_.length ∧
    (∀ i, (pool (estimate mode svm tree src dst score p).dp.static_feature_ i).map untag =
      (pool p.static_feature_ i).map untag) ∧
    (∀ i, (pool (estimate mode svm tree src dst score p).dp.dyn_a_ i).map untag =
      (pool p.dyn_a_ i).map untag) ∧
    (∀ i, (pool (estimate mode svm tree src dst score p).dp.dyn_b_ i).map untag =
      (pool p.dyn_b_ i).map untag) ∧
    (∀ i, i ≠ src → i ≠ dst →
      pool (estimate mode svm tree src dst score p).dp.static_feature_ i =
        pool p.static_feature_ i ∧
      pool (estimate mode svm tree src dst score p).dp.dyn_a_ i = pool p.dyn_a_ i ∧
      pool (estimate mode svm tree src dst score p).dp.dyn_b_ i = pool p.dyn_b_ i) := by
  rcases estimate_dp_cases mode svm tree src dst score p with h | ⟨x, h⟩
  · rw [h]
    exact ⟨rfl, rfl, rfl, rfl, rfl, rfl, rfl, fun _ => rfl, fun _ => rfl, fun _ => rfl,
      fun _ _ _ => ⟨rfl, rfl, rfl⟩⟩
  · rw [h]
    refine ⟨rfl, rfl, rfl, rfl, (assemble_lengths src dst p).1, (assemble_lengths src dst p).2.1,
      (assemble_lengths src dst p).2.2, fun i => (assemble_untag src dst p i).1,
      fun i => (assemble_untag src dst p i).2.1, fun i => (assemble_untag src dst p i).2.2, ?_⟩
    intro i h1 h2
    refine ⟨?_, ?_, ?_⟩
    · show pool (assemble src dst p).static_feature_ i = _
      rw [assemble_static, if_neg h2, if_neg h1]
    · show pool (assemble src dst p).dyn_a_ i = _
      rw [assemble_dyn_a, if_neg h1, if_neg h2]
    · show pool (assemble src dst p).dyn_b_ i = _
      rw [assemble_dyn_b, if_neg h2]

/-- What the commit of an accepted pair does to the caches: the two appends of
dep.cpp:196-201 and nothing else. -/
theorem commit_frame (src dst : Nat) (r : Run) :
    (commit src dst r).dp.static_feature_ = r.dp.static_feature_ ∧
    (commit src dst r).dp.gap_ = r.dp.gap_ ∧
    (commit src dst r).dp.gap_list_ = r.dp.gap_list_ ∧
    (commit src dst r).dp.dyn_a_feature_ = r.dp.dyn_a_feature_ ∧
    (commit src dst r).dp.dyn_b_feature_ = r.dp.dyn_b_feature_ ∧
    (commit src dst r).dp.dyn_b_ =
      copy_back r.dp.dyn_b_ src (pool r.dp.dyn_b_feature_ dst) ∧
    (commit src dst r).dp.dyn_a_ =
      copy_back r.dp.dyn_a_ dst (pool r.dp.dyn_a_feature_ src) ∧
    (∀ i, i ≠ src → pool (commit src dst r).dp.dyn_b_ i = pool r.dp.dyn_b_ i) ∧
    (∀ i, i ≠ dst → pool (commit src dst r).dp.dyn_a_ i = pool r.dp.dyn_a_ i) ∧
    (src < r.dp.dyn_b_.length →
      pool (commit src dst r).dp.dyn_b_ src =
        pool r.dp.dyn_b_ src ++ pool r.dp.dyn_b_feature_ dst) ∧
    (dst < r.dp.dyn_a_.length →
      pool (commit src dst r).dp.dyn_a_ dst =
        pool r.dp.dyn_a_ dst ++ pool r.dp.dyn_a_feature_ src) :=
  ⟨rfl, rfl, rfl, rfl, rfl, rfl, rfl,
    fun _ hi => pool_copy_back_ne _ _ _ _ (fun e => hi e.symm),
    fun _ hi => pool_copy_back_ne _ _ _ _ (fun e => hi e.symm),
    fun h => pool_copy_back_self _ _ _ h,
    fun h => pool_copy_back_self _ _ _ h⟩






theorem Stable.refl (p : DependencyParser) : Stable p p :=
  ⟨rfl, rfl, rfl, rfl, rfl, rfl, rfl, fun _ => rfl⟩

theorem Stable.estimate {p0 p : DependencyParser} (h : Stable p0 p) (mode : ActionMode)
    (svm : List String → Int) (tree : Tree) (src dst : Nat) (score : Int) :
    Stable p0 (estimate mode svm tree src dst score p).dp := by
  obtain ⟨h1, h2, h3, h4, h5, h6, h7, h8⟩ := h
  obtain ⟨e1, e2, e3, e4, e5, e6, e7, e8, _, _, _⟩ :=
    estimate_frame mode svm tree src dst score p
  exact ⟨e1.trans h1, e2.trans h2, e3.trans h3, e4.trans h4, e5.trans h5, e6.trans h6,
    e7.trans h7, fun i => (e8 i).trans (h8 i)⟩

theorem Stable.commit {p0 : DependencyParser} {r : Run} (h : Stable p0 r.dp) (src dst : Nat) :
    Stable p0 (commit src dst r).dp := by
  obtain ⟨h1, h2, h3, h4, h5, h6, h7, h8⟩ := h
  refine ⟨h1, h2, h3, h4, h5, ?_, ?_, h8⟩
  · show (copy_back r.dp.dyn_a_ dst _).length = _
    rw [copy_back_length, h6]
  · show (copy_back r.dp.dyn_b_ src _).length = _
    rw [copy_back_length, h7]

theorem round_stable (mode : ActionMode) (svm : List String → Int) (p0 : DependencyParser)
    (r : Run) (dst : Nat) (h : Stable p0 r.dp) : Stable p0 (round mode svm r dst).dp :=
  round_preserves mode svm dst (fun r => Stable p0 r.dp) (fun _ => True)
    (fun _ _ h => h)
    (fun src r _ h _ => h.estimate mode svm r.tree src dst r.score)
    (fun src r _ h _ => Stable.commit (r := (callEstimate mode svm src dst r).2)
      (h.estimate mode svm r.tree src dst r.score) src dst)
    r (fun _ _ => trivial) h

theorem runUpTo_stable (mode : ActionMode) (svm : List String → Int) (tree : Tree)
    (p : DependencyParser) (d : Nat) :
    Stable (build tree p).2 (runUpTo mode svm tree p d).dp :=
  foldl_inv (fun r : Run => Stable (build tree p).2 r.dp) (round mode svm) _
    (fun r dst h => round_stable mode svm _ r dst h) (initRun tree p) (Stable.refl _)

theorem parseRun_eq_runUpTo (mode : ActionMode) (svm : List String → Int) (tree : Tree)
    (p : DependencyParser) :
    parseRun mode svm tree p = runUpTo mode svm tree p (tree.chunk_size - 1) := rfl

/-- C15, the claim as stated fails: in inference mode on `gapExample` the call
`estimate(0, 1)` with the classifier that rejects every pair is rejected, and
the pool `static_feature_[0]`, which `build` left as `F:a`, holds `f:a` after
the call. -/
theorem caches_frame_counterexample :
    (estimate ActionMode.PARSING_MODE rejectSvm gapExample 0 1 0
      (build gapExample emptyParser).2).accept = false ∧
    pool (build gapExample emptyParser).2.static_feature_ 0 = ["F:a"] ∧
    pool (estimate ActionMode.PARSING_MODE rejectSvm gapExample 0 1 0
      (build gapExample emptyParser).2).dp.static_feature_ 0 = ["f:a"] := by
  decide

/-- A call of `estimate` other than the inference-mode call for the last chunk
leaves the assembled state, with some sink. -/
theorem estimate_assembles (mode : ActionMode) (svm : List String → Int) (tree : Tree)
    (src dst : Nat) (score : Int) (p : DependencyParser)
    (h : ¬ (mode = ActionMode.PARSING_MODE ∧ (tree.chunk_size : Int) - 1 = (dst : Int))) :
    ∃ x, (estimate mode svm tree src dst score p).dp =
      { assemble src dst p with stream := x } := by
  cases mode
  · have he : (tree.chunk_size : Int) - 1 ≠ (dst : Int) := fun e => h ⟨rfl, e⟩
    rw [estimate_parsing_inner svm tree src dst score p he]
    exact ⟨(assemble src dst p).stream, rfl⟩
  · rw [estimate_training_eq]
    exact ⟨_, rfl⟩

/-- C15, amended.  Between the end of `build` and the end of `parse`, in either
mode: the gap cache and the gap-source lists are never changed, and the static
pools and the propagated-A/B seed pools keep their entries up to the first
character (the role tag, which `estimate` rewrites in place; a seed entry
shares its storage with the copy that a commit appends to `dyn_a_` or
`dyn_b_`, so it is stated up to the tag as well).  An inference-mode call of
`estimate` for the last chunk changes nothing.  Every other call
`estimate(src, dst)`, accepted or rejected, leaves `static_feature_[dst]` with
the first character of every entry set to `F` and `static_feature_[src]` with
that of every entry set to `f`, `dyn_a_[src]` with the first character of its
first 7 entries set to `a`, `dyn_a_[dst]` with that of its first 7 entries set
to `A`, `dyn_b_[dst]` with that of its first 7 entries set to `B`, and every
other pool of `static_feature_`, `dyn_a_` and `dyn_b_`, the gap cache and the
gap-source lists as they were (the seed pools up to the first character).  The
commit of an accepted pair changes only `dyn_b_[src]`, which gets the seed
pool `dyn_b_feature_[dst]` appended, and `dyn_a_[dst]`, which gets
`dyn_a_feature_[src]` appended. -/
theorem caches_frame (mode : ActionMode) (svm : List String → Int) (tree : Tree)
    (p : DependencyParser) :
    ((parse mode svm tree p).2.gap_ = (build tree p).2.gap_ ∧
     (parse mode svm tree p).2.gap_list_ = (build tree p).2.gap_list_ ∧
     (∀ i, (pool (parse mode svm tree p).2.dyn_a_feature_ i).map untag =
       (pool (build tree p).2.dyn_a_feature_ i).map untag) ∧
     (∀ i, (pool (parse mode svm tree p).2.dyn_b_feature_ i).map untag =
       (pool (build tree p).2.dyn_b_feature_ i).map untag) ∧
     ∀ i, (pool (parse mode svm tree p).2.static_feature_ i).map untag =
       (pool (build tree p).2.static_feature_ i).map untag) ∧
    (∀ (src dst : Nat) (score : Int) (t : Tree) (q : DependencyParser),
      (mode = ActionMode.PARSING_MODE ∧ (t.chunk_size : Int) - 1 = (dst : Int) →
        (estimate mode svm t src dst score q).dp = q) ∧
      (¬ (mode = ActionMode.PARSING_MODE ∧ (t.chunk_size : Int) - 1 = (dst : Int)) →
        (estimate mode svm t src dst score q).dp.gap_ = q.gap_ ∧
        (estimate mode svm t src dst score q).dp.gap_list_ = q.gap_list_ ∧
        (∀ i, (pool (estimate mode svm t src dst score q).dp.dyn_a_feature_ i).map untag =
          (pool q.dyn_a_feature_ i).map untag) ∧
        (∀ i, (pool (estimate mode svm t src dst score q).dp.dyn_b_feature_ i).map untag =
          (pool q.dyn_b_feature_ i).map untag) ∧
        (estimate mode svm t src dst score q).dp.static_feature_.length =
          q.static_feature_.length ∧
        (estimate mode svm t src dst score q).dp.dyn_a_.length = q.dyn_a_.length ∧
        (estimate mode svm t src dst score q).dp.dyn_b_.length = q.dyn_b_.length ∧
        (∀ i, pool (estimate mode svm t src dst score q).dp.static_feature_ i =
          if i = dst then (pool q.static_feature_ dst).map (retag 'F')
          else if i = src then (pool q.static_feature_ src).map (retag 'f')
          else pool q.static_feature_ i) ∧
        (∀ i, pool (estimate mode svm t src dst score q).dp.dyn_a_ i =
          if i = src then
            ((pool q.dyn_a_ src).take 7).map (retag 'a') ++ (pool q.dyn_a_ src).drop 7
          else if i = dst then
            ((pool q.dyn_a_ dst).take 7).map (retag 'A') ++ (pool q.dyn_a_ dst).drop 7
          else pool q.dyn_a_ i) ∧
        (∀ i, pool (estimate mode svm t src dst score q).dp.dyn_b_ i =
          if i = dst then
            ((pool q.dyn_b_ dst).take 7).map (retag 'B') ++ (pool q.dyn_b_ dst).drop 7
          else pool q.dyn_b_ i))) ∧
    (∀ (src dst : Nat) (r : Run),
      (commit src dst r).dp.static_feature_ = r.dp.static_feature_ ∧
      (commit src dst r).dp.gap_ = r.dp.gap_ ∧
      (commit src dst r).dp.gap_list_ = r.dp.gap_list_ ∧
      (commit src dst r).dp.dyn_a_feature_ = r.dp.dyn_a_feature_ ∧
      (commit src dst r).dp.dyn_b_feature_ = r.dp.dyn_b_feature_ ∧
      (∀ i, i ≠ src → pool (commit src dst r).dp.dyn_b_ i = pool r.dp.dyn_b_ i) ∧
      (∀ i, i ≠ dst → pool (commit src dst r).dp.dyn_a_ i = pool r.dp.dyn_a_ i) ∧
      (src < r.dp.dyn_b_.length →
        pool (commit src dst r).dp.dyn_b_ src =
          pool r.dp.dyn_b_ src ++ pool r.dp.dyn_b_feature_ dst) ∧
      (dst < r.dp.dyn_a_.length →
        pool (commit src dst r).dp.dyn_a_ dst =
          pool r.dp.dyn_a_ dst ++ pool r.dp.dyn_a_feature_ src)) := by
  refine ⟨?_, ?_, ?_⟩
  · have h := runUpTo_stable mode svm tree p (tree.chunk_size - 1)
    rw [← parseRun_eq_runUpTo] at h
    obtain ⟨h1, h2, h3, h4, _, _, _, h8⟩ := h
    exact ⟨h1, h2, fun i => congrArg (fun v => (pool v i).map untag) h3,
      fun i => congrArg (fun v => (pool v i).map untag) h4, h8⟩
  · intro src dst score t q
    constructor
    · rintro ⟨hm, he⟩
      subst hm
      rw [estimate_parsing_end svm t src dst score q he]
    · intro hne
      obtain ⟨x, hx⟩ := estimate_assembles mode svm t src dst score q hne
      rw [hx]
      obtain ⟨l1, l2, l3⟩ := assemble_lengths src dst q
      exact ⟨rfl, rfl, fun _ => rfl, fun _ => rfl, l1, l2, l3,
        fun i => assemble_static src dst q i, fun i => assemble_dyn_a src dst q i,
        fun i => assemble_dyn_b src dst q i⟩
  · intro src dst r
    obtain ⟨c1, c2, c3, c4, c5, _, _, c8, c9, c10, c11⟩ := commit_frame src dst r
    exact ⟨c1, c2, c3, c4, c5, c8, c9, c10, c11⟩

/-- C15 amended, at a concrete input: after training-mode `parse` on
`gapExample` the seed pool of chunk 1 still holds the entry `:q` (read without
its tag), the gap cache is as built, and the seed pool has been appended to
`dyn_a_[3]`, chunk 1 having been attached to chunk 3; and the inference-mode
call `estimate(0, 1)` on the state that `build` leaves sets the static pools of
chunks 0 and 1 to `f:a` and `F:b`. -/
theorem caches_frame_witness :
    (pool (parse ActionMode.TRAINING_MODE rejectSvm gapExample emptyParser).2.dyn_a_feature_
      1).map untag = [[':', 'q']] ∧
    (parse ActionMode.TRAINING_MODE rejectSvm gapExample emptyParser).2.gap_ =
      (build gapExample emptyParser).2.gap_ ∧
    pool (parse ActionMode.TRAINING_MODE rejectSvm gapExample emptyParser).2.dyn_a_ 3 =
      ["A:q"] ∧
    pool (estimate ActionMode.PARSING_MODE rejectSvm gapExample 0 1 0
      (build gapExample emptyParser).2).dp.static_feature_ 0 = ["f:a"] ∧
    pool (estimate ActionMode.PARSING_MODE rejectSvm gapExample 0 1 0
      (build gapExample emptyParser).2).dp.static_feature_ 1 = ["F:b"] := by
  have h := (caches_frame ActionMode.TRAINING_MODE rejectSvm gapExample emptyParser).1
  have h2 := ((caches_frame ActionMode.PARSING_MODE rejectSvm gapExample emptyParser).2.1
    0 1 0 gapExample (build gapExample emptyParser).2).2 (by decide)
  exact ⟨by rw [h.2.2.1 1]; decide, h.1, by decide,
    (h2.2.2.2.2.2.2.2.1 0).trans (by decide), (h2.2.2.2.2.2.2.2.1 1).trans (by decide)⟩



/-! ## The propagated-B pools during a run -/

theorem runUpTo_zero (mode : ActionMode) (svm : List String → Int) (tree : Tree)
    (p : DependencyParser) : runUpTo mode svm tree p 0 = initRun tree p := rfl

theorem runUpTo_succ (mode : ActionMode) (svm : List String → Int) (tree : Tree)
    (p : DependencyParser) (d : Nat) :
    runUpTo mode svm tree p (d + 1) = round mode svm (runUpTo mode svm tree p d) (d + 1) := by
  unfold runUpTo
  rw [List.range'_concat, List.foldl_append, List.foldl_cons, List.foldl_nil, Nat.one_mul,
    Nat.add_comm 1 d]

theorem runUpTo_inv (mode : ActionMode) (svm : List String → Int) (tree : Tree)
    (p : DependencyParser) (d : Nat) (hd : d = 0 ∨ d + 1 ≤ tree.chunk_size) :
    RunInv tree d (runUpTo mode svm tree p d) :=
  RunInv_rounds mode svm tree p d hd

theorem RunInv.agenda_le {tree0 : Tree} {d : Nat} {r : Run} (h : RunInv tree0 d r) :
    ∀ x ∈ r.agenda, x ≤ d := by
  obtain ⟨tl, htl⟩ := h.top
  have hs := h.sorted
  rw [htl] at hs
  intro x hx
  rw [htl] at hx
  rcases List.mem_cons.mp hx with hx | hx
  · omega
  · exact Nat.le_of_lt ((List.pairwise_cons.mp hs).1 x hx)

theorem zip_snoc {α β : Type} (l : List α) (m : List β) (a : α) (b : β)
    (h : l.length = m.length) : List.zip (l ++ [a]) (m ++ [b]) = List.zip l m ++ [(a, b)] := by
  rw [List.zip_append h]
  rfl

theorem DynBInv_round (mode : ActionMode) (svm : List String → Int)
    (G : List (List String)) (d : Nat) (r : Run) (h : DynBInv G d r)
    (hS : ∀ x ∈ r.agenda, x < d + 1) : DynBInv G (d + 1) (round mode svm r (d + 1)) := by
  have h0 : DynBInv G (d + 1) r :=
    ⟨h.1, fun x hx => h.2.1 x (by omega), h.2.2.1, h.2.2.2⟩
  have hest : ∀ (src : Nat) (r : Run), DynBInv G (d + 1) r →
      DynBInv G (d + 1) (callEstimate mode svm src (d + 1) r).2 := by
    intro src r ⟨h1, h2, h3, h4⟩
    obtain ⟨e1, _, _, _, _, _, _, _, _, e10, _⟩ :=
      estimate_frame mode svm r.tree src (d + 1) r.score r.dp
    refine ⟨?_, ?_, ?_, e1.trans h4⟩
    · simp [callEstimate, h1]
    · intro x hx
      have := e10 x
      rw [h2 x hx, List.map_nil, List.map_eq_nil_iff] at this
      exact this
    · intro es hes
      have hz : List.zip (callEstimate mode svm src (d + 1) r).2.log
          (callEstimate mode svm src (d + 1) r).2.before =
          List.zip r.log r.before ++
            [({ src := src, dst := d + 1,
                accept := (callEstimate mode svm src (d + 1) r).1,
                agenda := r.agenda }, r.dp)] := zip_snoc _ _ _ _ h1
      rw [hz] at hes
      rcases List.mem_append.mp hes with hes | hes
      · exact h3 es hes
      · rw [List.mem_singleton] at hes
        subst hes
        exact ⟨h2 (d + 1) (Nat.le_refl _), h4⟩
  exact round_preserves mode svm (d + 1) (DynBInv G (d + 1)) (fun x => x < d + 1)
    (fun _ _ h => h)
    (fun src r _ h _ => hest src r h)
    (fun src r hs h _ => by
      obtain ⟨h1, h2, h3, h4⟩ := hest src r h
      refine ⟨h1, ?_, h3, h4⟩
      intro x hx
      have := (commit_frame src (d + 1) (callEstimate mode svm src (d + 1) r).2).2.2.2.2.2.2.2.1
        x (by omega)
      rw [this]
      exact h2 x hx)
    r hS h0

theorem runUpTo_dynB (mode : ActionMode) (svm : List String → Int) (tree : Tree)
    (p : DependencyParser) (d : Nat) (hd : d = 0 ∨ d + 1 ≤ tree.chunk_size) :
    DynBInv (build tree p).2.gap_ d (runUpTo mode svm tree p d) := by
  induction d with
  | zero =>
    refine ⟨rfl, ?_, ?_, rfl⟩
    · intro x _
      show pool (build tree p).2.dyn_b_ x = []
      rw [(build_spec tree p).2.2.2.2.2.2.1, pool_replicate]
    · intro es hes
      simp [runUpTo_zero, initRun] at hes
  | succ d ih =>
    rw [runUpTo_succ]
    have hinv := runUpTo_inv mode svm tree p d (by omega)
    exact DynBInv_round mode svm _ d _ (ih (by omega))
      (fun x hx => Nat.lt_succ_of_le (hinv.agenda_le x hx))






theorem hasTag_B_of_mem_map_retag (c : Char) (hc : c ≠ 'B') (xs : List String) (f : String)
    (h : f ∈ xs.map (retag c)) : hasTag 'B' f = false := by
  obtain ⟨x, _, rfl⟩ := List.mem_map.mp h
  exact hasTag_excl c 'B' _ hc (hasTag_retag c x)

/-- With an empty `dyn_b_[dst]` and the gap cache of `build`, the assembled
set has no feature tagged `B` and at most `1 + |static[src]| + |static[dst]| + 21`
features. -/
theorem assemble_no_B (tree : Tree) (p0 s : DependencyParser) (src dst : Nat)
    (hgap : s.gap_ = (build tree p0).2.gap_) (hb : pool s.dyn_b_ dst = []) :
    (∀ f ∈ (assemble src dst s).fpset_, hasTag 'B' f = false) ∧
    (assemble src dst s).fpset_.length ≤
      1 + (pool s.static_feature_ src).length + (pool s.static_feature_ dst).length + 21 := by
  constructor
  · intro f hf
    rw [mem_assemble, mem_candidates] at hf
    rcases hf with h | h | h | h | h | h | h
    · rw [h]
      exact hasTag_excl 'D' 'B' _ (by decide) (hasTag_D_of_bucket _ (distFeature_mem_bucket _))
    · exact hasTag_B_of_mem_map_retag 'f' (by decide) _ f h
    · exact hasTag_B_of_mem_map_retag 'F' (by decide) _ f h
    · rw [hgap] at h
      exact hasTag_excl 'G' 'B' f (by decide)
        (build_gap_tag tree p0 _ f (List.mem_of_mem_take h))
    · exact hasTag_B_of_mem_map_retag 'A' (by decide) _ f h
    · exact hasTag_B_of_mem_map_retag 'a' (by decide) _ f h
    · rw [hb] at h
      simp at h
  · have h := length_assemble_le src dst s
    rw [hb] at h
    simp only [List.length_nil, Nat.zero_min] at h
    omega

/-- C19. Propagated-B features never reach the scorer.  For every sentence,
classifier and mode, every call `estimate(src, dst)` that `parse` issues is
entered with an empty pool `dyn_b_[dst]`; hence the feature set assembled from
the state the call is entered with has no feature tagged `B`, and it has at
most `1 + |static[src]| + |static[dst]| + 21` elements.  (The log and the
record of the states the calls were entered with run in parallel.) -/
theorem dyn_b_never_scored (mode : ActionMode) (svm : List String → Int) (tree : Tree)
    (p : DependencyParser) :
    (parseRun mode svm tree p).log.length = (parseRun mode svm tree p).before.length ∧
    ∀ es ∈ List.zip (parseRun mode svm tree p).log (parseRun mode svm tree p).before,
      pool es.2.dyn_b_ es.1.dst = [] ∧
      (∀ f ∈ (assemble es.1.src es.1.dst es.2).fpset_, hasTag 'B' f = false) ∧
      (assemble es.1.src es.1.dst es.2).fpset_.length ≤
        1 + (pool es.2.static_feature_ es.1.src).length +
          (pool es.2.static_feature_ es.1.dst).length + 21 := by
  have h := runUpTo_dynB mode svm tree p (tree.chunk_size - 1) (by omega)
  rw [← parseRun_eq_runUpTo] at h
  refine ⟨h.1, ?_⟩
  intro es hes
  obtain ⟨h1, h2⟩ := h.2.2.1 es hes
  exact ⟨h1, assemble_no_B tree p es.2 es.1.src es.1.dst h2 h1⟩

/-- C19 at a concrete input: on `gapExample`, whose chunk 1 has the seed `B:r`,
inference with `distanceOneSvm` makes three calls; each was entered with an
empty `dyn_b_` pool at its destination, although `dyn_b_[0]` ends up holding
`B:r`. -/
theorem dyn_b_never_scored_witness :
    (parseRun ActionMode.PARSING_MODE distanceOneSvm gapExample emptyParser).log.length =
      (parseRun ActionMode.PARSING_MODE distanceOneSvm gapExample emptyParser).before.length ∧
    (List.zip (parseRun ActionMode.PARSING_MODE distanceOneSvm gapExample emptyParser).log
      (parseRun ActionMode.PARSING_MODE distanceOneSvm gapExample emptyParser).before).map
      (fun es => pool es.2.dyn_b_ es.1.dst) = [[], [], []] ∧
    pool (parseRun ActionMode.PARSING_MODE distanceOneSvm gapExample emptyParser).dp.dyn_b_ 0 =
      ["B:r"] :=
  ⟨(dyn_b_never_scored ActionMode.PARSING_MODE distanceOneSvm gapExample emptyParser).1,
    by decide, by decide⟩





/-! ## The order of the calls and the shape of the arcs -/

theorem callsOf_src (dst : Nat) (acc rest : List Nat) :
    (callsOf dst acc rest).map (fun e => e.src) = acc ++ rest.take 1 := by
  induction acc with
  | nil => cases rest <;> simp [callsOf]
  | cons a acc ih => simp [callsOf, ih]

theorem callsOf_reject (dst : Nat) (acc rest : List Nat) (C1 C2 : List Call) (e : Call)
    (h : callsOf dst acc rest = C1 ++ e :: C2) (he : e.accept = false) :
    C2 = [] ∧ rest = e.src :: e.agenda ∧ attached C1 = acc := by
  induction acc generalizing C1 with
  | nil =>
    cases rest with
    | nil => simp [callsOf] at h
    | cons s rest =>
      simp only [callsOf] at h
      cases C1 with
      | nil =>
        simp only [List.nil_append, List.cons.injEq] at h
        obtain ⟨h1, h2⟩ := h
        subst h1
        exact ⟨h2.symm, rfl, rfl⟩
      | cons c C1 =>
        simp only [List.cons_append, List.cons.injEq] at h
        obtain ⟨_, h2⟩ := h
        cases C1 <;> simp at h2
  | cons a acc ih =>
    simp only [callsOf] at h
    cases C1 with
    | nil =>
      simp only [List.nil_append, List.cons.injEq] at h
      obtain ⟨h1, _⟩ := h
      subst h1
      simp at he
    | cons c C1 =>
      simp only [List.cons_append, List.cons.injEq] at h
      obtain ⟨h1, h2⟩ := h
      subst h1
      obtain ⟨k1, k2, k3⟩ := ih C1 h2
      refine ⟨k1, k2, ?_⟩
      simp [attached, ← k3]

theorem callsOf_reject_mem (dst : Nat) (acc rest : List Nat) (e : Call)
    (h : e ∈ callsOf dst acc rest) (he : e.accept = false) : e.src ∈ rest := by
  obtain ⟨C1, C2, hs⟩ := List.append_of_mem h
  rw [(callsOf_reject dst acc rest C1 C2 e hs he).2.1]
  exact List.mem_cons_self _ _

theorem callsOf_all_accept (dst : Nat) (acc rest : List Nat)
    (h : ∀ e ∈ callsOf dst acc rest, e.accept = true) : rest = [] := by
  induction acc with
  | nil =>
    cases rest with
    | nil => rfl
    | cons s rest =>
      have := h { src := s, dst := dst, accept := false, agenda := rest }
        (by simp [callsOf])
      simp at this
  | cons a acc ih =>
    apply ih
    intro e he
    exact h e (by simp only [callsOf, List.mem_cons]; exact Or.inr he)

theorem ArcInv_init (tree : Tree) (p : DependencyParser) : ArcInv (initRun tree p) where
  inside := by simp [initRun]
  nocross := by simp [initRun]
  later := by simp [initRun]

theorem ArcInv_round (mode : ActionMode) (svm : List String → Int) (tree0 : Tree) (d : Nat)
    (r : Run) (hinv : RunInv tree0 d r) (ha : ArcInv r) :
    ArcInv (round mode svm r (d + 1)) := by
  obtain ⟨acc, rest, h1, h2, h3, _, _, _, _⟩ := round_spec mode svm r (d + 1)
  have hle := hinv.agenda_le
  have hs := hinv.sorted
  rw [h1] at hs
  have hacc : ∀ x ∈ acc, x ∈ r.agenda := fun x hx => by
    rw [h1]; exact List.mem_append_left _ hx
  have hrest : ∀ x ∈ rest, x ∈ r.agenda := fun x hx => by
    rw [h1]; exact List.mem_append_right _ hx
  have hnew : ∀ e ∈ callsOf (d + 1) acc rest,
      e.dst = d + 1 ∧ e.src ∈ r.agenda ∧ (e.accept = true → e.src ∈ acc) := by
    intro e he
    obtain ⟨e1, e2, e3⟩ := mem_callsOf _ _ _ _ he
    exact ⟨e1, by rw [h1]; exact e2, e3⟩
  refine { inside := ?_, nocross := ?_, later := ?_ }
  · intro e he hea x hx
    rw [h3] at he
    rw [h2] at hx
    rcases List.mem_append.mp he with he | he
    · rcases List.mem_cons.mp hx with hx | hx
      · have := (hinv.calls e he).2
        omega
      · exact ha.inside e he hea x (hrest x hx)
    · obtain ⟨e1, _, e3⟩ := hnew e he
      rcases List.mem_cons.mp hx with hx | hx
      · omega
      · have := (List.pairwise_append.mp hs).2.2 _ (e3 hea) _ hx
        omega
  · intro e1 he1 e2 he2 a1 a2 hlt hlt2
    rw [h3] at he1 he2
    rcases List.mem_append.mp he1 with he1 | he1 <;>
      rcases List.mem_append.mp he2 with he2 | he2
    · exact ha.nocross e1 he1 e2 he2 a1 a2 hlt hlt2
    · obtain ⟨_, k2, _⟩ := hnew e2 he2
      exact absurd ⟨hlt, hlt2⟩ (ha.inside e1 he1 a1 _ k2)
    · obtain ⟨k1, _, _⟩ := hnew e1 he1
      have := (hinv.calls e2 he2).2
      omega
    · obtain ⟨k1, _, _⟩ := hnew e1 he1
      obtain ⟨k2, _, _⟩ := hnew e2 he2
      omega
  · intro e he e2 he2 hr ha2 hsrc
    rw [h3] at he he2
    rcases List.mem_append.mp he with he | he <;>
      rcases List.mem_append.mp he2 with he2 | he2
    · exact ha.later e he e2 he2 hr ha2 hsrc
    · obtain ⟨k2, _, _⟩ := hnew e2 he2
      have := (hinv.calls e he).2
      omega
    · obtain ⟨_, k1, _⟩ := hnew e he
      have hm : e.src ∈ attached r.log := (mem_attached _ _).mpr ⟨e2, he2, ha2, hsrc⟩
      exact absurd hm (hinv.disjoint _ k1)
    · have k1 := callsOf_reject_mem _ _ _ e he hr
      obtain ⟨_, _, k3⟩ := hnew e2 he2
      have := (List.pairwise_append.mp hs).2.2 _ (k3 ha2) _ k1
      omega

theorem runUpTo_arc (mode : ActionMode) (svm : List String → Int) (tree : Tree)
    (p : DependencyParser) (d : Nat) (hd : d = 0 ∨ d + 1 ≤ tree.chunk_size) :
    ArcInv (runUpTo mode svm tree p d) := by
  induction d with
  | zero => exact ArcInv_init tree p
  | succ d ih =>
    rw [runUpTo_succ]
    exact ArcInv_round mode svm tree d _ (runUpTo_inv mode svm tree p d (by omega))
      (ih (by omega))

theorem parseRun_arc (mode : ActionMode) (svm : List String → Int) (tree : Tree)
    (p : DependencyParser) : ArcInv (parseRun mode svm tree p) :=
  runUpTo_arc mode svm tree p (tree.chunk_size - 1) (by omega)






/-- C14. Nearest-first candidate order.  For every sentence, classifier and
mode, and every round `dst = d + 1` of `parse` (`1 <= dst <= N-1`): the stack
at the start of the round splits into the entries the round accepts, `acc`,
and the rest; the calls of `estimate` the round makes all have destination
`dst`; the first has source `dst - 1`; their sources are strictly decreasing;
a rejected call is the last call of the round, and its source together with
the stack below it is the rest, which stays, in unchanged order, directly
below `dst` on the stack the next round starts with. -/
theorem nearest_first (mode : ActionMode) (svm : List String → Int) (tree : Tree)
    (p : DependencyParser) (d : Nat) (hd : d + 1 < tree.chunk_size) :
    ∃ (acc rest : List Nat) (calls : List Call),
      (runUpTo mode svm tree p d).agenda = acc ++ rest ∧
      (runUpTo mode svm tree p (d + 1)).log = (runUpTo mode svm tree p d).log ++ calls ∧
      (runUpTo mode svm tree p (d + 1)).agenda = (d + 1) :: rest ∧
      (∀ e ∈ calls, e.dst = d + 1) ∧
      (calls.head?.map (fun e => e.src) = some d) ∧
      (calls.map (fun e => e.src)).Pairwise (fun a b => b < a) ∧
      (∀ C1 e C2, calls = C1 ++ e :: C2 → e.accept = false →
        C2 = [] ∧ rest = e.src :: e.agenda) ∧
      ((∀ e ∈ calls, e.accept = true) → rest = []) ∧
      (calls.filter (fun e => e.accept)).map (fun e => e.src) = acc := by
  have hinv := runUpTo_inv mode svm tree p d (by omega)
  obtain ⟨acc, rest, h1, h2, h3, _, _, _, _⟩ :=
    round_spec mode svm (runUpTo mode svm tree p d) (d + 1)
  rw [← runUpTo_succ] at h2 h3
  refine ⟨acc, rest, callsOf (d + 1) acc rest, h1, h3, h2, ?_, ?_, ?_, ?_, ?_, ?_⟩
  · intro e he
    exact (mem_callsOf _ _ _ _ he).1
  · obtain ⟨tl, htl⟩ := hinv.top
    rw [htl] at h1
    have hsrc := callsOf_src (d + 1) acc rest
    cases hc : callsOf (d + 1) acc rest with
    | nil =>
      rw [hc] at hsrc
      simp only [List.map_nil] at hsrc
      have e1 : acc = [] := (List.append_eq_nil.mp hsrc.symm).1
      have e2 : rest.take 1 = [] := (List.append_eq_nil.mp hsrc.symm).2
      rw [e1] at h1
      simp only [List.nil_append] at h1
      rw [← h1] at e2
      simp at e2
    | cons c cs =>
      rw [hc] at hsrc
      simp only [List.map_cons] at hsrc
      simp only [List.head?_cons, Option.map_some', Option.some.injEq]
      cases acc with
      | nil =>
        simp only [List.nil_append] at h1 hsrc
        rw [← h1] at hsrc
        simp only [List.take_succ_cons, List.take_zero, List.cons.injEq] at hsrc
        exact hsrc.1
      | cons a acc =>
        simp only [List.cons_append, List.cons.injEq] at h1 hsrc
        rw [hsrc.1, ← h1.1]
  · rw [callsOf_src]
    have hs := hinv.sorted
    rw [h1] at hs
    have hsub : List.Sublist (acc ++ rest.take 1) (acc ++ rest) :=
      List.Sublist.append (List.Sublist.refl _) (List.take_sublist _ _)
    exact hs.sublist hsub
  · intro C1 e C2 hsplit he
    obtain ⟨k1, k2, _⟩ := callsOf_reject _ _ _ _ _ _ hsplit he
    exact ⟨k1, k2⟩
  · exact callsOf_all_accept _ _ _
  · exact attached_callsOf _ _ _

/-- C14 at a concrete input: the last round (`dst = 3`) of inference on
`gapExample` with the classifier that rejects every pair starts with the stack
2, 1, 0 and evaluates the sources 2, 1, 0 in this order. -/
theorem nearest_first_witness :
    2 + 1 < gapExample.chunk_size ∧
    (runUpTo ActionMode.PARSING_MODE rejectSvm gapExample emptyParser 2).agenda = [2, 1, 0] ∧
    ((runUpTo ActionMode.PARSING_MODE rejectSvm gapExample emptyParser 3).log.drop 2).map
      (fun e => e.src) = [2, 1, 0] ∧
    ∃ (acc rest : List Nat) (calls : List Call),
      (runUpTo ActionMode.PARSING_MODE rejectSvm gapExample emptyParser 2).agenda =
        acc ++ rest ∧
      (runUpTo ActionMode.PARSING_MODE rejectSvm gapExample emptyParser 3).log =
        (runUpTo ActionMode.PARSING_MODE rejectSvm gapExample emptyParser 2).log ++ calls ∧
      (calls.head?.map (fun e => e.src) = some 2) := by
  obtain ⟨acc, rest, calls, h1, h2, _, _, h5, _⟩ :=
    nearest_first ActionMode.PARSING_MODE rejectSvm gapExample emptyParser 2 (by decide)
  exact ⟨by decide, by decide, by decide, acc, rest, calls, h1, h2, h5⟩

/-- C18. Projectivity.  For every sentence, classifier and mode the heads that
`parse` assigns never cross: for chunks `i < j` with `i` not the last chunk and
`j` strictly left of the head of `i`, the head of `j` is at most the head of
`i`, so there are no `i < j` with `j < head(i) < head(j)`.  This rests on the
stack, which after every round `d` is strictly increasing from bottom to top
and holds exactly the chunks up to `d` that have no head yet. -/
theorem parse_projective (mode : ActionMode) (svm : List String → Int) (tree : Tree)
    (p : DependencyParser) :
    (∀ i j : Nat, i < j → i + 1 < tree.chunk_size →
      (j : Int) < (parse mode svm tree p).1.link i →
      (parse mode svm tree p).1.link j ≤ (parse mode svm tree p).1.link i) ∧
    (∀ i j : Nat, i < j → i + 1 < tree.chunk_size →
      ¬ ((j : Int) < (parse mode svm tree p).1.link i ∧
          (parse mode svm tree p).1.link i < (parse mode svm tree p).1.link j)) ∧
    (∀ d : Nat, d + 1 ≤ tree.chunk_size →
      (runUpTo mode svm tree p d).agenda.Pairwise (fun a b => b < a) ∧
      (∀ x ∈ (runUpTo mode svm tree p d).agenda, x ≤ d) ∧
      (∀ i, i ≤ d →
        (i ∈ (runUpTo mode svm tree p d).agenda ↔
          i ∉ attached (runUpTo mode svm tree p d).log))) := by
  have main : ∀ i j : Nat, i < j → i + 1 < tree.chunk_size →
      (j : Int) < (parse mode svm tree p).1.link i →
      (parse mode svm tree p).1.link j ≤ (parse mode svm tree p).1.link i := by
    intro i j hij hi hj
    have inv := parseRun_inv mode svm tree p
    have arc := parseRun_arc mode svm tree p
    obtain ⟨h, h1, h2, h3, h4, _⟩ := parseRun_head mode svm tree p i hi
    simp only [parse_link] at hj ⊢
    rw [h3] at hj ⊢
    have hj2 : j + 1 < tree.chunk_size := by omega
    obtain ⟨h', k1, k2, k3, k4, _⟩ := parseRun_head mode svm tree p j hj2
    rw [k3]
    have mi : i ∈ attached (parseRun mode svm tree p).log :=
      List.count_pos_iff.mp (by omega)
    have mj : j ∈ attached (parseRun mode svm tree p).log :=
      List.count_pos_iff.mp (by omega)
    obtain ⟨ei, hei, ai, si⟩ := (mem_attached _ _).mp mi
    obtain ⟨ej, hej, aj, sj⟩ := (mem_attached _ _).mp mj
    have li := inv.links ei hei ai
    have lj := inv.links ej hej aj
    rw [si, h3] at li
    rw [sj, k3] at lj
    have := arc.nocross ei hei ej hej ai aj (by omega) (by omega)
    omega
  refine ⟨main, ?_, ?_⟩
  · intro i j hij hi ⟨h1, h2⟩
    have := main i j hij hi h1
    omega
  · intro d hd
    have inv := runUpTo_inv mode svm tree p d (Or.inr hd)
    refine ⟨inv.sorted, inv.agenda_le, ?_⟩
    intro i hi
    constructor
    · exact inv.disjoint i
    · intro hn
      rcases inv.cover i hi with h | h
      · exact h
      · exact absurd h hn

/-- C18 at a concrete input: inference on `gapExample` with a classifier that
rejects every pair attaches every chunk to chunk 3; chunk 1 lies inside the arc
of chunk 0 and its head does not pass the head of chunk 0. -/
theorem parse_projective_witness :
    (parse ActionMode.PARSING_MODE rejectSvm gapExample emptyParser).1.link 1 ≤
      (parse ActionMode.PARSING_MODE rejectSvm gapExample emptyParser).1.link 0 :=
  (parse_projective ActionMode.PARSING_MODE rejectSvm gapExample emptyParser).1 0 1
    (by decide) (by decide) (by decide)





/-! ## The chain scenario -/

theorem round_single (mode : ActionMode) (svm : List String → Int) (r : Run) (s dst : Nat)
    (hag : r.agenda = [s])
    (hacc : (callEstimate mode svm s dst { r with agenda := [] }).1 = true) :
    (round mode svm r dst).agenda = [dst] ∧
    (round mode svm r dst).log =
      r.log ++ [{ src := s, dst := dst, accept := true, agenda := [] }] := by
  constructor
  · simp [round, hag, MYPOP, whileLoop, hacc, commit, callEstimate_agenda]
  · simp [round, hag, MYPOP, whileLoop, hacc, commit, callEstimate_log]

theorem estimate_accept_dist_one (svm : List String → Int)
    (hsvm : ∀ fs, 0 < svm fs ↔ "DIST:1" ∈ fs) (tree : Tree) (d : Nat) (score : Int)
    (p : DependencyParser) :
    (estimate ActionMode.PARSING_MODE svm tree d (d + 1) score p).accept = true := by
  by_cases he : (tree.chunk_size : Int) - 1 = ((d + 1 : Nat) : Int)
  · rw [estimate_parsing_end svm tree d (d + 1) score p he]
  · rw [estimate_parsing_inner svm tree d (d + 1) score p he]
    simp only [gt_iff_lt, decide_eq_true_eq]
    rw [hsvm, mem_assemble, mem_candidates]
    left
    have : ((d + 1 : Nat) : Int) - (d : Int) = 1 := by omega
    rw [this, distFeature_one]

theorem runUpTo_chain (svm : List String → Int) (hsvm : ∀ fs, 0 < svm fs ↔ "DIST:1" ∈ fs)
    (tree : Tree) (p : DependencyParser) (d : Nat) :
    (runUpTo ActionMode.PARSING_MODE svm tree p d).agenda = [d] ∧
    ∀ i, i < d →
      ({ src := i, dst := i + 1, accept := true, agenda := [] } : Call) ∈
        (runUpTo ActionMode.PARSING_MODE svm tree p d).log := by
  induction d with
  | zero => exact ⟨rfl, fun i hi => by omega⟩
  | succ d ih =>
    rw [runUpTo_succ]
    obtain ⟨h1, h2⟩ := round_single ActionMode.PARSING_MODE svm
      (runUpTo ActionMode.PARSING_MODE svm tree p d) d (d + 1) ih.1
      (estimate_accept_dist_one svm hsvm _ d _ _)
    refine ⟨h1, ?_⟩
    intro i hi
    rw [h2]
    by_cases hid : i = d
    · subst hid
      exact List.mem_append_right _ (List.mem_singleton_self _)
    · exact List.mem_append_left _ (ih.2 i (by omega))

/-- C12. End-to-end chain scenario.  For every `N >= 1` and every classifier
whose score is strictly positive exactly on the feature sets that contain the
distance-1 feature `DIST:1`, inference-mode `parse` sets `head(i) = i + 1` for
every `i < N-1`, and leaves the head link of chunk `N-1` as it was. -/
theorem parse_chain (svm : List String → Int) (hsvm : ∀ fs, 0 < svm fs ↔ "DIST:1" ∈ fs)
    (tree : Tree) (p : DependencyParser) (hN : 1 ≤ tree.chunk_size) :
    (∀ i, i + 1 < tree.chunk_size →
      (parse ActionMode.PARSING_MODE svm tree p).1.link i = ((i + 1 : Nat) : Int)) ∧
    (parse ActionMode.PARSING_MODE svm tree p).1.link (tree.chunk_size - 1) =
      tree.link (tree.chunk_size - 1) ∧
    (tree.chunk_size - 1) ∉ attached (parseRun ActionMode.PARSING_MODE svm tree p).log := by
  have inv := parseRun_inv ActionMode.PARSING_MODE svm tree p
  have hag := parseRun_agenda ActionMode.PARSING_MODE svm tree p hN
  have hroot : (tree.chunk_size - 1) ∉
      attached (parseRun ActionMode.PARSING_MODE svm tree p).log :=
    inv.disjoint _ (by rw [hag]; exact List.mem_singleton_self _)
  refine ⟨?_, ?_, hroot⟩
  · intro i hi
    have hc := (runUpTo_chain svm hsvm tree p (tree.chunk_size - 1)).2 i (by omega)
    rw [← parseRun_eq_runUpTo] at hc
    rw [parse_link]
    exact inv.links _ hc rfl
  · rw [parse_link]
    exact inv.frame _ hroot

/-- C12 at the concrete input of the claim: three chunks, chunks 0 and 1 with
one static feature each, and the classifier `distanceOneSvm`; chunk 0 gets the
head 1, chunk 1 the head 2 with the score 0 of the automatic attachment to the
last chunk, and chunk 2 keeps the head link `-1`. -/
theorem parse_chain_witness :
    (parse ActionMode.PARSING_MODE distanceOneSvm chainExample emptyParser).1.link 0 = 1 ∧
    (parse ActionMode.PARSING_MODE distanceOneSvm chainExample emptyParser).1.link 1 = 2 ∧
    (parse ActionMode.PARSING_MODE distanceOneSvm chainExample emptyParser).1.score 1 = 0 ∧
    (parse ActionMode.PARSING_MODE distanceOneSvm chainExample emptyParser).1.score 0 = 1 ∧
    (parse ActionMode.PARSING_MODE distanceOneSvm chainExample emptyParser).1.link 2 = -1 := by
  have hsvm : ∀ fs, 0 < distanceOneSvm fs ↔ "DIST:1" ∈ fs := by
    intro fs
    unfold distanceOneSvm
    split_ifs with h <;> simp [h]
  have h := parse_chain distanceOneSvm hsvm chainExample emptyParser (by decide)
  exact ⟨h.1 0 (by decide), h.1 1 (by decide), by decide, by decide, h.2.1.trans (by decide)⟩





/-! ## Training-mode runs -/

/-- The decisions of a finished run are read off its heads: a call was accepted
exactly when its destination is the final head of its source. -/
theorem parseRun_consistent (mode : ActionMode) (svm : List String → Int) (tree : Tree)
    (p : DependencyParser) :
    ∀ e ∈ (parseRun mode svm tree p).log,
      (e.accept = true ↔ (parseRun mode svm tree p).tree.link e.src = (e.dst : Int)) := by
  intro e he
  have inv := parseRun_inv mode svm tree p
  have arc := parseRun_arc mode svm tree p
  constructor
  · exact inv.links e he
  · intro hl
    cases ha : e.accept with
    | true => rfl
    | false =>
      exfalso
      have hc := inv.calls e he
      obtain ⟨h, _, _, h3, h4, _⟩ := parseRun_head mode svm tree p e.src (by omega)
      have mi : e.src ∈ attached (parseRun mode svm tree p).log :=
        List.count_pos_iff.mp (by omega)
      obtain ⟨e2, he2, a2, s2⟩ := (mem_attached _ _).mp mi
      have l2 := inv.links e2 he2 a2
      rw [s2, hl] at l2
      have := arc.later e he e2 he2 ha a2 s2
      omega

/-- In training mode, in a round that is not the round of the last chunk, the
head links stay as they are, and each call is accepted exactly when the head
link of its source is its destination. -/
theorem round_training (svm : List String → Int) (g : Nat → Int) (N : Nat) (r : Run)
    (dst : Nat) (hdst : (N : Int) - 1 ≠ (dst : Int))
    (hsz : r.tree.chunk_size = N) (hl : ∀ i, r.tree.link i = g i)
    (hdec : ∀ e ∈ r.log, (e.accept = true ↔ g e.src = (e.dst : Int))) :
    (round ActionMode.TRAINING_MODE svm r dst).tree.chunk_size = N ∧
    (∀ i, (round ActionMode.TRAINING_MODE svm r dst).tree.link i = g i) ∧
    (∀ e ∈ (round ActionMode.TRAINING_MODE svm r dst).log,
      (e.accept = true ↔ g e.src = (e.dst : Int))) := by
  have hcall : ∀ (src : Nat) (r : Run), r.tree.chunk_size = N → (∀ i, r.tree.link i = g i) →
      ((callEstimate ActionMode.TRAINING_MODE svm src dst r).1 = true ↔
        g src = (dst : Int)) := by
    intro src r h1 h2
    show (estimate ActionMode.TRAINING_MODE svm r.tree src dst r.score r.dp).accept = true ↔ _
    rw [estimate_training_eq, h1, h2]
    simp [hdst]
  have hest : ∀ (src : Nat) (r : Run),
      (r.tree.chunk_size = N ∧ (∀ i, r.tree.link i = g i) ∧
        (∀ e ∈ r.log, (e.accept = true ↔ g e.src = (e.dst : Int)))) →
      ((callEstimate ActionMode.TRAINING_MODE svm src dst r).2.tree.chunk_size = N ∧
        (∀ i, (callEstimate ActionMode.TRAINING_MODE svm src dst r).2.tree.link i = g i) ∧
        (∀ e ∈ (callEstimate ActionMode.TRAINING_MODE svm src dst r).2.log,
          (e.accept = true ↔ g e.src = (e.dst : Int)))) := by
    intro src r ⟨h1, h2, h3⟩
    refine ⟨h1, h2, ?_⟩
    intro e he
    rw [callEstimate_log] at he
    rcases List.mem_append.mp he with he | he
    · exact h3 e he
    · rw [List.mem_singleton] at he
      subst he
      exact hcall src r h1 h2
  exact round_preserves ActionMode.TRAINING_MODE svm dst
    (fun r => r.tree.chunk_size = N ∧ (∀ i, r.tree.link i = g i) ∧
      (∀ e ∈ r.log, (e.accept = true ↔ g e.src = (e.dst : Int))))
    (fun _ => True)
    (fun _ _ h => h)
    (fun src r _ h _ => hest src r h)
    (fun src r _ h hacc => by
      obtain ⟨k1, k2, k3⟩ := hest src r h
      have hg := (hcall src r h.1 h.2.1).mp hacc
      refine ⟨?_, ?_, k3⟩
      · show (Tree.attach _ _ _ _).chunk_size = N
        rw [chunk_size_attach]
        exact k1
      · intro i
        show (Tree.attach _ _ _ _).link i = g i
        rw [link_attach]
        by_cases hi : i = src ∧ i < (callEstimate ActionMode.TRAINING_MODE svm src dst
            r).2.tree.chunk_size
        · rw [if_pos hi, hi.1, hg]
        · rw [if_neg hi]
          exact k2 i)
    r (fun _ _ => trivial) ⟨hsz, hl, hdec⟩

/-- In training mode, up to the round before the round of the last chunk, the
head links are the gold links the sentence came with, and the calls were
decided by them. -/
theorem runUpTo_training (svm : List String → Int) (tree : Tree) (p : DependencyParser)
    (d : Nat) (hd : d + 2 ≤ tree.chunk_size ∨ d = 0) :
    (runUpTo ActionMode.TRAINING_MODE svm tree p d).tree.chunk_size = tree.chunk_size ∧
    (∀ i, (runUpTo ActionMode.TRAINING_MODE svm tree p d).tree.link i = tree.link i) ∧
    (∀ e ∈ (runUpTo ActionMode.TRAINING_MODE svm tree p d).log,
      (e.accept = true ↔ tree.link e.src = (e.dst : Int))) := by
  induction d with
  | zero => exact ⟨rfl, fun _ => rfl, fun e he => by simp [runUpTo_zero, initRun] at he⟩
  | succ d ih =>
    rw [runUpTo_succ]
    obtain ⟨h1, h2, h3⟩ := ih (by omega)
    exact round_training svm (fun i => tree.link i) tree.chunk_size _ (d + 1)
      (by omega) h1 h2 h3

/-- The log only grows from round to round. -/
theorem runUpTo_log_mono (mode : ActionMode) (svm : List String → Int) (tree : Tree)
    (p : DependencyParser) (d k : Nat) :
    ∀ e ∈ (runUpTo mode svm tree p d).log, e ∈ (runUpTo mode svm tree p (d + k)).log := by
  induction k with
  | zero => exact fun e he => he
  | succ k ih =>
    intro e he
    rw [← Nat.add_assoc, runUpTo_succ]
    obtain ⟨acc, rest, _, _, h3, _⟩ := round_spec mode svm (runUpTo mode svm tree p (d + k))
      (d + k + 1)
    rw [h3]
    exact List.mem_append_left _ (ih e he)

/-- In training mode every call appends its record to the sink. -/
theorem round_sink (svm : List String → Int) (s0 : String) (r : Run) (dst : Nat)
    (hlen : r.log.length = r.before.length)
    (hs : r.dp.stream = sinkAfter s0 r.log r.before) :
    (round ActionMode.TRAINING_MODE svm r dst).log.length =
      (round ActionMode.TRAINING_MODE svm r dst).before.length ∧
    (round ActionMode.TRAINING_MODE svm r dst).dp.stream =
      sinkAfter s0 (round ActionMode.TRAINING_MODE svm r dst).log
        (round ActionMode.TRAINING_MODE svm r dst).before := by
  have hest : ∀ (src : Nat) (r : Run),
      (r.log.length = r.before.length ∧ r.dp.stream = sinkAfter s0 r.log r.before) →
      ((callEstimate ActionMode.TRAINING_MODE svm src dst r).2.log.length =
          (callEstimate ActionMode.TRAINING_MODE svm src dst r).2.before.length ∧
        (callEstimate ActionMode.TRAINING_MODE svm src dst r).2.dp.stream =
          sinkAfter s0 (callEstimate ActionMode.TRAINING_MODE svm src dst r).2.log
            (callEstimate ActionMode.TRAINING_MODE svm src dst r).2.before) := by
    intro src r ⟨h1, h2⟩
    refine ⟨by simp [callEstimate, h1], ?_⟩
    have hz : List.zip (callEstimate ActionMode.TRAINING_MODE svm src dst r).2.log
        (callEstimate ActionMode.TRAINING_MODE svm src dst r).2.before =
        List.zip r.log r.before ++
          [({ src := src, dst := dst,
              accept := (callEstimate ActionMode.TRAINING_MODE svm src dst r).1,
              agenda := r.agenda }, r.dp)] := zip_snoc _ _ _ _ h1
    unfold sinkAfter
    rw [hz, List.foldl_append, List.foldl_cons, List.foldl_nil]
    unfold sinkAfter at h2
    rw [← h2]
    show (estimate ActionMode.TRAINING_MODE svm r.tree src dst r.score r.dp).dp.stream =
      r.dp.stream ++ record (estimate ActionMode.TRAINING_MODE svm r.tree src dst r.score
        r.dp).accept (assemble src dst r.dp).fpset_
    rw [estimate_training_eq]
    rfl
  exact round_preserves ActionMode.TRAINING_MODE svm dst
    (fun r => r.log.length = r.before.length ∧ r.dp.stream = sinkAfter s0 r.log r.before)
    (fun _ => True)
    (fun _ _ h => h)
    (fun src r _ h _ => hest src r h)
    (fun src r _ h _ => hest src r h)
    r (fun _ _ => trivial) ⟨hlen, hs⟩

theorem runUpTo_sink (svm : List String → Int) (tree : Tree) (p : DependencyParser) (d : Nat) :
    (runUpTo ActionMode.TRAINING_MODE svm tree p d).log.length =
      (runUpTo ActionMode.TRAINING_MODE svm tree p d).before.length ∧
    (runUpTo ActionMode.TRAINING_MODE svm tree p d).dp.stream =
      sinkAfter p.stream (runUpTo ActionMode.TRAINING_MODE svm tree p d).log
        (runUpTo ActionMode.TRAINING_MODE svm tree p d).before := by
  induction d with
  | zero =>
    refine ⟨rfl, ?_⟩
    show (build tree p).2.stream = _
    rw [(build_spec tree p).2.2.2.2.2.2.2.2.2.2]
    rfl
  | succ d ih =>
    rw [runUpTo_succ]
    exact round_sink svm p.stream _ (d + 1) ih.1 ih.2






theorem callsOf_rest_head (dst : Nat) (acc : List Nat) (y : Nat) (rest : List Nat) :
    ({ src := y, dst := dst, accept := false, agenda := rest } : Call) ∈
      callsOf dst acc (y :: rest) := by
  induction acc with
  | nil => simp [callsOf]
  | cons a acc ih =>
    simp only [callsOf, List.mem_cons]
    exact Or.inr ih

/-- In training mode on a sentence with in-range, non-crossing gold heads, after
the round `d` every chunk whose gold head is at most `d` has been given a
head. -/
theorem runUpTo_gold (svm : List String → Int) (tree : Tree) (p : DependencyParser)
    (hg : ∀ i, i + 1 < tree.chunk_size →
      (i : Int) < tree.link i ∧ tree.link i ≤ (tree.chunk_size : Int) - 1)
    (hproj : ∀ i j, i < j → j + 1 < tree.chunk_size → (j : Int) < tree.link i →
      tree.link j ≤ tree.link i)
    (d : Nat) (hd : d + 2 ≤ tree.chunk_size ∨ d = 0) :
    ∀ i, i + 1 < tree.chunk_size → tree.link i ≤ (d : Int) →
      i ∈ attached (runUpTo ActionMode.TRAINING_MODE svm tree p d).log := by
  induction d with
  | zero =>
    intro i hi hl
    have := (hg i hi).1
    omega
  | succ d ih =>
    have hd2 : d + 3 ≤ tree.chunk_size := by omega
    have ih2 := ih (by omega)
    intro i hi hl
    have inv := runUpTo_inv ActionMode.TRAINING_MODE svm tree p d (by omega)
    have dec := (runUpTo_training svm tree p (d + 1) (by omega)).2.2
    obtain ⟨acc, rest, h1, _, h3, _⟩ :=
      round_spec ActionMode.TRAINING_MODE svm
        (runUpTo ActionMode.TRAINING_MODE svm tree p d) (d + 1)
    rw [← runUpTo_succ] at h3
    rw [h3, attached_append, attached_callsOf]
    by_cases hle : tree.link i ≤ (d : Int)
    · exact List.mem_append_left _ (ih2 i hi hle)
    · have hlink : tree.link i = ((d + 1 : Nat) : Int) := by push_cast; omega
      have hid : i ≤ d := by
        have := (hg i hi).1
        omega
      rcases inv.cover i hid with hc | hc
      · rw [h1] at hc
        rcases List.mem_append.mp hc with hc | hc
        · exact List.mem_append_right _ hc
        · exfalso
          cases hr : rest with
          | nil => rw [hr] at hc; simp at hc
          | cons y rest2 =>
            rw [hr] at hc h1 h3
            have hcall := callsOf_rest_head (d + 1) acc y rest2
            have hdec := dec _ (by rw [h3]; exact List.mem_append_right _ hcall)
            simp only [Bool.false_eq_true, false_iff] at hdec
            have hy_ag : y ∈ (runUpTo ActionMode.TRAINING_MODE svm tree p d).agenda := by
              rw [h1]; exact List.mem_append_right _ (List.mem_cons_self _ _)
            have hyd := inv.agenda_le y hy_ag
            have hy_un := inv.disjoint y hy_ag
            have hy_gt : ¬ tree.link y ≤ (d : Int) := fun hh => hy_un (ih2 y (by omega) hh)
            rcases List.mem_cons.mp hc with hc | hc
            · subst hc
              exact hdec hlink
            · have hs := inv.sorted
              rw [h1] at hs
              have hlt : i < y :=
                (List.pairwise_cons.mp (List.pairwise_append.mp hs).2.1).1 i hc
              have := hproj i y hlt (by omega) (by rw [hlink]; push_cast; omega)
              rw [hlink] at this
              push_cast at this hdec
              omega
      · exact List.mem_append_left _ hc

/-- C20. Training mode reproduces a projective gold tree.  For a sentence of
`N >= 1` chunks whose gold heads satisfy `i < g(i) <= N-1` for every `i < N-1`
and do not cross, training-mode `parse` ends with `head(i) = g(i)` for every
`i < N-1`; every accepted call is for a pair `(i, g(i))` with `i < N-1`, and
every chunk `i < N-1` is the source of exactly one accepted call; and the sink
has received one record per call, labelled `+1` exactly for the accepted
calls. -/
theorem training_reproduces_gold (svm : List String → Int) (tree : Tree)
    (p : DependencyParser) (_hN : 1 ≤ tree.chunk_size)
    (hg : ∀ i, i + 1 < tree.chunk_size →
      (i : Int) < tree.link i ∧ tree.link i ≤ (tree.chunk_size : Int) - 1)
    (hproj : ∀ i j, i < j → j + 1 < tree.chunk_size → (j : Int) < tree.link i →
      tree.link j ≤ tree.link i) :
    (∀ i, i + 1 < tree.chunk_size →
      (parse ActionMode.TRAINING_MODE svm tree p).1.link i = tree.link i) ∧
    (∀ e ∈ (parseRun ActionMode.TRAINING_MODE svm tree p).log, e.accept = true →
      e.src + 1 < tree.chunk_size ∧ (e.dst : Int) = tree.link e.src) ∧
    (∀ i, i + 1 < tree.chunk_size →
      (attached (parseRun ActionMode.TRAINING_MODE svm tree p).log).count i = 1) ∧
    (parseRun ActionMode.TRAINING_MODE svm tree p).log.length =
      (parseRun ActionMode.TRAINING_MODE svm tree p).before.length ∧
    (parse ActionMode.TRAINING_MODE svm tree p).2.stream =
      sinkAfter p.stream (parseRun ActionMode.TRAINING_MODE svm tree p).log
        (parseRun ActionMode.TRAINING_MODE svm tree p).before := by
  have inv := parseRun_inv ActionMode.TRAINING_MODE svm tree p
  have main : ∀ i, i + 1 < tree.chunk_size →
      (parseRun ActionMode.TRAINING_MODE svm tree p).tree.link i = tree.link i := by
    intro i hi
    obtain ⟨h, _, _, h3, h4, h5⟩ := parseRun_head ActionMode.TRAINING_MODE svm tree p i hi
    have mi : i ∈ attached (parseRun ActionMode.TRAINING_MODE svm tree p).log :=
      List.count_pos_iff.mp (by omega)
    obtain ⟨e, he, ae, se⟩ := (mem_attached _ _).mp mi
    have hdst := h5 e he ae se
    rw [h3]
    -- split the run into the rounds before the last and the last round
    obtain ⟨d0, hd0⟩ : ∃ d0, tree.chunk_size = d0 + 2 := ⟨tree.chunk_size - 2, by omega⟩
    have hfin : parseRun ActionMode.TRAINING_MODE svm tree p =
        runUpTo ActionMode.TRAINING_MODE svm tree p (d0 + 1) := by
      rw [parseRun_eq_runUpTo, hd0]
      rfl
    have inv0 := runUpTo_inv ActionMode.TRAINING_MODE svm tree p d0 (by omega)
    have dec0 := (runUpTo_training svm tree p d0 (by omega)).2.2
    have gold0 := runUpTo_gold svm tree p hg hproj d0 (by omega)
    obtain ⟨acc, rest, _, _, k3, _⟩ :=
      round_spec ActionMode.TRAINING_MODE svm
        (runUpTo ActionMode.TRAINING_MODE svm tree p d0) (d0 + 1)
    rw [← runUpTo_succ, ← hfin] at k3
    rw [k3] at he
    rcases List.mem_append.mp he with he | he
    · have := (dec0 e he).mp ae
      rw [se] at this
      rw [this, hdst]
    · have hd := (mem_callsOf _ _ _ _ he).1
      by_cases hle : tree.link i ≤ (d0 : Int)
      · exfalso
        have m0 := gold0 i hi hle
        obtain ⟨e', he', ae', se'⟩ := (mem_attached _ _).mp m0
        have hfin' : e' ∈ (parseRun ActionMode.TRAINING_MODE svm tree p).log := by
          rw [k3]; exact List.mem_append_left _ he'
        have hd' := h5 e' hfin' ae' se'
        have := (inv0.calls e' he').2
        omega
      · have := (hg i hi).2
        have e1 : tree.link i = ((d0 + 1 : Nat) : Int) := by push_cast; omega
        rw [e1, ← hdst, hd]
  refine ⟨fun i hi => by rw [parse_link]; exact main i hi, ?_, ?_, ?_, ?_⟩
  · intro e he ae
    have hc := inv.calls e he
    have hs : e.src + 1 < tree.chunk_size := by omega
    refine ⟨hs, ?_⟩
    rw [← main e.src hs, inv.links e he ae]
  · intro i hi
    exact (parseRun_head ActionMode.TRAINING_MODE svm tree p i hi).choose_spec.2.2.2.1
  · rw [parseRun_eq_runUpTo]
    exact (runUpTo_sink svm tree p _).1
  · show (parseRun ActionMode.TRAINING_MODE svm tree p).dp.stream = _
    rw [parseRun_eq_runUpTo]
    exact (runUpTo_sink svm tree p _).2






theorem goldExample_range : ∀ i, i + 1 < goldExample.chunk_size →
    (i : Int) < goldExample.link i ∧ goldExample.link i ≤ (goldExample.chunk_size : Int) - 1 := by
  intro i hi
  have hi2 : i < 3 := by
    have : goldExample.chunk_size = 4 := by decide
    omega
  interval_cases i <;> decide

theorem goldExample_projective : ∀ i j, i < j → j + 1 < goldExample.chunk_size →
    (j : Int) < goldExample.link i → goldExample.link j ≤ goldExample.link i := by
  intro i j hij hj
  have hj2 : j < 3 := by
    have : goldExample.chunk_size = 4 := by decide
    omega
  interval_cases j <;> interval_cases i <;> decide

/-- C20 at a concrete input: training-mode `parse` on `goldExample`, whose gold
heads 1, 3, 3 are in range and do not cross, ends with these heads and has
written four records, three of them labelled `+1`. -/
theorem training_reproduces_gold_witness :
    (parse ActionMode.TRAINING_MODE rejectSvm goldExample emptyParser).1.link 0 = 1 ∧
    (parse ActionMode.TRAINING_MODE rejectSvm goldExample emptyParser).1.link 1 = 3 ∧
    (parse ActionMode.TRAINING_MODE rejectSvm goldExample emptyParser).1.link 2 = 3 ∧
    (parse ActionMode.TRAINING_MODE rejectSvm goldExample emptyParser).2.stream =
      "+1 DIST:1 F:b f:a\n-1 DIST:1 F:c f:b\n+1 DIST:1 F:d f:c\n+1 DIST:2-5 F:d f:b\n" := by
  have h := training_reproduces_gold rejectSvm goldExample emptyParser (by decide)
    goldExample_range goldExample_projective
  exact ⟨(h.1 0 (by decide)).trans (by decide), (h.1 1 (by decide)).trans (by decide),
    (h.1 2 (by decide)).trans (by decide), by decide⟩




/-! ## Inference and training side by side -/

theorem whileLoop_reject (mode : ActionMode) (svm : List String → Int) (dst src : Nat)
    (ag : List Nat) (r : Run)
    (h : (callEstimate mode svm src dst { r with agenda := ag }).1 = false) :
    whileLoop mode svm dst (some src) ag r =
      (some src, (callEstimate mode svm src dst { r with agenda := ag }).2) := by
  cases ag <;> (unfold whileLoop; simp [h])

theorem whileLoop_accept_nil (mode : ActionMode) (svm : List String → Int) (dst src : Nat)
    (r : Run) (h : (callEstimate mode svm src dst { r with agenda := [] }).1 = true) :
    whileLoop mode svm dst (some src) [] r =
      (none, commit src dst (callEstimate mode svm src dst { r with agenda := [] }).2) := by
  unfold whileLoop
  simp [h]

theorem whileLoop_accept_cons (mode : ActionMode) (svm : List String → Int) (dst src n : Nat)
    (rest : List Nat) (r : Run)
    (h : (callEstimate mode svm src dst { r with agenda := n :: rest }).1 = true) :
    whileLoop mode svm dst (some src) (n :: rest) r =
      whileLoop mode svm dst (some n) rest
        (commit src dst (callEstimate mode svm src dst { r with agenda := n :: rest }).2) := by
  conv_lhs => unfold whileLoop
  simp [h]

/-- The call that opens the `while` loop stays in the log the loop leaves. -/
theorem whileLoop_log_first (mode : ActionMode) (svm : List String → Int) (dst src : Nat)
    (ag : List Nat) (r : Run) :
    ∀ e ∈ (callEstimate mode svm src dst { r with agenda := ag }).2.log,
      e ∈ (whileLoop mode svm dst (some src) ag r).2.log := by
  intro e he
  cases hc : (callEstimate mode svm src dst { r with agenda := ag }).1 with
  | false =>
    rw [whileLoop_reject mode svm dst src ag r hc]
    exact he
  | true =>
    cases ag with
    | nil =>
      rw [whileLoop_accept_nil mode svm dst src r hc]
      exact he
    | cons n rest =>
      rw [whileLoop_accept_cons mode svm dst src n rest r hc]
      obtain ⟨_, _, _, _, h3, _⟩ := whileLoop_spec mode svm dst rest n
        (commit src dst (callEstimate mode svm src dst { r with agenda := n :: rest }).2)
      rw [h3]
      exact List.mem_append_left _ he

theorem sameCaches_refl (a : DependencyParser) : SameCaches a a :=
  ⟨rfl, rfl, rfl, rfl, rfl, rfl, rfl⟩

theorem sameCaches_assemble {a b : DependencyParser} (h : SameCaches a b) (src dst : Nat) :
    SameCaches (assemble src dst a) (assemble src dst b) ∧
    (assemble src dst a).fpset_ = (assemble src dst b).fpset_ := by
  obtain ⟨h1, h2, h3, h4, h5, h6, h7⟩ := h
  cases a
  cases b
  simp only at h1 h2 h3 h4 h5 h6 h7
  subst h1 h2 h3 h4 h5 h6 h7
  exact ⟨⟨rfl, rfl, rfl, rfl, rfl, rfl, rfl⟩, rfl⟩

theorem sameCaches_estimate {a b : DependencyParser} (h : SameCaches a b)
    (svm svm2 : List String → Int) (t1 t2 : Tree) (src dst : Nat) (s1 s2 : Int)
    (h1 : (t1.chunk_size : Int) - 1 ≠ (dst : Int)) :
    SameCaches (estimate ActionMode.PARSING_MODE svm t1 src dst s1 a).dp
      (estimate ActionMode.TRAINING_MODE svm2 t2 src dst s2 b).dp := by
  rw [estimate_parsing_inner svm t1 src dst s1 a h1, estimate_training_eq]
  exact (sameCaches_assemble h src dst).1

theorem sameCaches_commit {r1 r2 : Run} (h : SameCaches r1.dp r2.dp) (src dst : Nat) :
    SameCaches (commit src dst r1).dp (commit src dst r2).dp := by
  obtain ⟨h1, h2, h3, h4, h5, h6, h7⟩ := h
  refine ⟨h1, h2, ?_, h4, ?_, h6, h7⟩
  · show copy_back r1.dp.dyn_b_ src (pool r1.dp.dyn_b_feature_ dst) =
      copy_back r2.dp.dyn_b_ src (pool r2.dp.dyn_b_feature_ dst)
    rw [h2, h3]
  · show copy_back r1.dp.dyn_a_ dst (pool r1.dp.dyn_a_feature_ src) =
      copy_back r2.dp.dyn_a_ dst (pool r2.dp.dyn_a_feature_ src)
    rw [h4, h5]






/-- One call made by both runs from related states, in a round that is not the
round of the last chunk: the decisions agree when the inference decision is
the one the gold links dictate, and the states stay related. -/
theorem callEstimate_sim (svm svm2 : List String → Int) (g : Nat → Int) (N dst : Nat)
    (hdst : (N : Int) - 1 ≠ (dst : Int)) (src : Nat) (r1 r2 : Run)
    (hag : r1.agenda = r2.agenda) (h : SimRel g N r1 r2)
    (hdec : (callEstimate ActionMode.PARSING_MODE svm src dst r1).1 = true ↔
      g src = (dst : Int)) :
    (callEstimate ActionMode.PARSING_MODE svm src dst r1).1 =
      (callEstimate ActionMode.TRAINING_MODE svm2 src dst r2).1 ∧
    ((callEstimate ActionMode.PARSING_MODE svm src dst r1).1 = true → g src = (dst : Int)) ∧
    SimRel g N (callEstimate ActionMode.PARSING_MODE svm src dst r1).2
      (callEstimate ActionMode.TRAINING_MODE svm2 src dst r2).2 := by
  have h2 : (callEstimate ActionMode.TRAINING_MODE svm2 src dst r2).1 = true ↔
      g src = (dst : Int) := by
    show (estimate ActionMode.TRAINING_MODE svm2 r2.tree src dst r2.score r2.dp).accept = true ↔ _
    rw [estimate_training_eq, h.size2, h.links]
    simp [hdst]
  have heq : (callEstimate ActionMode.PARSING_MODE svm src dst r1).1 =
      (callEstimate ActionMode.TRAINING_MODE svm2 src dst r2).1 := by
    cases h1c : (callEstimate ActionMode.PARSING_MODE svm src dst r1).1 <;>
      cases h2c : (callEstimate ActionMode.TRAINING_MODE svm2 src dst r2).1
    · rfl
    · exact absurd (hdec.mpr (h2.mp h2c)) (by rw [h1c]; simp)
    · exact absurd (h2.mpr (hdec.mp h1c)) (by rw [h2c]; simp)
    · rfl
  refine ⟨heq, hdec.mp, ?_⟩
  refine
    { log := ?_
      caches := ?_
      before := ?_
      size1 := h.size1
      size2 := h.size2
      links := h.links }
  · rw [callEstimate_log, callEstimate_log, heq, h.log, hag]
  · exact sameCaches_estimate h.caches svm svm2 r1.tree r2.tree src dst r1.score r2.score
      (by rw [h.size1]; exact hdst)
  · show List.Forall₂ SameCaches (r1.before ++ [r1.dp]) (r2.before ++ [r2.dp])
    exact List.rel_append h.before (List.Forall₂.cons h.caches List.Forall₂.nil)

theorem commit_sim (g : Nat → Int) (N dst src : Nat) (r1 r2 : Run) (h : SimRel g N r1 r2)
    (hg : g src = (dst : Int)) : SimRel g N (commit src dst r1) (commit src dst r2) := by
  refine
    { log := h.log
      caches := sameCaches_commit h.caches src dst
      before := h.before
      size1 := ?_
      size2 := ?_
      links := ?_ }
  · show (Tree.attach _ _ _ _).chunk_size = N
    rw [chunk_size_attach]; exact h.size1
  · show (Tree.attach _ _ _ _).chunk_size = N
    rw [chunk_size_attach]; exact h.size2
  · intro i
    show (Tree.attach _ _ _ _).link i = g i
    rw [link_attach]
    by_cases hi : i = src ∧ i < r2.tree.chunk_size
    · rw [if_pos hi, hi.1, hg]
    · rw [if_neg hi]; exact h.links i

theorem SimRel.with_agenda {g : Nat → Int} {N : Nat} {r1 r2 : Run} (h : SimRel g N r1 r2)
    (a1 a2 : List Nat) : SimRel g N { r1 with agenda := a1 } { r2 with agenda := a2 } :=
  ⟨h.log, h.caches, h.before, h.size1, h.size2, h.links⟩

/-- The `while` loops of the two runs, started from related states on the same
stack in a round that is not the round of the last chunk, make the same calls
and leave related states and the same stack, provided every call the
inference loop makes was decided as the gold links dictate. -/
theorem whileLoop_sim (svm svm2 : List String → Int) (g : Nat → Int) (N dst : Nat)
    (hdst : (N : Int) - 1 ≠ (dst : Int)) (ag : List Nat) (src : Nat) (r1 r2 : Run)
    (h : SimRel g N r1 r2)
    (hF : ∀ e ∈ (whileLoop ActionMode.PARSING_MODE svm dst (some src) ag r1).2.log,
      e.dst = dst → (e.accept = true ↔ g e.src = (e.dst : Int))) :
    SimRel g N (whileLoop ActionMode.PARSING_MODE svm dst (some src) ag r1).2
      (whileLoop ActionMode.TRAINING_MODE svm2 dst (some src) ag r2).2 ∧
    stackAfter (whileLoop ActionMode.PARSING_MODE svm dst (some src) ag r1) =
      stackAfter (whileLoop ActionMode.TRAINING_MODE svm2 dst (some src) ag r2) := by
  induction ag generalizing src r1 r2 with
  | nil =>
    have hev := hF _ (whileLoop_log_first ActionMode.PARSING_MODE svm dst src [] r1 _
      (by rw [callEstimate_log]; exact List.mem_append_right _ (List.mem_singleton_self _))) rfl
    obtain ⟨heq, hgd, hrel⟩ := callEstimate_sim svm svm2 g N dst hdst src
      { r1 with agenda := [] } { r2 with agenda := [] } rfl (h.with_agenda [] []) hev
    cases hc : (callEstimate ActionMode.PARSING_MODE svm src dst { r1 with agenda := [] }).1 with
    | false =>
      rw [whileLoop_reject _ _ _ _ _ _ hc, whileLoop_reject _ _ _ _ _ _ (heq ▸ hc)]
      exact ⟨hrel, rfl⟩
    | true =>
      rw [whileLoop_accept_nil _ _ _ _ _ hc, whileLoop_accept_nil _ _ _ _ _ (heq ▸ hc)]
      exact ⟨commit_sim g N dst src _ _ hrel (hgd hc), rfl⟩
  | cons n rest ih =>
    have hev := hF _ (whileLoop_log_first ActionMode.PARSING_MODE svm dst src (n :: rest) r1 _
      (by rw [callEstimate_log]; exact List.mem_append_right _ (List.mem_singleton_self _))) rfl
    obtain ⟨heq, hgd, hrel⟩ := callEstimate_sim svm svm2 g N dst hdst src
      { r1 with agenda := n :: rest } { r2 with agenda := n :: rest } rfl
      (h.with_agenda _ _) hev
    cases hc : (callEstimate ActionMode.PARSING_MODE svm src dst
        { r1 with agenda := n :: rest }).1 with
    | false =>
      rw [whileLoop_reject _ _ _ _ _ _ hc, whileLoop_reject _ _ _ _ _ _ (heq ▸ hc)]
      exact ⟨hrel, rfl⟩
    | true =>
      rw [whileLoop_accept_cons _ _ _ _ _ _ _ hc] at hF ⊢
      rw [whileLoop_accept_cons _ _ _ _ _ _ _ (heq ▸ hc)]
      exact ih n _ _ (commit_sim g N dst src _ _ hrel (hgd hc)) hF






theorem round_eq_of_cons (mode : ActionMode) (svm : List String → Int) (r : Run) (dst s : Nat)
    (ag : List Nat) (h : r.agenda = s :: ag) :
    round mode svm r dst =
      { (whileLoop mode svm dst (some s) ag r).2 with
        agenda := dst :: stackAfter (whileLoop mode svm dst (some s) ag r) } := by
  simp only [round, h, MYPOP]
  rfl

theorem round_eq_of_nil (mode : ActionMode) (svm : List String → Int) (r : Run) (dst : Nat)
    (h : r.agenda = []) : round mode svm r dst = { r with agenda := [dst] } := by
  simp [round, h, MYPOP, whileLoop]

theorem round_sim (svm svm2 : List String → Int) (g : Nat → Int) (N dst : Nat)
    (hdst : (N : Int) - 1 ≠ (dst : Int)) (r1 r2 : Run) (hag : r1.agenda = r2.agenda)
    (h : SimRel g N r1 r2)
    (hF : ∀ e ∈ (round ActionMode.PARSING_MODE svm r1 dst).log,
      e.dst = dst → (e.accept = true ↔ g e.src = (e.dst : Int))) :
    SimRel g N (round ActionMode.PARSING_MODE svm r1 dst)
      (round ActionMode.TRAINING_MODE svm2 r2 dst) ∧
    (round ActionMode.PARSING_MODE svm r1 dst).agenda =
      (round ActionMode.TRAINING_MODE svm2 r2 dst).agenda := by
  cases ha : r1.agenda with
  | nil =>
    rw [round_eq_of_nil _ _ _ _ ha, round_eq_of_nil _ _ _ _ (hag ▸ ha)]
    exact ⟨h.with_agenda _ _, rfl⟩
  | cons s ag =>
    rw [round_eq_of_cons _ _ _ _ _ _ ha] at hF ⊢
    rw [round_eq_of_cons _ _ _ _ _ _ (hag ▸ ha)]
    obtain ⟨k1, k2⟩ := whileLoop_sim svm svm2 g N dst hdst ag s r1 r2 h hF
    exact ⟨k1.with_agenda _ _, by show dst :: _ = dst :: _; rw [k2]⟩

theorem build_same (tree tg : Tree) (p p2 : DependencyParser)
    (hfeat : tg.chunks.map (fun c => c.feature_list) = tree.chunks.map (fun c => c.feature_list)) :
    SameCaches (build tree p).2 (build tg p2).2 := by
  have hsz : tg.chunk_size = tree.chunk_size := by
    have := congrArg List.length hfeat
    simpa [Tree.chunk_size] using this
  have hmap : ∀ c : Char, tg.chunks.map (fun ch => ch.feature_list.filter (hasTag c)) =
      tree.chunks.map (fun ch => ch.feature_list.filter (hasTag c)) := by
    intro c
    have := congrArg (List.map (fun fs : List String => fs.filter (hasTag c))) hfeat
    simpa [List.map_map] using this
  obtain ⟨_, a1, a2, a3, a4, a5, a6, a7, _⟩ := build_spec tree p
  obtain ⟨_, b1, b2, b3, b4, b5, b6, b7, _⟩ := build_spec tg p2
  refine ⟨?_, ?_, ?_, ?_, ?_, ?_, ?_⟩
  · rw [a1, b1, hmap]
  · rw [a4, b4, hmap]
  · rw [a6, b6, hsz]
  · rw [a3, b3, hmap]
  · rw [a5, b5, hsz]
  · rw [a7, b7, hmap, hsz]
  · rw [a2, b2, hmap]

/-- Up to the round before the round of the last chunk, the inference run and the
training run on the gold links it will produce go side by side. -/
theorem runUpTo_sim (svm svm2 : List String → Int) (tree tg : Tree) (p p2 : DependencyParser)
    (hfeat : tg.chunks.map (fun c => c.feature_list) = tree.chunks.map (fun c => c.feature_list))
    (hF : ∀ e ∈ (parseRun ActionMode.PARSING_MODE svm tree p).log,
      (e.accept = true ↔ tg.link e.src = (e.dst : Int)))
    (d : Nat) (hd : d + 2 ≤ tree.chunk_size ∨ d = 0) :
    SimRel (fun i => tg.link i) tree.chunk_size
      (runUpTo ActionMode.PARSING_MODE svm tree p d)
      (runUpTo ActionMode.TRAINING_MODE svm2 tg p2 d) ∧
    (runUpTo ActionMode.PARSING_MODE svm tree p d).agenda =
      (runUpTo ActionMode.TRAINING_MODE svm2 tg p2 d).agenda := by
  induction d with
  | zero =>
    refine ⟨?_, rfl⟩
    refine
      { log := rfl
        caches := build_same tree tg p p2 hfeat
        before := List.Forall₂.nil
        size1 := rfl
        size2 := ?_
        links := fun _ => rfl }
    have := congrArg List.length hfeat
    simpa [Tree.chunk_size, runUpTo_zero, initRun] using this
  | succ d ih =>
    obtain ⟨k1, k2⟩ := ih (by omega)
    rw [runUpTo_succ, runUpTo_succ]
    apply round_sim svm svm2 _ _ (d + 1) (by omega) _ _ k2 k1
    intro e he _
    apply hF
    rw [← runUpTo_succ] at he
    have := runUpTo_log_mono ActionMode.PARSING_MODE svm tree p (d + 1)
      (tree.chunk_size - 1 - (d + 1)) e he
    rw [parseRun_eq_runUpTo]
    have e1 : d + 1 + (tree.chunk_size - 1 - (d + 1)) = tree.chunk_size - 1 := by omega
    rw [e1] at this
    exact this






theorem round_before_ext (mode : ActionMode) (svm : List String → Int) (r : Run) (dst : Nat) :
    ∃ ext, (round mode svm r dst).before = r.before ++ ext :=
  round_preserves mode svm dst (fun r2 => ∃ ext, r2.before = r.before ++ ext) (fun _ => True)
    (fun _ _ h => h)
    (fun src r2 _ ⟨ext, h⟩ _ => ⟨ext ++ [r2.dp], by
      show r2.before ++ [r2.dp] = _
      rw [h, List.append_assoc]⟩)
    (fun src r2 _ ⟨ext, h⟩ _ => ⟨ext ++ [r2.dp], by
      show r2.before ++ [r2.dp] = _
      rw [h, List.append_assoc]⟩)
    r (fun _ _ => trivial) ⟨[], (List.append_nil _).symm⟩

theorem zip3_mem_left {α β γ : Type} (L : List α) (B1 : List β) (B2 : List γ)
    (x : α × β × γ) (h : x ∈ List.zip L (List.zip B1 B2)) : (x.1, x.2.1) ∈ List.zip L B1 := by
  induction L generalizing B1 B2 with
  | nil => simp at h
  | cons a L ih =>
    cases B1 with
    | nil => simp at h
    | cons b B1 =>
      cases B2 with
      | nil => simp at h
      | cons c B2 =>
        simp only [List.zip_cons_cons, List.mem_cons] at h ⊢
        rcases h with h | h
        · left; rw [h]
        · right; exact ih B1 B2 h

/-- In inference mode, every call whose destination is not the last chunk was
decided by the sign of the classifier's score on the set assembled from the
state the call was entered with. -/
theorem runUpTo_scored (svm : List String → Int) (tree : Tree) (p : DependencyParser) (d : Nat) :
    (runUpTo ActionMode.PARSING_MODE svm tree p d).tree.chunk_size = tree.chunk_size ∧
    (runUpTo ActionMode.PARSING_MODE svm tree p d).log.length =
      (runUpTo ActionMode.PARSING_MODE svm tree p d).before.length ∧
    ∀ es ∈ List.zip (runUpTo ActionMode.PARSING_MODE svm tree p d).log
        (runUpTo ActionMode.PARSING_MODE svm tree p d).before,
      (tree.chunk_size : Int) - 1 ≠ (es.1.dst : Int) →
      es.1.accept = decide (0 < svm (assemble es.1.src es.1.dst es.2).fpset_) := by
  induction d with
  | zero => exact ⟨rfl, rfl, fun es hes => by simp [runUpTo_zero, initRun] at hes⟩
  | succ d ih =>
    rw [runUpTo_succ]
    have hest : ∀ (src : Nat) (r : Run),
        (r.tree.chunk_size = tree.chunk_size ∧ r.log.length = r.before.length ∧
          ∀ es ∈ List.zip r.log r.before, (tree.chunk_size : Int) - 1 ≠ (es.1.dst : Int) →
            es.1.accept = decide (0 < svm (assemble es.1.src es.1.dst es.2).fpset_)) →
        ((callEstimate ActionMode.PARSING_MODE svm src (d + 1) r).2.tree.chunk_size =
            tree.chunk_size ∧
          (callEstimate ActionMode.PARSING_MODE svm src (d + 1) r).2.log.length =
            (callEstimate ActionMode.PARSING_MODE svm src (d + 1) r).2.before.length ∧
          ∀ es ∈ List.zip (callEstimate ActionMode.PARSING_MODE svm src (d + 1) r).2.log
              (callEstimate ActionMode.PARSING_MODE svm src (d + 1) r).2.before,
            (tree.chunk_size : Int) - 1 ≠ (es.1.dst : Int) →
            es.1.accept = decide (0 < svm (assemble es.1.src es.1.dst es.2).fpset_)) := by
      intro src r ⟨h1, h2, h3⟩
      refine ⟨h1, by simp [callEstimate, h2], ?_⟩
      intro es hes hne
      have hz : List.zip (callEstimate ActionMode.PARSING_MODE svm src (d + 1) r).2.log
          (callEstimate ActionMode.PARSING_MODE svm src (d + 1) r).2.before =
          List.zip r.log r.before ++
            [({ src := src, dst := d + 1,
                accept := (callEstimate ActionMode.PARSING_MODE svm src (d + 1) r).1,
                agenda := r.agenda }, r.dp)] := zip_snoc _ _ _ _ h2
      rw [hz] at hes
      rcases List.mem_append.mp hes with hes | hes
      · exact h3 es hes hne
      · rw [List.mem_singleton] at hes
        subst hes
        show (estimate ActionMode.PARSING_MODE svm r.tree src (d + 1) r.score r.dp).accept = _
        rw [estimate_parsing_inner svm r.tree src (d + 1) r.score r.dp (by rw [h1]; exact hne)]
    exact round_preserves ActionMode.PARSING_MODE svm (d + 1)
      (fun r => r.tree.chunk_size = tree.chunk_size ∧ r.log.length = r.before.length ∧
        ∀ es ∈ List.zip r.log r.before, (tree.chunk_size : Int) - 1 ≠ (es.1.dst : Int) →
          es.1.accept = decide (0 < svm (assemble es.1.src es.1.dst es.2).fpset_))
      (fun _ => True)
      (fun _ _ h => h)
      (fun src r _ h _ => hest src r h)
      (fun src r _ h _ => by
        obtain ⟨k1, k2, k3⟩ := hest src r h
        refine ⟨?_, k2, k3⟩
        show (Tree.attach _ _ _ _).chunk_size = _
        rw [chunk_size_attach]
        exact k1)
      _ (fun _ _ => trivial) ih






/-- The last round of a run entered with the stack `S`, when its destination is
the last chunk: every stack entry is accepted, so the round appends
`callsOf dst S []` to the log and sets the head of every stack entry to
`dst`. -/
theorem round_last (mode : ActionMode) (svm : List String → Int) (r : Run) (dst : Nat)
    (h : (r.tree.chunk_size : Int) - 1 = (dst : Int)) :
    (round mode svm r dst).log = r.log ++ callsOf dst r.agenda [] ∧
    (∀ i, (round mode svm r dst).tree.link i =
      if i ∈ r.agenda ∧ i < r.tree.chunk_size then (dst : Int) else r.tree.link i) := by
  obtain ⟨acc, rest, h1, _, h3, _, h5, _, h7⟩ := round_spec mode svm r dst
  have hr := h7 h
  subst hr
  rw [List.append_nil] at h1
  subst h1
  exact ⟨h3, h5⟩

theorem zip3_split {α β γ : Type} (L C : List α) (B1 E1 : List β) (B2 E2 : List γ)
    (h1 : L.length = B1.length) (h2 : B1.length = B2.length)
    (x : α × β × γ) (h : x ∈ List.zip (L ++ C) (List.zip (B1 ++ E1) (B2 ++ E2))) :
    ((x.2.1, x.2.2) ∈ List.zip B1 B2) ∨ x.1 ∈ C := by
  rw [List.zip_append h2, List.zip_append (by rw [List.length_zip]; omega)] at h
  rcases List.mem_append.mp h with h | h
  · left
    exact (List.of_mem_zip h).2
  · right
    exact (List.of_mem_zip h).1

/-- C11. Training/inference agreement.  Let `H` be the heads that
inference-mode `parse` gives a sentence with a classifier.  Training-mode
`parse` on a sentence with the same features whose gold heads are `H` makes the
same calls of `estimate` in the same order with the same results (so it labels
`+1` exactly the pairs inference accepted and `-1` the pairs it rejected),
ends with the heads `H`, writes one record per call to the sink, and for every
call whose `dst` is not the last chunk the feature set it writes is the set
from which the classifier of the inference run decided that call. -/
theorem training_agrees_with_inference (svm svm2 : List String → Int) (tree tg : Tree)
    (p p2 : DependencyParser)
    (hfeat : tg.chunks.map (fun c => c.feature_list) = tree.chunks.map (fun c => c.feature_list))
    (hgold : ∀ i, tg.link i = (parse ActionMode.PARSING_MODE svm tree p).1.link i) :
    (parseRun ActionMode.TRAINING_MODE svm2 tg p2).log =
      (parseRun ActionMode.PARSING_MODE svm tree p).log ∧
    (∀ i, (parse ActionMode.TRAINING_MODE svm2 tg p2).1.link i =
      (parse ActionMode.PARSING_MODE svm tree p).1.link i) ∧
    (parse ActionMode.TRAINING_MODE svm2 tg p2).2.stream =
      sinkAfter p2.stream (parseRun ActionMode.TRAINING_MODE svm2 tg p2).log
        (parseRun ActionMode.TRAINING_MODE svm2 tg p2).before ∧
    (parseRun ActionMode.TRAINING_MODE svm2 tg p2).before.length =
      (parseRun ActionMode.TRAINING_MODE svm2 tg p2).log.length ∧
    (parseRun ActionMode.PARSING_MODE svm tree p).before.length =
      (parseRun ActionMode.PARSING_MODE svm tree p).log.length ∧
    (∀ x ∈ List.zip (parseRun ActionMode.PARSING_MODE svm tree p).log
        (List.zip (parseRun ActionMode.PARSING_MODE svm tree p).before
          (parseRun ActionMode.TRAINING_MODE svm2 tg p2).before),
      (tree.chunk_size : Int) - 1 ≠ (x.1.dst : Int) →
      (assemble x.1.src x.1.dst x.2.2).fpset_ = (assemble x.1.src x.1.dst x.2.1).fpset_ ∧
      x.1.accept = decide (0 < svm (assemble x.1.src x.1.dst x.2.1).fpset_)) := by
  have hsize : tg.chunk_size = tree.chunk_size := by
    have := congrArg List.length hfeat
    simpa [Tree.chunk_size] using this
  have hF : ∀ e ∈ (parseRun ActionMode.PARSING_MODE svm tree p).log,
      (e.accept = true ↔ tg.link e.src = (e.dst : Int)) := by
    intro e he
    rw [hgold, parse_link]
    exact parseRun_consistent ActionMode.PARSING_MODE svm tree p e he
  have hsink := runUpTo_sink svm2 tg p2 (tg.chunk_size - 1)
  rw [← parseRun_eq_runUpTo] at hsink
  have hsc := runUpTo_scored svm tree p (tree.chunk_size - 1)
  rw [← parseRun_eq_runUpTo] at hsc
  have key : (parseRun ActionMode.TRAINING_MODE svm2 tg p2).log =
        (parseRun ActionMode.PARSING_MODE svm tree p).log ∧
      (∀ i, (parseRun ActionMode.TRAINING_MODE svm2 tg p2).tree.link i =
        (parseRun ActionMode.PARSING_MODE svm tree p).tree.link i) ∧
      (∀ x ∈ List.zip (parseRun ActionMode.PARSING_MODE svm tree p).log
          (List.zip (parseRun ActionMode.PARSING_MODE svm tree p).before
            (parseRun ActionMode.TRAINING_MODE svm2 tg p2).before),
        (tree.chunk_size : Int) - 1 ≠ (x.1.dst : Int) → SameCaches x.2.1 x.2.2) := by
    by_cases hN : tree.chunk_size ≤ 1
    · have e1 : tree.chunk_size - 1 = 0 := by omega
      have e2 : tg.chunk_size - 1 = 0 := by omega
      rw [parseRun_eq_runUpTo, parseRun_eq_runUpTo, e1, e2]
      refine ⟨rfl, fun i => ?_, fun x hx => ?_⟩
      · have := hgold i
        rw [parse_link, parseRun_eq_runUpTo, e1] at this
        exact this
      · simp [runUpTo_zero, initRun] at hx
    · obtain ⟨d0, hd0⟩ : ∃ d0, tree.chunk_size = d0 + 2 := ⟨tree.chunk_size - 2, by omega⟩
      have e1 : tree.chunk_size - 1 = d0 + 1 := by omega
      have e2 : tg.chunk_size - 1 = d0 + 1 := by omega
      obtain ⟨sim, hag⟩ := runUpTo_sim svm svm2 tree tg p p2 hfeat hF d0 (Or.inl (by omega))
      have hg2 : ∀ i, tg.link i =
          (round ActionMode.PARSING_MODE svm
            (runUpTo ActionMode.PARSING_MODE svm tree p d0) (d0 + 1)).tree.link i := by
        intro i
        have := hgold i
        rw [parse_link, parseRun_eq_runUpTo, e1, runUpTo_succ] at this
        exact this
      rw [parseRun_eq_runUpTo, parseRun_eq_runUpTo, e1, e2, runUpTo_succ, runUpTo_succ]
      obtain ⟨a1, a2⟩ := round_last ActionMode.PARSING_MODE svm
        (runUpTo ActionMode.PARSING_MODE svm tree p d0) (d0 + 1)
        (by rw [sim.size1, hd0]; push_cast; omega)
      obtain ⟨b1, b2⟩ := round_last ActionMode.TRAINING_MODE svm2
        (runUpTo ActionMode.TRAINING_MODE svm2 tg p2 d0) (d0 + 1)
        (by rw [sim.size2, hd0]; push_cast; omega)
      refine ⟨?_, fun i => ?_, fun x hx hne => ?_⟩
      · rw [a1, b1, sim.log, hag]
      · rw [b2 i, sim.size2, ← hag]
        by_cases hi : i ∈ (runUpTo ActionMode.PARSING_MODE svm tree p d0).agenda ∧
            i < tree.chunk_size
        · rw [if_pos hi, a2 i, sim.size1, if_pos hi]
        · rw [if_neg hi, sim.links i]
          exact hg2 i
      · obtain ⟨x1, hx1⟩ := round_before_ext ActionMode.PARSING_MODE svm
          (runUpTo ActionMode.PARSING_MODE svm tree p d0) (d0 + 1)
        obtain ⟨x2, hx2⟩ := round_before_ext ActionMode.TRAINING_MODE svm2
          (runUpTo ActionMode.TRAINING_MODE svm2 tg p2 d0) (d0 + 1)
        rw [a1, hx1, hx2] at hx
        have hl := (runUpTo_scored svm tree p d0).2.1
        have hb := sim.before
        rcases zip3_split _ _ _ _ _ _ hl hb.length_eq x hx with h | h
        · exact (List.forall₂_iff_zip.mp hb).2 h
        · exfalso
          apply hne
          rw [(mem_callsOf _ _ _ _ h).1, hd0]
          push_cast
          omega
  obtain ⟨k1, k2, k3⟩ := key
  refine ⟨k1, fun i => ?_, hsink.2, hsink.1.symm, hsc.2.1.symm, fun x hx hne => ⟨?_, ?_⟩⟩
  · rw [parse_link, parse_link]
    exact k2 i
  · exact (sameCaches_assemble (k3 x hx hne) x.1.src x.1.dst).2.symm
  · exact hsc.2.2 (x.1, x.2.1) (zip3_mem_left _ _ _ x hx) hne






theorem goldInput_heads :
    ∀ i, goldExample.link i =
      (parse ActionMode.PARSING_MODE sourceASvm goldInput emptyParser).1.link i := by
  intro i
  match i with
  | 0 => decide
  | 1 => decide
  | 2 => decide
  | 3 => decide
  | n + 4 =>
    have h2 : (parse ActionMode.PARSING_MODE sourceASvm goldInput emptyParser).1.chunks.length
        = 4 := by decide
    have h3 : (parse ActionMode.PARSING_MODE sourceASvm goldInput emptyParser).1.chunks[n + 4]?
        = none := List.getElem?_eq_none (by omega)
    have h4 : goldExample.chunks[n + 4]? = none := List.getElem?_eq_none (by
      have : goldExample.chunks.length = 4 := by decide
      omega)
    unfold Tree.link
    rw [h3, h4]

/-- C11 at a concrete input: inference on `goldInput` with `sourceASvm` accepts
(0, 1), rejects (1, 2) and attaches chunks 2 and 1 to the last chunk, giving
the heads 1, 3, 3 of `goldExample`; training on `goldExample` makes the same
four calls, ends with the same heads and writes the four records. -/
theorem training_agrees_with_inference_witness :
    (parseRun ActionMode.TRAINING_MODE rejectSvm goldExample emptyParser).log =
      (parseRun ActionMode.PARSING_MODE sourceASvm goldInput emptyParser).log ∧
    (parseRun ActionMode.PARSING_MODE sourceASvm goldInput emptyParser).log.map
      (fun e => (e.src, e.dst, e.accept)) =
      [(0, 1, true), (1, 2, false), (2, 3, true), (1, 3, true)] ∧
    (parse ActionMode.TRAINING_MODE rejectSvm goldExample emptyParser).1.link 0 = 1 ∧
    (parse ActionMode.TRAINING_MODE rejectSvm goldExample emptyParser).1.link 1 = 3 ∧
    (parse ActionMode.TRAINING_MODE rejectSvm goldExample emptyParser).1.link 2 = 3 ∧
    (parse ActionMode.TRAINING_MODE rejectSvm goldExample emptyParser).2.stream =
      "+1 DIST:1 F:b f:a\n-1 DIST:1 F:c f:b\n+1 DIST:1 F:d f:c\n+1 DIST:2-5 F:d f:b\n" := by
  have h := training_agrees_with_inference sourceASvm rejectSvm goldInput goldExample
    emptyParser emptyParser (by decide) goldInput_heads
  exact ⟨h.1, by decide, (h.2.1 0).trans (by decide), (h.2.1 1).trans (by decide),
    (h.2.1 2).trans (by decide), by decide⟩






/-! ## The size of the sets assembled during a run -/

/-- Every state with which a call of `estimate` was entered, and the state after
the round, has the caches of `build` up to the role tags. -/
theorem round_before_stable (mode : ActionMode) (svm : List String → Int)
    (p0 : DependencyParser) (r : Run) (dst : Nat)
    (h : Stable p0 r.dp ∧ ∀ b ∈ r.before, Stable p0 b) :
    Stable p0 (round mode svm r dst).dp ∧ ∀ b ∈ (round mode svm r dst).before, Stable p0 b := by
  have hest : ∀ (src : Nat) (r : Run), (Stable p0 r.dp ∧ ∀ b ∈ r.before, Stable p0 b) →
      (Stable p0 (callEstimate mode svm src dst r).2.dp ∧
        ∀ b ∈ (callEstimate mode svm src dst r).2.before, Stable p0 b) := by
    intro src r ⟨h1, h2⟩
    refine ⟨h1.estimate mode svm r.tree src dst r.score, ?_⟩
    intro b hb
    have hb2 : b ∈ r.before ++ [r.dp] := hb
    rcases List.mem_append.mp hb2 with hb3 | hb3
    · exact h2 b hb3
    · rw [List.mem_singleton] at hb3
      rw [hb3]
      exact h1
  exact round_preserves mode svm dst
    (fun r => Stable p0 r.dp ∧ ∀ b ∈ r.before, Stable p0 b) (fun _ => True)
    (fun _ _ h => h)
    (fun src r _ h _ => hest src r h)
    (fun src r _ h _ =>
      ⟨Stable.commit (r := (callEstimate mode svm src dst r).2) (hest src r h).1 src dst,
        (hest src r h).2⟩)
    r (fun _ _ => trivial) h

theorem runUpTo_before_stable (mode : ActionMode) (svm : List String → Int) (tree : Tree)
    (p : DependencyParser) (d : Nat) :
    ∀ b ∈ (runUpTo mode svm tree p d).before, Stable (build tree p).2 b :=
  (foldl_inv (fun r : Run => Stable (build tree p).2 r.dp ∧
      ∀ b ∈ r.before, Stable (build tree p).2 b) (round mode svm) _
    (fun r dst h => round_before_stable mode svm _ r dst h) (initRun tree p)
    ⟨Stable.refl _, fun b hb => by simp [initRun] at hb⟩).2

theorem Stable.static_length {p0 p : DependencyParser} (h : Stable p0 p) (i : Nat) :
    (pool p.static_feature_ i).length = (pool p0.static_feature_ i).length := by
  have := congrArg List.length (h.2.2.2.2.2.2.2 i)
  simpa using this

/-- C16. Worst-case size of an assembled feature set.  For every sentence,
classifier, mode and prior parser state, that is for every content the caches
can have when `parse` calls `estimate`: every call is for a pair `src < dst`;
the static pools of `src` and `dst` have the sizes `build` gave them; and the
number of features assembled for the call (the size of `fpset_`, which is the
count copied into the buffer `fp_` and handed to the classifier) is at most
`1 + |static[src]| + |static[dst]| + 3*7`.  (An inference-mode call for the
last chunk returns before it assembles; the bound is then on the set that the
assembly would give.)  The bound holds for any cache content whose pool
`dyn_b_[dst]` is empty. -/
theorem parse_assemble_size (mode : ActionMode) (svm : List String → Int) (tree : Tree)
    (p : DependencyParser) :
    (parseRun mode svm tree p).log.length = (parseRun mode svm tree p).before.length ∧
    (∀ es ∈ List.zip (parseRun mode svm tree p).log (parseRun mode svm tree p).before,
      es.1.src < es.1.dst ∧
      (pool es.2.static_feature_ es.1.src).length =
        (pool (build tree p).2.static_feature_ es.1.src).length ∧
      (pool es.2.static_feature_ es.1.dst).length =
        (pool (build tree p).2.static_feature_ es.1.dst).length ∧
      (assemble es.1.src es.1.dst es.2).fpset_.length ≤
        1 + (pool (build tree p).2.static_feature_ es.1.src).length +
          (pool (build tree p).2.static_feature_ es.1.dst).length + 3 * 7 ∧
      ((assemble es.1.src es.1.dst es.2).fp_.take
          (assemble es.1.src es.1.dst es.2).fpset_.length).length =
        (assemble es.1.src es.1.dst es.2).fpset_.length) ∧
    (∀ (src dst : Nat) (q : DependencyParser), pool q.dyn_b_ dst = [] →
      (assemble src dst q).fpset_.length ≤
        1 + (pool q.static_feature_ src).length + (pool q.static_feature_ dst).length +
          3 * 7) := by
  have gen : ∀ (src dst : Nat) (q : DependencyParser), pool q.dyn_b_ dst = [] →
      (assemble src dst q).fpset_.length ≤
        1 + (pool q.static_feature_ src).length + (pool q.static_feature_ dst).length +
          3 * 7 := by
    intro src dst q hb
    have h := length_assemble_le src dst q
    rw [hb] at h
    simp only [List.length_nil, Nat.zero_min] at h
    omega
  have h := runUpTo_dynB mode svm tree p (tree.chunk_size - 1) (by omega)
  rw [← parseRun_eq_runUpTo] at h
  have hst := runUpTo_before_stable mode svm tree p (tree.chunk_size - 1)
  rw [← parseRun_eq_runUpTo] at hst
  have inv := parseRun_inv mode svm tree p
  refine ⟨h.1, ?_, gen⟩
  intro es hes
  obtain ⟨m1, m2⟩ := List.of_mem_zip hes
  have s1 := (hst es.2 m2).static_length es.1.src
  have s2 := (hst es.2 m2).static_length es.1.dst
  have hb := (h.2.2.1 es hes).1
  have hg := gen es.1.src es.1.dst es.2 hb
  refine ⟨(inv.calls es.1 m1).1, s1, s2, ?_, ?_⟩
  · rw [← s1, ← s2]
    exact hg
  · rw [assemble_fp_take]

/-- C16 at a concrete input: training-mode `parse` on `goldExample` makes four
calls, for the pairs (0, 1), (1, 2), (2, 3) and (1, 3); the sets assembled for
them have 3 features each, within the bound `1 + 1 + 1 + 21`. -/
theorem parse_assemble_size_witness :
    (parseRun ActionMode.TRAINING_MODE rejectSvm goldExample emptyParser).log.length =
      (parseRun ActionMode.TRAINING_MODE rejectSvm goldExample emptyParser).before.length ∧
    (List.zip (parseRun ActionMode.TRAINING_MODE rejectSvm goldExample emptyParser).log
      (parseRun ActionMode.TRAINING_MODE rejectSvm goldExample emptyParser).before).map
      (fun es => (es.1.src, es.1.dst, (assemble es.1.src es.1.dst es.2).fpset_.length)) =
      [(0, 1, 3), (1, 2, 3), (2, 3, 3), (1, 3, 3)] :=
  ⟨(parse_assemble_size ActionMode.TRAINING_MODE rejectSvm goldExample emptyParser).1,
    by decide⟩



end CaboCha
